import Mathlib

/-!
# Host Verification Service: the host-trust verifier and the flavor digest

A shallow embedding of

* `pkg/hvs/services/hosttrust/verifier.go` (`Verifier.Verify`, `getCachedFlavors`,
  `validateCachedFlavors`, `storeTrustReport`), and
* `pkg/lib/flavor/model/flavor.go` (`Flavor.UnmarshalJSON`, `getFlavorDigest`,
  `calculateFlavorDigest`).

The stores, the flavor verifier and the SAML generator are Go interfaces; they are
embedded as records of functions over an abstract world `W` (the database, the clock,
whatever the collaborators keep).  Every call the verifier makes to a collaborator is
appended to a call log carried next to the world.  For statements about what the
collaborators were asked, such as "`ReportStore.Update` is called exactly once" or "the
record handed to `ReportStore.Update`", the collaborators themselves record their
arguments and results (`recorded`), and the statements read that record.
-/

namespace HVS

/-! ## Errors -/

/-- Go `error` values built with `github.com/pkg/errors`: `errors.New` and `errors.Wrap`. -/
inductive Err where
  | new (msg : String)
  | wrap (cause : Err) (msg : String)
  deriving DecidableEq, Repr

/-- Source: `var ErrInvalidHostManiFest = errors.New("invalid host data")`. -/
def ErrInvalidHostManiFest : Err := Err.new "invalid host data"

/-- Source: `var ErrManifestMissingHwUUID = errors.New("host data missing hardware uuid")`. -/
def ErrManifestMissingHwUUID : Err := Err.new "host data missing hardware uuid"

/-! ## Data model -/

/-- The type `uuid.UUID` (16 bytes), as the number the bytes encode. -/
abbrev UUID := Nat

/-- The all-zero UUID `uuid.Nil`. -/
abbrev uuid.Nil : UUID := 0

/-- Go `[]byte`; a nil slice is `none` where the source tests for nil. -/
abbrev Bytes := List Nat

/-- Modelled from the spec: `types.HostInfo` (declared outside src); the verifier reads
only `HardwareUUID`. -/
structure HostInfo where
  HardwareUUID : String
  OSName : String
  BiosName : String
  deriving DecidableEq, Repr

/-- Modelled from the spec: `types.HostManifest` (declared outside src). -/
structure HostManifest where
  HostInfo : HostInfo
  PcrManifest : List (String × Nat × String)
  deriving DecidableEq, Repr

/-- The Go zero value of `types.HostManifest`. -/
def HostManifest.zero : HostManifest := ⟨⟨"", "", ""⟩, []⟩

/-- Modelled from the spec: the `meta` section of a flavor (declared outside src). -/
structure Meta where
  ID : UUID
  FlavorPart : String
  deriving DecidableEq, Repr

/-- Modelled from the spec: an expected PCR value (declared outside src). -/
structure PcrEx where
  Value : String
  Event : List String
  deriving DecidableEq, Repr

/-- Source: `type Flavor struct` in `flavor.go`.  The optional sections are pointers in
the source; their contents are declared outside src and kept as text.  `Pcrs` is the map
bank name -> index -> `PcrEx` as an association list.  `flavorDigest` is the unexported
`[]byte` field, `none` when nil. -/
structure Flavor where
  Meta : Meta
  Validity : Option String
  Bios : Option String
  Hardware : Option String
  Pcrs : List (String × List (String × PcrEx))
  External : Option String
  Software : Option String
  flavorDigest : Option Bytes
  deriving DecidableEq, Repr

/-- Modelled from the spec: `hvs.SignedFlavor`, a flavor and its detached signature. -/
structure SignedFlavor where
  Flavor : Flavor
  Signature : String
  deriving DecidableEq, Repr

/-- Modelled from the spec: one rule outcome `hvs.RuleResult` (declared outside src). -/
structure RuleResult where
  Rule : String
  FlavorId : UUID
  Trusted : Bool
  deriving DecidableEq, Repr

/-- Modelled from the spec: `hvs.TrustReport` (declared outside src): the embedded host
manifest, the rule results and the derived `Trusted` bit. -/
structure TrustReport where
  HostManifest : HostManifest
  Trusted : Bool
  Results : List RuleResult
  deriving DecidableEq, Repr

/-- The Go zero value of `hvs.TrustReport` (`var collectiveReport hvs.TrustReport`). -/
def TrustReport.zero : TrustReport := ⟨HostManifest.zero, false, []⟩

/-- Modelled from the spec: `TrustReport.AddResults` appends the given results to
`Results` (the method is declared outside src). -/
def TrustReport.AddResults (t : TrustReport) (ruleResults : List RuleResult) : TrustReport :=
  { t with Results := t.Results ++ ruleResults }

/-- Modelled from the spec: `TrustReport.IsTrusted` is the conjunction of `Result.Trusted`
over all results (the method is declared outside src). -/
def TrustReport.IsTrusted (t : TrustReport) : Bool :=
  t.Results.all (fun r => r.Trusted)

/-- Modelled from the spec: `saml.SamlAssertion`: the assertion text and both times. -/
structure SamlAssertion where
  Assertion : String
  CreatedTime : Nat
  ExpiryTime : Nat
  deriving DecidableEq, Repr

/-- Modelled from the spec: `saml.IssuerConfiguration` (declared outside src). -/
structure IssuerConfiguration where
  IssuerName : String
  ValiditySeconds : Nat
  deriving DecidableEq, Repr

/-- Modelled from the spec: the persisted record `models.HVSReport`. -/
structure HVSReport where
  ID : UUID
  HostID : UUID
  TrustReport : TrustReport
  CreatedAt : Nat
  Expiration : Nat
  Saml : String
  deriving DecidableEq, Repr

/-- Modelled from the spec: `hvs.FlavorGroup` (declared outside src). -/
structure FlavorGroup where
  ID : UUID
  Name : String
  deriving DecidableEq, Repr

/-- The struct `hostTrustCache` of package `hosttrust`, as `validateCachedFlavors` fills
it: `hostID`, `trustedFlavors`, `trustReport`. -/
structure hostTrustCache where
  hostID : UUID
  trustedFlavors : List Flavor
  trustReport : TrustReport
  deriving DecidableEq, Repr

/-- The Go zero value `hostTrustCache{}` (also `var fgTrustCache hostTrustCache`). -/
def hostTrustCache.zero : hostTrustCache := ⟨uuid.Nil, [], TrustReport.zero⟩

/-! ## Collaborators -/

/-- The methods of `domain.HostStore` the verifier calls.  Each takes the world and
returns the Go results together with the new world; a pair of results stands for a Go
multiple return in which both values are meaningful to the caller. -/
structure HostStore (W : Type) where
  SearchFlavorgroups : W → UUID → (List UUID × Option Err) × W
  RetrieveTrustCacheFlavors : W → UUID → UUID → (List UUID × Option Err) × W
  RemoveTrustCacheFlavors : W → UUID → List UUID → Option Err × W

/-- The method of `domain.FlavorStore` the verifier calls. -/
structure FlavorStore (W : Type) where
  Retrieve : W → UUID → Except Err SignedFlavor × W

/-- The method of `domain.FlavorGroupStore` the verifier calls, applied to the criteria
`FlavorGroupFilterCriteria{Ids: ids}`. -/
structure FlavorGroupStore (W : Type) where
  Search : W → List UUID → (List FlavorGroup × Option Err) × W

/-- The method of `domain.ReportStore` the verifier calls; the returned report may be nil
and the error non-nil independently. -/
structure ReportStore (W : Type) where
  Update : W → HVSReport → (Option HVSReport × Option Err) × W

/-- The interface `flavorVerifier.Verifier` of `pkg/lib/verifier`: `Verify` and
`GetVerifierCerts`. -/
structure FlavorVerifier (W C : Type) where
  Verify : W → HostManifest → SignedFlavor → Bool → Except Err TrustReport × W
  GetVerifierCerts : C

/-- Source: `type Verifier struct`.  `W` is the world, `R` the type of the flavor-group
trust requirements (`flvGrpHostTrustReqs`), `C` the type of the verifier certificates.
After the fields of the Go struct come the functions of the package and of
`pkg/lib/saml` that `Verify` calls and that are declared outside src:
`uuid.Parse`, `NewFlvGrpHostTrustReqs`, `MeetsFlavorGroupReqs`,
`CreateFlavorGroupReport` and `NewSamlReportGenerator(..).GenerateSamlReport`. -/
structure Verifier (W R C : Type) where
  FlavorStore : FlavorStore W
  FlavorGroupStore : FlavorGroupStore W
  HostStore : HostStore W
  ReportStore : ReportStore W
  FlavorVerifier : FlavorVerifier W C
  SamlIssuer : IssuerConfiguration
  SkipFlavorSignatureVerification : Bool
  uuidParse : String → Except Err UUID
  NewFlvGrpHostTrustReqs : W → UUID → UUID → FlavorGroup → HostManifest → Bool → Except Err R × W
  MeetsFlavorGroupReqs : R → hostTrustCache → C → Bool
  CreateFlavorGroupReport :
    W → UUID → R → HostManifest → hostTrustCache → Except Err TrustReport × W
  GenerateSamlReport : W → IssuerConfiguration → TrustReport → SamlAssertion × W

/-- One entry of the call log: a call made by the verifier, with the arguments (and for
some calls the result) that the statements below refer to. -/
inductive Call where
  | SearchFlavorgroups (hostId : UUID)
  | FlavorGroupSearch (ids : List UUID)
  | NewFlvGrpHostTrustReqs (hostId hwUuid fgId : UUID)
  | RetrieveTrustCacheFlavors (hostId fgId : UUID)
  | FlavorRetrieve (flvId : UUID)
  | FlavorVerify (flavor : SignedFlavor) (result : Except Err TrustReport)
  | RemoveTrustCacheFlavors (hostId : UUID) (ids : List UUID)
  | MeetsFlavorGroupReqs (fgId : UUID) (cache : hostTrustCache) (result : Bool)
  | CreateFlavorGroupReport (hostId fgId : UUID)
  | AddResults (fgId : UUID) (results : List RuleResult)
  | GenerateSamlReport (report : TrustReport)
  | ReportUpdate (record : HVSReport) (result : Option HVSReport × Option Err)

/-- The world together with the log of the calls made so far, oldest first. -/
structure St (W : Type) where
  world : W
  calls : List Call

/-- Record a call and move to the world it returned. -/
def St.call {W : Type} (s : St W) (c : Call) (w : W) : St W :=
  ⟨w, s.calls ++ [c]⟩

/-- Record an event that leaves the world alone. -/
def St.note {W : Type} (s : St W) (c : Call) : St W :=
  ⟨s.world, s.calls ++ [c]⟩

/-- The record of a `ReportStore.Update` call. -/
def Call.asReportUpdate : Call → Option HVSReport
  | Call.ReportUpdate r _ => some r
  | _ => none

/-- The flavor group of a `MeetsFlavorGroupReqs` call that returned false. -/
def Call.asUnmetReqs : Call → Option UUID
  | Call.MeetsFlavorGroupReqs fgId _ false => some fgId
  | _ => none

/-- The results of an `AddResults` call. -/
def Call.asAddResults : Call → Option (List RuleResult)
  | Call.AddResults _ rs => some rs
  | _ => none

/-- The ID list of a `HostStore.RemoveTrustCacheFlavors` call. -/
def Call.asRemoval : Call → Option (List UUID)
  | Call.RemoveTrustCacheFlavors _ ids => some ids
  | _ => none

/-- The flavor and the report of a flavor-verifier call that returned no error. -/
def Call.asVerified : Call → Option (SignedFlavor × TrustReport)
  | Call.FlavorVerify f (Except.ok r) => some (f, r)
  | _ => none

/-- The record and the result of a `ReportStore.Update` call. -/
def Call.asUpdate : Call → Option (HVSReport × (Option HVSReport × Option Err))
  | Call.ReportUpdate r res => some (r, res)
  | _ => none

/-- The flavor and the error of a flavor-verifier call that returned an error. -/
def Call.asVerifyError : Call → Option (SignedFlavor × Err)
  | Call.FlavorVerify f (Except.error e) => some (f, e)
  | _ => none

/-- The trust report of a `GenerateSamlReport` call. -/
def Call.asSamlInput : Call → Option TrustReport
  | Call.GenerateSamlReport t => some t
  | _ => none

/-- The records handed to `ReportStore.Update`, in call order. -/
def persisted (cs : List Call) : List HVSReport := cs.filterMap Call.asReportUpdate

/-- The flavor groups whose `MeetsFlavorGroupReqs` call returned false, in call order. -/
def unmetGroups (cs : List Call) : List UUID := cs.filterMap Call.asUnmetReqs

/-- The results handed to `AddResults`, one list per flavor group, in call order. -/
def groupResults (cs : List Call) : List (List RuleResult) := cs.filterMap Call.asAddResults

/-- The ID lists handed to `HostStore.RemoveTrustCacheFlavors`, in call order. -/
def removals (cs : List Call) : List (List UUID) := cs.filterMap Call.asRemoval

/-- The flavor-verifier calls that returned a report, as (flavor, report), in call order. -/
def verified (cs : List Call) : List (SignedFlavor × TrustReport) := cs.filterMap Call.asVerified

/-- The `ReportStore.Update` calls, as (record, result), in call order. -/
def updates (cs : List Call) : List (HVSReport × (Option HVSReport × Option Err)) :=
  cs.filterMap Call.asUpdate

/-- The flavor-verifier calls that returned an error, as (flavor, error), in call order. -/
def verifyErrors (cs : List Call) : List (SignedFlavor × Err) := cs.filterMap Call.asVerifyError

/-- The trust reports handed to the SAML report generator, in call order. -/
def samlInputs (cs : List Call) : List TrustReport := cs.filterMap Call.asSamlInput

/-- A projection of the log is blind to the calls made while one flavor group is
processed, the `MeetsFlavorGroupReqs` entry apart. -/
structure BlindToGroup {α : Type} (p : Call → Option α) : Prop where
  newReqs : ∀ h u g, p (Call.NewFlvGrpHostTrustReqs h u g) = none
  retrieveCache : ∀ h g, p (Call.RetrieveTrustCacheFlavors h g) = none
  flavorRetrieve : ∀ id, p (Call.FlavorRetrieve id) = none
  flavorVerify : ∀ f r, p (Call.FlavorVerify f r) = none
  removal : ∀ h ids, p (Call.RemoveTrustCacheFlavors h ids) = none
  createReport : ∀ h g, p (Call.CreateFlavorGroupReport h g) = none

/-! ## `verifier.go` -/

section verifier

variable {W R C : Type}

/-- The `for _, flvId := range flIds` loop of `getCachedFlavors`: a flavor is appended
when `FlavorStore.Retrieve` returns no error, and skipped otherwise. -/
def getCachedFlavors.loop (v : Verifier W R C) :
    List UUID → List SignedFlavor → St W → List SignedFlavor × St W
  | [], result, s => (result, s)
  | flvId :: rest, result, s =>
    match v.FlavorStore.Retrieve s.world flvId with
    | (Except.ok flv, w) =>
      getCachedFlavors.loop v rest (result ++ [flv]) (s.call (Call.FlavorRetrieve flvId) w)
    | (Except.error _, w) =>
      getCachedFlavors.loop v rest result (s.call (Call.FlavorRetrieve flvId) w)

/-- Source: `func (v *Verifier) getCachedFlavors(hostId, flavGrpId)`. -/
def getCachedFlavors (v : Verifier W R C) (hostId flavGrpId : UUID) (s : St W) :
    Except Err (List SignedFlavor) × St W :=
  match v.HostStore.RetrieveTrustCacheFlavors s.world hostId flavGrpId with
  | ((flIds, err), w) =>
    let s1 := s.call (Call.RetrieveTrustCacheFlavors hostId flavGrpId) w
    match err, decide (flIds.length = 0) with
    | some e, true =>
      (Except.error (Err.wrap e "hosttrust/verifier:Verify() Error while retrieving TrustCacheFlavors"), s1)
    | _, _ =>
      match getCachedFlavors.loop v flIds [] s1 with
      | (result, s2) => (Except.ok result, s2)

/-- The `for _, cachedFlavor := range cachedFlavors` loop of `validateCachedFlavors`,
carrying `htc.trustedFlavors`, `collectiveReport.Results` and `trustCachesToDelete`.
An error of the flavor verifier ends the loop with that error, wrapped. -/
def validateCachedFlavors.loop (v : Verifier W R C) (hostData : HostManifest) :
    List SignedFlavor → List Flavor → List RuleResult → List UUID → St W →
      Except Err (List Flavor × List RuleResult × List UUID) × St W
  | [], trustedFlavors, results, toDelete, s => (Except.ok (trustedFlavors, results, toDelete), s)
  | cachedFlavor :: rest, trustedFlavors, results, toDelete, s =>
    match v.FlavorVerifier.Verify s.world hostData cachedFlavor v.SkipFlavorSignatureVerification with
    | (Except.error e, w) =>
      (Except.error (Err.wrap e "hosttrust/verifier:validateCachedFlavors() Error from flavor verifier"),
        s.call (Call.FlavorVerify cachedFlavor (Except.error e)) w)
    | (Except.ok report, w) =>
      let s1 := s.call (Call.FlavorVerify cachedFlavor (Except.ok report)) w
      if report.Trusted then
        validateCachedFlavors.loop v hostData rest (trustedFlavors ++ [cachedFlavor.Flavor])
          (results ++ report.Results) toDelete s1
      else
        validateCachedFlavors.loop v hostData rest trustedFlavors results
          (toDelete ++ [cachedFlavor.Flavor.Meta.ID]) s1

/-- Source: `func (v *Verifier) validateCachedFlavors(hostId, hostData, cachedFlavors)`.
The error of `RemoveTrustCacheFlavors` is discarded (`_ =`). -/
def validateCachedFlavors (v : Verifier W R C) (hostId : UUID) (hostData : HostManifest)
    (cachedFlavors : List SignedFlavor) (s : St W) : Except Err hostTrustCache × St W :=
  match validateCachedFlavors.loop v hostData cachedFlavors [] [] [] s with
  | (Except.error e, s1) => (Except.error e, s1)
  | (Except.ok (trustedFlavors, results, trustCachesToDelete), s1) =>
    match v.HostStore.RemoveTrustCacheFlavors s1.world hostId trustCachesToDelete with
    | (_, w) =>
      (Except.ok
        { hostID := hostId
          trustedFlavors := trustedFlavors
          trustReport := { TrustReport.zero with Results := results } },
        s1.call (Call.RemoveTrustCacheFlavors hostId trustCachesToDelete) w)

/-- Source: `func (v *Verifier) storeTrustReport(hostID, trustReport, samlReport)`.
An error of `ReportStore.Update` is logged; the report `Update` returned is returned. -/
def storeTrustReport (v : Verifier W R C) (hostID : UUID) (trustReport : TrustReport)
    (samlReport : SamlAssertion) (s : St W) : Option HVSReport × St W :=
  let hvsReport : HVSReport :=
    { ID := uuid.Nil
      HostID := hostID
      TrustReport := trustReport
      CreatedAt := samlReport.CreatedTime
      Expiration := samlReport.ExpiryTime
      Saml := samlReport.Assertion }
  match v.ReportStore.Update s.world hvsReport with
  | ((report, err), w) => (report, s.call (Call.ReportUpdate hvsReport (report, err)) w)

/-- The body of the `for _, fg := range flvGroups` loop of `Verify` for one group: on
success the group's trust report and whether the trust cache met the requirements. -/
def Verify.group (v : Verifier W R C) (hostId hwUuid : UUID) (hostData : HostManifest)
    (fg : FlavorGroup) (s : St W) : Except Err (Bool × TrustReport) × St W :=
  match v.NewFlvGrpHostTrustReqs s.world hostId hwUuid fg hostData v.SkipFlavorSignatureVerification with
  | (Except.error e, w) =>
    (Except.error (Err.wrap e "hosttrust/verifier:Verify() Error while retrieving NewFlvGrpHostTrustReqs"),
      s.call (Call.NewFlvGrpHostTrustReqs hostId hwUuid fg.ID) w)
  | (Except.ok fgTrustReqs, w) =>
    let s1 := s.call (Call.NewFlvGrpHostTrustReqs hostId hwUuid fg.ID) w
    match getCachedFlavors v hostId fg.ID s1 with
    | (Except.error e, s2) =>
      (Except.error (Err.wrap e "hosttrust/verifier:Verify() Error while retrieving getCachedFlavors"), s2)
    | (Except.ok fgCachedFlavors, s2) =>
      match (if fgCachedFlavors.length > 0 then validateCachedFlavors v hostId hostData fgCachedFlavors s2
             else (Except.ok hostTrustCache.zero, s2)) with
      | (Except.error e, s3) =>
        (Except.error (Err.wrap e "hosttrust/verifier:Verify() Error while validating cache"), s3)
      | (Except.ok fgTrustCache, s3) =>
        let meets := v.MeetsFlavorGroupReqs fgTrustReqs fgTrustCache v.FlavorVerifier.GetVerifierCerts
        let s4 := s3.note (Call.MeetsFlavorGroupReqs fg.ID fgTrustCache meets)
        if !meets then
          match v.CreateFlavorGroupReport s4.world hostId fgTrustReqs hostData fgTrustCache with
          | (Except.error e, w5) =>
            (Except.error (Err.wrap e "hosttrust/verifier:Verify() Error while creating flavorgroup report"),
              s4.call (Call.CreateFlavorGroupReport hostId fg.ID) w5)
          | (Except.ok fgTrustReport, w5) =>
            (Except.ok (false, fgTrustReport), s4.call (Call.CreateFlavorGroupReport hostId fg.ID) w5)
        else
          (Except.ok (true, fgTrustCache.trustReport), s4)

/-- The `for _, fg := range flvGroups` loop of `Verify`, carrying `finalReportValid` and
`finalTrustReport`. -/
def Verify.loop (v : Verifier W R C) (hostId hwUuid : UUID) (hostData : HostManifest) :
    List FlavorGroup → Bool → TrustReport → St W → Except Err (Bool × TrustReport) × St W
  | [], finalReportValid, finalTrustReport, s => (Except.ok (finalReportValid, finalTrustReport), s)
  | fg :: rest, finalReportValid, finalTrustReport, s =>
    match Verify.group v hostId hwUuid hostData fg s with
    | (Except.error e, s1) => (Except.error e, s1)
    | (Except.ok (met, fgTrustReport), s1) =>
      Verify.loop v hostId hwUuid hostData rest (finalReportValid && met)
        (finalTrustReport.AddResults fgTrustReport.Results)
        (s1.note (Call.AddResults fg.ID fgTrustReport.Results))

/-- Lines 47-102 of `Verify`: the checks of the manifest, the lookup of the host's flavor
groups and the loop over them.  On success: `finalReportValid` and `finalTrustReport`
as they stand after the loop.  The error of `SearchFlavorgroups` is overwritten by the
result of `FlavorGroupStore.Search` before it is read. -/
def Verify.collect (v : Verifier W R C) (hostId : UUID) (hostData : Option HostManifest)
    (s : St W) : Except Err (Bool × TrustReport) × St W :=
  match hostData with
  | none => (Except.error ErrInvalidHostManiFest, s)
  | some hd =>
    match v.uuidParse hd.HostInfo.HardwareUUID with
    | Except.error _ => (Except.error ErrManifestMissingHwUUID, s)
    | Except.ok hwUuid =>
      if hwUuid = uuid.Nil then (Except.error ErrManifestMissingHwUUID, s)
      else
        match v.HostStore.SearchFlavorgroups s.world hostId with
        | ((flvGroupIds, _), w1) =>
          let s1 := s.call (Call.SearchFlavorgroups hostId) w1
          match v.FlavorGroupStore.Search s1.world flvGroupIds with
          | ((flvGroups, err), w2) =>
            let s2 := s1.call (Call.FlavorGroupSearch flvGroupIds) w2
            match err with
            | some _ => (Except.error (Err.new "hosttrust/verifier:Verify() Store access error"), s2)
            | none =>
              Verify.loop v hostId hwUuid hd flvGroups true
                { HostManifest := hd, Trusted := false, Results := [] } s2

/-- Lines 103-115 of `Verify`: a report is generated, signed and stored when there are
results and the final report is not valid or there is new data.  The SAML report is
generated before `Trusted` is assigned. -/
def Verify.persist (v : Verifier W R C) (hostId : UUID) (newData : Bool)
    (finalReportValid : Bool) (finalTrustReport : TrustReport) (s : St W) :
    (Option HVSReport × Option Err) × St W :=
  if finalTrustReport.Results.length > 0 && (!finalReportValid || newData) then
    match v.GenerateSamlReport s.world v.SamlIssuer finalTrustReport with
    | (samlReport, w) =>
      let s1 := s.call (Call.GenerateSamlReport finalTrustReport) w
      let finalTrustReport1 := { finalTrustReport with Trusted := finalTrustReport.IsTrusted }
      match storeTrustReport v hostId finalTrustReport1 samlReport s1 with
      | (hvsReport, s2) => ((hvsReport, none), s2)
  else ((none, none), s)

/-- Source: `func (v *Verifier) Verify(hostId, hostData, newData)`.  `hostData` is a
pointer in the source, `none` when nil.  The result is the Go pair (report, error) and
the world and call log after the call. -/
def Verify (v : Verifier W R C) (hostId : UUID) (hostData : Option HostManifest)
    (newData : Bool) (s : St W) : (Option HVSReport × Option Err) × St W :=
  match Verify.collect v hostId hostData s with
  | (Except.error e, s1) => ((none, some e), s1)
  | (Except.ok (finalReportValid, finalTrustReport), s1) =>
    Verify.persist v hostId newData finalReportValid finalTrustReport s1

end verifier

/-! ## `flavor.go` -/

/-- The functions of the Go standard library that `flavor.go` calls: SHA-384
(`sha512.New384`, `Write`, `Sum(nil)`), `json.Unmarshal` into the private copy of the
flavor type (it returns the error and the flavor as far as it was filled in) and
`json.Marshal`. -/
structure Codec where
  sha384 : Bytes → Bytes
  jsonUnmarshal : Bytes → Flavor → Option Err × Flavor
  jsonMarshal : Flavor → Except Err Bytes

/-- Source: `func (flavor *Flavor) calculateFlavorDigest(flavorJSON []byte) error`. -/
def Flavor.calculateFlavorDigest (c : Codec) (flavor : Flavor) (flavorJSON : Bytes) :
    Option Err × Flavor :=
  if flavorJSON.length = 0 then
    (some (Err.new "The flavor json was not provided"), flavor)
  else
    (none, { flavor with flavorDigest := some (c.sha384 flavorJSON) })

/-- Source: `func (flavor *Flavor) UnmarshalJSON(flavorJSON []byte) error`.  The JSON
decoder does not touch the unexported field `flavorDigest`. -/
def Flavor.UnmarshalJSON (c : Codec) (flavor : Flavor) (flavorJSON : Bytes) :
    Option Err × Flavor :=
  match c.jsonUnmarshal flavorJSON flavor with
  | (some err, parsed) =>
    (some (Err.wrap err "Failed to unmarshal flavor json"),
      { parsed with flavorDigest := flavor.flavorDigest })
  | (none, parsed) =>
    Flavor.calculateFlavorDigest c { parsed with flavorDigest := flavor.flavorDigest } flavorJSON

/-- Source: `func (flavor *Flavor) getFlavorDigest() ([]byte, error)`. -/
def Flavor.getFlavorDigest (c : Codec) (flavor : Flavor) : Except Err Bytes × Flavor :=
  match flavor.flavorDigest with
  | some digest => (Except.ok digest, flavor)
  | none =>
    match c.jsonMarshal flavor with
    | Except.error err =>
      (Except.error (Err.wrap err "An error occurred attempting to convert the flavor to json"), flavor)
    | Except.ok flavorJSON =>
      match Flavor.calculateFlavorDigest c flavor flavorJSON with
      | (some err, flavor1) =>
        (Except.error (Err.wrap err "An error occurred attempting to calculate the flavor digest"), flavor1)
      | (none, flavor1) =>
        match flavor1.flavorDigest with
        | some digest => (Except.ok digest, flavor1)
        | none => (Except.ok [], flavor1)

/-- The wrapping text of `validateCachedFlavors` for an error of the flavor verifier. -/
def msgFlavorVerifier : String :=
  "hosttrust/verifier:validateCachedFlavors() Error from flavor verifier"

/-- The wrapping text of `Verify` for an error of `validateCachedFlavors`. -/
def msgValidatingCache : String :=
  "hosttrust/verifier:Verify() Error while validating cache"

/-- What a function of the verifier has done with respect to errors of the flavor
verifier, between the log `before` and its outcome: either no flavor-verifier call
failed, or the last call made is a flavor-verifier call that failed, it is the only one
that failed, and the function returned the given error. -/
def VerifyErrorOutcome (before : List Call) (after : List Call) (returned : Option Err)
    (expected : Err → Err) : Prop :=
  verifyErrors after = verifyErrors before ∨
    ∃ f e, returned = some (expected e) ∧
      after.getLast? = some (Call.FlavorVerify f (Except.error e)) ∧
      verifyErrors after = verifyErrors before ++ [(f, e)]

/-- The error of an `Except` result, if any. -/
def errorOf {α : Type} : Except Err α → Option Err
  | Except.error e => some e
  | Except.ok _ => none

/-- A property of the world that every collaborator call other than
`HostStore.RemoveTrustCacheFlavors` preserves. -/
structure FramedBy {W R C : Type} (v : Verifier W R C) (P : W → Prop) : Prop where
  searchFlavorgroups : ∀ w h, P w → P (v.HostStore.SearchFlavorgroups w h).2
  retrieveTrustCacheFlavors : ∀ w h g, P w → P (v.HostStore.RetrieveTrustCacheFlavors w h g).2
  flavorRetrieve : ∀ w id, P w → P (v.FlavorStore.Retrieve w id).2
  flavorGroupSearch : ∀ w ids, P w → P (v.FlavorGroupStore.Search w ids).2
  reportUpdate : ∀ w r, P w → P (v.ReportStore.Update w r).2
  flavorVerify : ∀ w hd f skip, P w → P (v.FlavorVerifier.Verify w hd f skip).2
  newReqs : ∀ w h u fg hd skip, P w → P (v.NewFlvGrpHostTrustReqs w h u fg hd skip).2
  createReport : ∀ w h r hd c, P w → P (v.CreateFlavorGroupReport w h r hd c).2
  generateSaml : ∀ w cfg t, P w → P (v.GenerateSamlReport w cfg t).2

/-- The (host, flavor group) of a `HostStore.RetrieveTrustCacheFlavors` call. -/
def Call.asCacheRead : Call → Option (UUID × UUID)
  | Call.RetrieveTrustCacheFlavors hostId fgId => some (hostId, fgId)
  | _ => none

/-- The trust caches read, as (host, flavor group), in call order. -/
def cacheReads (cs : List Call) : List (UUID × UUID) := cs.filterMap Call.asCacheRead

/-! ## Repeated verification against stable stores -/

section stable

variable {W R C : Type}

/-- Calling `Verify` `n` times in a row on the same host and manifest: the results of the
calls, in order, and the world and call log after the last call. -/
def VerifyTimes (v : Verifier W R C) (hostId : UUID) (hostData : Option HostManifest)
    (newData : Bool) : Nat → St W → List (Option HVSReport × Option Err) × St W
  | 0, s => ([], s)
  | n + 1, s =>
    match Verify v hostId hostData newData s with
    | (r, s1) =>
      match VerifyTimes v hostId hostData newData n s1 with
      | (rs, s2) => (r :: rs, s2)

/-- The conditions under which repeated verification is studied.  The flavor stores are
unchanged and the flavor verifier is deterministic: the searches, the requirements, the
flavor lookups and the flavor verifier return the same result in every world and leave
the world as it is.  The trust cache of the host, `cacheOf w g` for flavor group `g`, is
what `RetrieveTrustCacheFlavors` returns, without error, and
`RemoveTrustCacheFlavors` is set removal on it.  The flavor store returns under an ID a
flavor with that ID.  `MeetsFlavorGroupReqs` does not read the `hostID` of the cache. -/
structure StableStores (v : Verifier W R C) (hostId : UUID) (hostData : HostManifest)
    (cacheOf : W → UUID → List UUID) : Prop where
  searchFlavorgroups : ∀ w w1,
    v.HostStore.SearchFlavorgroups w hostId = ((v.HostStore.SearchFlavorgroups w1 hostId).1, w)
  flavorGroupSearch : ∀ w w1 ids,
    v.FlavorGroupStore.Search w ids = ((v.FlavorGroupStore.Search w1 ids).1, w)
  newReqs : ∀ w w1 hwUuid fg,
    v.NewFlvGrpHostTrustReqs w hostId hwUuid fg hostData v.SkipFlavorSignatureVerification
      = ((v.NewFlvGrpHostTrustReqs w1 hostId hwUuid fg hostData
          v.SkipFlavorSignatureVerification).1, w)
  flavorRetrieve : ∀ w w1 id, v.FlavorStore.Retrieve w id = ((v.FlavorStore.Retrieve w1 id).1, w)
  flavorVerify : ∀ w w1 f,
    v.FlavorVerifier.Verify w hostData f v.SkipFlavorSignatureVerification
      = ((v.FlavorVerifier.Verify w1 hostData f v.SkipFlavorSignatureVerification).1, w)
  retrieveCache : ∀ w g, v.HostStore.RetrieveTrustCacheFlavors w hostId g = ((cacheOf w g, none), w)
  removeCache : ∀ w ids g, cacheOf (v.HostStore.RemoveTrustCacheFlavors w hostId ids).2 g
    = (cacheOf w g).filter (fun id => !ids.contains id)
  flavorID : ∀ w id sf, (v.FlavorStore.Retrieve w id).1 = Except.ok sf → sf.Flavor.Meta.ID = id
  meetsHostID : ∀ r c certs h,
    v.MeetsFlavorGroupReqs r { c with hostID := h } certs = v.MeetsFlavorGroupReqs r c certs

/-- The flavor the flavor store returns for an ID, read in the world `w0`. -/
def resolveAt (v : Verifier W R C) (w0 : W) (id : UUID) : Option SignedFlavor :=
  match (v.FlavorStore.Retrieve w0 id).1 with
  | Except.ok sf => some sf
  | Except.error _ => none

/-- The result of the flavor verifier for a flavor, read in the world `w0`. -/
def reportAt (v : Verifier W R C) (hostData : HostManifest) (w0 : W) (sf : SignedFlavor) :
    Except Err TrustReport :=
  (v.FlavorVerifier.Verify w0 hostData sf v.SkipFlavorSignatureVerification).1

/-- The flavor verifier returns a report for the flavor. -/
def verifiesAt (v : Verifier W R C) (hostData : HostManifest) (w0 : W) (sf : SignedFlavor) : Bool :=
  match reportAt v hostData w0 sf with
  | Except.ok _ => true
  | Except.error _ => false

/-- The flavor verifier returns a trusted report for the flavor. -/
def trustedAt (v : Verifier W R C) (hostData : HostManifest) (w0 : W) (sf : SignedFlavor) : Bool :=
  match reportAt v hostData w0 sf with
  | Except.ok r => r.Trusted
  | Except.error _ => false

/-- The results of the report the flavor verifier returns for the flavor. -/
def resultsAt (v : Verifier W R C) (hostData : HostManifest) (w0 : W) (sf : SignedFlavor) :
    List RuleResult :=
  match reportAt v hostData w0 sf with
  | Except.ok r => r.Results
  | Except.error _ => []

/-- The ID resolves to a flavor with a trusted report. -/
def goodId (v : Verifier W R C) (hostData : HostManifest) (w0 : W) (id : UUID) : Bool :=
  match resolveAt v w0 id with
  | some sf => trustedAt v hostData w0 sf
  | none => false

/-- The ID resolves to a flavor without a trusted report. -/
def badId (v : Verifier W R C) (hostData : HostManifest) (w0 : W) (id : UUID) : Bool :=
  match resolveAt v w0 id with
  | some sf => !trustedAt v hostData w0 sf
  | none => false

/-- The trust cache that validation of the cached IDs `ids` yields. -/
def validatedCache (v : Verifier W R C) (hostId : UUID) (hostData : HostManifest) (w0 : W)
    (ids : List UUID) : hostTrustCache :=
  { hostID := hostId
    trustedFlavors :=
      ((ids.filterMap (resolveAt v w0)).filter (trustedAt v hostData w0)).map (fun sf => sf.Flavor)
    trustReport :=
      { TrustReport.zero with
        Results := (((ids.filterMap (resolveAt v w0)).filter (trustedAt v hostData w0)).map
          (resultsAt v hostData w0)).flatten } }

/-- The IDs that validation of the cached IDs `ids` hands to `RemoveTrustCacheFlavors`. -/
def prunedIds (v : Verifier W R C) (hostData : HostManifest) (w0 : W) (ids : List UUID) :
    List UUID :=
  ((ids.filterMap (resolveAt v w0)).filter (fun sf => !trustedAt v hostData w0 sf)).map
    (fun sf => sf.Flavor.Meta.ID)

/-- One flavor group processed against stable stores with its requirements met: the
world afterwards, or `none` when the requirements cannot be built, a cached flavor cannot
be verified or the validated cache does not meet the requirements. -/
def stableStep (v : Verifier W R C) (hostId hwUuid : UUID) (hostData : HostManifest)
    (cacheOf : W → UUID → List UUID) (w0 : W) (fg : FlavorGroup) (w : W) : Option W :=
  match (v.NewFlvGrpHostTrustReqs w0 hostId hwUuid fg hostData
      v.SkipFlavorSignatureVerification).1 with
  | Except.error _ => none
  | Except.ok reqs =>
    if ((cacheOf w fg.ID).filterMap (resolveAt v w0)).all (verifiesAt v hostData w0) &&
        v.MeetsFlavorGroupReqs reqs (validatedCache v hostId hostData w0 (cacheOf w fg.ID))
          v.FlavorVerifier.GetVerifierCerts then
      if ((cacheOf w fg.ID).filterMap (resolveAt v w0)).length > 0 then
        some (v.HostStore.RemoveTrustCacheFlavors w hostId
          (prunedIds v hostData w0 (cacheOf w fg.ID))).2
      else some w
    else none

/-- The flavor groups processed in order by `stableStep`. -/
def stableRun (v : Verifier W R C) (hostId hwUuid : UUID) (hostData : HostManifest)
    (cacheOf : W → UUID → List UUID) (w0 : W) : List FlavorGroup → W → Option W
  | [], w => some w
  | fg :: rest, w =>
    match stableStep v hostId hwUuid hostData cacheOf w0 fg w with
    | none => none
    | some w1 => stableRun v hostId hwUuid hostData cacheOf w0 rest w1

/-- The trust caches in `w1` are those in `w` with some IDs removed, none of which
resolves to a flavor with a trusted report. -/
def Pruned (v : Verifier W R C) (hostData : HostManifest) (cacheOf : W → UUID → List UUID)
    (w0 w w1 : W) : Prop :=
  ∃ keep : UUID → Bool, (∀ id, goodId v hostData w0 id = true → keep id = true) ∧
    ∀ g, cacheOf w1 g = (cacheOf w g).filter keep

end stable

/-! ## An in-memory instance

Concrete collaborators on which the functions above can be run: a trust cache and a
report table held in memory, a flavor verifier that compares the BIOS name of the flavor
with that of the manifest, and requirements that ask for at least one trusted flavor. -/

namespace Example

/-- The in-memory world: trust-cache rows (host, flavor group, flavor), the stored
reports and the clock. -/
structure Mem where
  trustCache : List (UUID × UUID × UUID)
  reports : List HVSReport
  clock : Nat
  deriving DecidableEq, Repr

/-- The trust-cache flavor IDs of a host for a flavor group. -/
def cacheOf (w : Mem) (hostId fgId : UUID) : List UUID :=
  w.trustCache.filterMap (fun row => if row.1 = hostId ∧ row.2.1 = fgId then some row.2.2 else none)

/-- The in-memory host store; removal is set removal on the rows of the host. -/
def hostStore (groupIds : List UUID) : HostStore Mem where
  SearchFlavorgroups := fun w _ => ((groupIds, none), w)
  RetrieveTrustCacheFlavors := fun w hostId fgId => ((cacheOf w hostId fgId, none), w)
  RemoveTrustCacheFlavors := fun w hostId ids =>
    (none,
      { w with
        trustCache := w.trustCache.filter (fun row => !(row.1 = hostId && ids.contains row.2.2)) })

/-- The in-memory flavor store. -/
def flavorStore (flavors : List SignedFlavor) : FlavorStore Mem where
  Retrieve := fun w id =>
    (match flavors.find? (fun f => f.Flavor.Meta.ID = id) with
      | some f => Except.ok f
      | none => Except.error (Err.new "record not found"), w)

/-- The in-memory flavor-group store. -/
def flavorGroupStore (groups : List FlavorGroup) : FlavorGroupStore Mem where
  Search := fun w ids => ((groups.filter (fun g => ids.contains g.ID), none), w)

/-- The in-memory report store: `Update` replaces the report of the host. -/
def reportStore : ReportStore Mem where
  Update := fun w r =>
    ((some r, none), { w with reports := r :: w.reports.filter (fun x => x.HostID ≠ r.HostID) })

/-- A report store whose `Update` fails. -/
def failingReportStore : ReportStore Mem where
  Update := fun w _ => ((none, some (Err.new "connection refused")), w)

/-- A flavor verifier: the flavor matches when its BIOS section names the BIOS of the
manifest; one rule result per flavor. -/
def flavorVerifier : FlavorVerifier Mem Unit where
  Verify := fun w hd f _ =>
    (Except.ok
      { HostManifest := hd
        Trusted := f.Flavor.Bios = some hd.HostInfo.BiosName
        Results := [{ Rule := "bios", FlavorId := f.Flavor.Meta.ID,
                      Trusted := f.Flavor.Bios = some hd.HostInfo.BiosName }] }, w)
  GetVerifierCerts := ()

/-- A flavor verifier that cannot verify flavors without a signature. -/
def strictFlavorVerifier : FlavorVerifier Mem Unit where
  Verify := fun w hd f skip =>
    if f.Signature = "" then (Except.error (Err.new "flavor is not signed"), w)
    else flavorVerifier.Verify w hd f skip
  GetVerifierCerts := ()

/-- Hardware UUIDs of the example hosts. -/
def uuidParse : String → Except Err UUID
  | "00000000-0000-0000-0000-000000000000" => Except.ok 0
  | "0005aa3c-0000-0000-0000-000000000001" => Except.ok 1
  | "0005aa3c-0000-0000-0000-000000000002" => Except.ok 2
  | _ => Except.error (Err.new "invalid UUID format")

/-- The in-memory verifier over the given flavors and flavor groups; the host belongs to
the groups `groupIds`; a group is satisfied by one trusted flavor in the cache; the
group report created when it is not satisfied holds one untrusted result. -/
def verifier (flavors : List SignedFlavor) (groups : List FlavorGroup) (groupIds : List UUID) :
    Verifier Mem FlavorGroup Unit where
  FlavorStore := flavorStore flavors
  FlavorGroupStore := flavorGroupStore groups
  HostStore := hostStore groupIds
  ReportStore := reportStore
  FlavorVerifier := flavorVerifier
  SamlIssuer := { IssuerName := "hvs", ValiditySeconds := 86400 }
  SkipFlavorSignatureVerification := true
  uuidParse := uuidParse
  NewFlvGrpHostTrustReqs := fun w _ _ fg _ _ => (Except.ok fg, w)
  MeetsFlavorGroupReqs := fun _ cache _ => !cache.trustedFlavors.isEmpty
  CreateFlavorGroupReport := fun w _ fg hd _ =>
    (Except.ok { HostManifest := hd, Trusted := false,
                 Results := [{ Rule := "flavor-match", FlavorId := fg.ID, Trusted := false }] }, w)
  GenerateSamlReport := fun w cfg _ =>
    ({ Assertion := "saml", CreatedTime := w.clock, ExpiryTime := w.clock + cfg.ValiditySeconds }, w)

/-- A flavor with the given ID and BIOS name. -/
def flavor (id : UUID) (bios : String) : SignedFlavor :=
  { Flavor := { Meta := { ID := id, FlavorPart := "PLATFORM" }, Validity := none, Bios := some bios,
                Hardware := none, Pcrs := [], External := none, Software := none,
                flavorDigest := none },
    Signature := "" }

/-- A manifest with the given hardware UUID and BIOS name. -/
def manifest (hwUuid bios : String) : HostManifest :=
  { HostInfo := { HardwareUUID := hwUuid, OSName := "linux", BiosName := bios }, PcrManifest := [] }

/-- Two flavors: 10 expects BIOS "b1", 11 expects BIOS "b2". -/
def flavors : List SignedFlavor := [flavor 10 "b1", flavor 11 "b2"]

/-- One flavor group, with ID 1. -/
def groups : List FlavorGroup := [{ ID := 1, Name := "automatic" }]

/-- The verifier of host 5, which belongs to group 1. -/
def v1 : Verifier Mem FlavorGroup Unit := verifier flavors groups [1]

/-- The host-5 manifest with BIOS "b1". -/
def hd1 : HostManifest := manifest "0005aa3c-0000-0000-0000-000000000001" "b1"

/-- A world in which host 5 has both flavors in its trust cache for group 1. -/
def w1 : Mem := { trustCache := [(5, 1, 10), (5, 1, 11)], reports := [], clock := 1000 }

/-- A stand-in for the standard library: the "digest" is the length and the byte sum of
the input, the decoder accepts input that opens with a brace and reads nothing from it,
the encoder writes an empty object. -/
def codec : Codec where
  sha384 := fun b => [b.length, b.sum % 256]
  jsonUnmarshal := fun b f =>
    if b.head? = some 123 then (none, f) else (some (Err.new "invalid character"), f)
  jsonMarshal := fun _ => Except.ok [123, 125]

/-- The verifier of host 5 with the flavor verifier that rejects unsigned flavors. -/
def v2 : Verifier Mem FlavorGroup Unit := { v1 with FlavorVerifier := strictFlavorVerifier }

/-- The verifier of host 5 with the report store whose `Update` fails. -/
def v3 : Verifier Mem FlavorGroup Unit := { v1 with ReportStore := failingReportStore }

/-- The record stored for host 5 when it is verified in `w1` against `hd1`. -/
def report1 : HVSReport :=
  { ID := 0, HostID := 5,
    TrustReport := { HostManifest := hd1, Trusted := true,
                     Results := [{ Rule := "bios", FlavorId := 10, Trusted := true }] },
    CreatedAt := 1000, Expiration := 87400, Saml := "saml" }

end Example

/-! ## Reference definitions -/

section reference

variable {W R C : Type}

/-- The results of `FlavorStore.Retrieve` for the given IDs, looked up one after the
other in the order of the list, and the world after the last lookup. -/
def retrieveEach (v : Verifier W R C) : List UUID → W → List (Except Err SignedFlavor) × W
  | [], w => ([], w)
  | flvId :: rest, w =>
    match v.FlavorStore.Retrieve w flvId with
    | (r, w1) =>
      match retrieveEach v rest w1 with
      | (rs, w2) => (r :: rs, w2)

/-- The flavors of the lookups that succeeded, in order; the lookups that returned an
error are skipped. -/
def succeeded (rs : List (Except Err SignedFlavor)) : List SignedFlavor :=
  rs.filterMap (fun r => match r with
    | Except.ok flv => some flv
    | Except.error _ => none)

/-- The reference definition of `getCachedFlavors`, in the words of the specification: it
fails exactly when `HostStore.RetrieveTrustCacheFlavors` returns an error together with an
empty ID list; otherwise, also when an error comes with a non-empty ID list, it succeeds
with the flavors for which `FlavorStore.Retrieve` succeeded, in ID order. -/
def getCachedFlavorsSpec (v : Verifier W R C) (hostId flavGrpId : UUID) (w : W) :
    Except Err (List SignedFlavor) × W :=
  if (v.HostStore.RetrieveTrustCacheFlavors w hostId flavGrpId).1.2 ≠ none ∧
      (v.HostStore.RetrieveTrustCacheFlavors w hostId flavGrpId).1.1 = [] then
    (match (v.HostStore.RetrieveTrustCacheFlavors w hostId flavGrpId).1.2 with
      | some e =>
        Except.error
          (Err.wrap e "hosttrust/verifier:Verify() Error while retrieving TrustCacheFlavors")
      | none => Except.ok [],
      (v.HostStore.RetrieveTrustCacheFlavors w hostId flavGrpId).2)
  else
    (Except.ok (succeeded (retrieveEach v
        (v.HostStore.RetrieveTrustCacheFlavors w hostId flavGrpId).1.1
        (v.HostStore.RetrieveTrustCacheFlavors w hostId flavGrpId).2).1),
      (retrieveEach v (v.HostStore.RetrieveTrustCacheFlavors w hostId flavGrpId).1.1
        (v.HostStore.RetrieveTrustCacheFlavors w hostId flavGrpId).2).2)

end reference

/-! ## Verifiers that differ in the error of `SearchFlavorgroups` -/

section searchError

variable {W R C : Type}

/-- The verifier `v` with a host store whose `SearchFlavorgroups` returns the same IDs and
the same world as that of `v`, but the error `err`. -/
def withSearchError (v : Verifier W R C) (err : W → UUID → Option Err) : Verifier W R C :=
  { v with
    HostStore :=
      { v.HostStore with
        SearchFlavorgroups := fun w hostId =>
          (((v.HostStore.SearchFlavorgroups w hostId).1.1, err w hostId),
            (v.HostStore.SearchFlavorgroups w hostId).2) } }

end searchError

/-- The error `Verify` returns when `FlavorGroupStore.Search` fails (line 63):
`errors.New("hosttrust/verifier:Verify() Store access error")`. -/
def errStoreAccess : Err := Err.new "hosttrust/verifier:Verify() Store access error"

/-! ## A host in two flavor groups -/

namespace Example

/-- Two flavor groups, with IDs 1 and 2. -/
def groups2 : List FlavorGroup := [{ ID := 1, Name := "automatic" }, { ID := 2, Name := "platform" }]

/-- The verifier of host 5 when it belongs to the groups 1 and 2. -/
def v4 : Verifier Mem FlavorGroup Unit := verifier flavors groups2 [1, 2]

end Example

/-! ## `flavor.go`: the expected PCR values -/

/-- The type `types.SHAAlgorithm`, a Go string naming a PCR bank. -/
abbrev SHAAlgorithm := String

/-- The type `types.PcrIndex`, a Go int. -/
abbrev PcrIndex := Int

/-- The single quote of the error texts of `GetPcrValue`. -/
def singleQuote : String := String.singleton (Char.ofNat 39)

/-- Source: `func (flavor *Flavor) GetPcrValue(bank, index) (*PcrEx, error)`.  The result is
the Go pair (value, error).  `indexString` is `PcrIndex.String`, declared outside src.
The two map lookups are lookups in the association lists; `errors.Errorf` builds the
error text from the bank and the index. -/
def Flavor.GetPcrValue (indexString : PcrIndex → String) (flavor : Flavor) (bank : SHAAlgorithm)
    (index : PcrIndex) : Option PcrEx × Option Err :=
  match flavor.Pcrs.lookup bank with
  | some indexMap =>
    match indexMap.lookup (indexString index) with
    | some pcrValue => (some pcrValue, none)
    | none =>
      (none, some (Err.new ("The flavor does not contain a pcr values for bank " ++ singleQuote
        ++ bank ++ singleQuote ++ ", index " ++ toString index)))
  | none =>
    (none, some (Err.new ("The flavor does not contain any pcr values for bank " ++ singleQuote
      ++ bank ++ singleQuote)))

/-! ## `postgres.go` -/

namespace postgres

/-- Source: `type Config struct`. -/
structure Config where
  Host : String
  Port : String
  Dbname : String
  User : String
  Password : String
  SslMode : String
  SslCert : String
  ConnRetryAttempts : Int
  ConnRetryTime : Int
  deriving DecidableEq, Repr

/-- The Go zero value of `Config`. -/
def Config.zero : Config := ⟨"", "", "", "", "", "", "", 0, 0⟩

/-- Source: `type DataStore struct`; `Db` is a `*gorm.DB`, `none` when nil. -/
structure DataStore (DB : Type) where
  Db : Option DB
  cfg : Config

/-- What `New` uses from outside the repository and from packages outside src, over a
world `W` (the network) and a type `DB` of database handles: `gorm.Open`,
`strings.ToLower`, `strings.TrimSpace`, `spew.Sdump` and the SSL-mode names of
`pkg/hvs/constants`. -/
structure Deps (W DB : Type) where
  Open : W → String → String → Except Err DB × W
  ToLower : String → String
  TrimSpace : String → String
  Sdump : Config → String
  SslModeAllow : String
  SslModePrefer : String
  SslModeVerifyCa : String
  SslModeRequire : String
  SslModeVerifyFull : String

/-- The connection loop of `New`, `for i := 0; i < numAttempts; i = i + 1`, with the
number of iterations left as first argument.  It carries `db`, `dbErr` and the number of
calls of `gorm.Open` made so far; a successful `gorm.Open` leaves the loop
(`break`), a failed one is followed by `time.Sleep` and the next iteration.  The handle
that `gorm.Open` returns next to an error is never read: the next iteration overwrites
it, and `New` returns before `store.Db = db` when `dbErr` is not nil. -/
def New.connect {W DB : Type} (d : Deps W DB) (args : String) :
    Nat → Option DB → Option Err → W → Nat → (Option DB × Option Err) × W × Nat
  | 0, db, dbErr, w, opened => ((db, dbErr), w, opened)
  | n + 1, _, _, w, opened =>
    match d.Open w "postgres" args with
    | (Except.ok db, w1) => ((some db, none), w1, opened + 1)
    | (Except.error e, w1) => New.connect d args n none (some e) w1 (opened + 1)

/-- Source: `func New(cfg Config) (DataStore, error)`.  The result is the Go pair
(store, error), the world afterwards and the number of calls of `gorm.Open` made. -/
def New {W DB : Type} (d : Deps W DB) (cfg : Config) (w : W) :
    (DataStore DB × Option Err) × W × Nat :=
  if cfg.Host = "" ∨ cfg.Port = "" ∨ cfg.User = "" ∨ cfg.Password = "" ∨ cfg.Dbname = "" then
    ((⟨none, Config.zero⟩,
      some (Err.new ("postgres/postgres:New() All fields must be set (" ++ d.Sdump cfg ++ ")"))),
      w, 0)
  else
    let mode0 := d.TrimSpace (d.ToLower cfg.SslMode)
    let mode :=
      if mode0 ≠ d.SslModeAllow ∧ mode0 ≠ d.SslModePrefer ∧ mode0 ≠ d.SslModeVerifyCa ∧
          mode0 ≠ d.SslModeRequire then d.SslModeVerifyFull
      else mode0
    let sslCertParams :=
      if mode = "verify-ca" ∨ mode = "verify-full" then " sslrootcert=" ++ cfg.SslCert else ""
    let cfg1 := { cfg with SslMode := mode }
    let args := "host=" ++ cfg1.Host ++ " port=" ++ cfg1.Port ++ " user=" ++ cfg1.User
      ++ " dbname=" ++ cfg1.Dbname ++ " password=" ++ cfg1.Password ++ " cfg.SslMode=" ++ mode
      ++ sslCertParams
    match New.connect d args cfg1.ConnRetryAttempts.toNat none none w 0 with
    | ((_, some dbErr), w1, opened) =>
      ((⟨none, cfg1⟩,
        some (Err.wrap dbErr ("Failed to connect to db after "
          ++ toString cfg1.ConnRetryAttempts ++ " attempts"))), w1, opened)
    | ((db, none), w1, opened) => ((⟨db, cfg1⟩, none), w1, opened)

end postgres

namespace Example

/-- A stand-in for the database driver and the string functions: every connection attempt
succeeds with the handle 1; the strings are left as they are. -/
def pgDeps : postgres.Deps Unit Nat where
  Open := fun w _ _ => (Except.ok 1, w)
  ToLower := fun x => x
  TrimSpace := fun x => x
  Sdump := fun _ => "config"
  SslModeAllow := "allow"
  SslModePrefer := "prefer"
  SslModeVerifyCa := "verify-ca"
  SslModeRequire := "require"
  SslModeVerifyFull := "verify-full"

/-- A configuration with every field set and no connection attempt allowed. -/
def pgNoAttempts : postgres.Config :=
  { Host := "db", Port := "5432", Dbname := "hvs", User := "hvs", Password := "secret",
    SslMode := "require", SslCert := "", ConnRetryAttempts := 0, ConnRetryTime := 1 }

end Example

/-! ## The host report refresher (`hrrs`) -/

namespace hrrs

/-- Modelled from the spec: `HRRSConfig`, the refresh period counted in seconds. -/
structure HRRSConfig where
  RefreshPeriod : Nat
  deriving DecidableEq, Repr

/-- Modelled from the spec: the fields of `models.ReportFilterCriteria` used here, the
host of the report and the upper bound of the expiration window, each `none` when
unset. -/
structure ReportFilterCriteria where
  HostID : Option UUID
  ToDate : Option Nat
  deriving DecidableEq, Repr

/-- Modelled from the spec: the methods of the interface `domain.ReportStore` that the
refresher and the mock manager call. -/
structure ReportStore (W : Type) where
  Create : W → HVSReport → (Option HVSReport × Option Err) × W
  Search : W → ReportFilterCriteria → (List HVSReport × Option Err) × W
  Delete : W → UUID → Option Err × W

/-- Modelled from the spec: the method of the interface `domain.HostTrustManager` that the
refresher calls. -/
structure HostTrustManager (W : Type) where
  VerifyHostsAsync : W → List UUID → Bool → Bool → Option Err × W

/-- The library functions `time.Now` (in seconds) and `uuid.New`. -/
structure Sys (W : Type) where
  Now : W → Nat
  uuidNew : W → UUID × W

/-- The arguments of one call of `HostTrustManager.VerifyHostsAsync`. -/
structure VerifyHostsAsyncCall where
  hostIDs : List UUID
  fetchHostData : Bool
  preferHashMatch : Bool
  deriving DecidableEq, Repr

/-- Modelled from the spec: one tick of the refresher (§4.5, steps 1 and 2).  It queries
the store for the reports whose expiration lies before `now + RefreshPeriod`, collects
their host IDs and hands them to the manager; the result lists the calls of
`VerifyHostsAsync` made. -/
def refreshTick {W : Type} (sys : Sys W) (store : ReportStore W) (mgr : HostTrustManager W)
    (cfg : HRRSConfig) (w : W) : List VerifyHostsAsyncCall × W :=
  match store.Search w ⟨none, some (sys.Now w + cfg.RefreshPeriod)⟩ with
  | ((_, some _), w1) => ([], w1)
  | ((reports, none), w1) =>
    ([⟨reports.map (fun r => r.HostID), true, false⟩],
      (mgr.VerifyHostsAsync w1 (reports.map (fun r => r.HostID)) true false).2)

/-- Source: `twentyFourHours, _ = time.ParseDuration("24h")`, in seconds. -/
def twentyFourHours : Nat := 86400

/-- Source: `type MockHostTrustManager struct`. -/
structure MockHostTrustManager (W : Type) where
  reportStore : ReportStore W

/-- The inner loop of `MockHostTrustManager.VerifyHostsAsync`,
`for _, reportToDelete := range reportsToDelete`; the result of `Delete` is dropped. -/
def MockHostTrustManager.deleteReports {W : Type} (htm : MockHostTrustManager W) :
    List HVSReport → W → W
  | [], w => w
  | reportToDelete :: rest, w =>
    MockHostTrustManager.deleteReports htm rest (htm.reportStore.Delete w reportToDelete.ID).2

/-- Source: `func (htm MockHostTrustManager) VerifyHostsAsync`. -/
def MockHostTrustManager.VerifyHostsAsync {W : Type} (sys : Sys W)
    (htm : MockHostTrustManager W) : List UUID → Bool → Bool → W → Option Err × W
  | [], _, _, w => (none, w)
  | hostID :: rest, fetchHostData, preferHashMatch, w =>
    match htm.reportStore.Search w ⟨some hostID, none⟩ with
    | ((_, some err), w1) =>
      (some (Err.wrap err "There was an error searching for the report by host id"), w1)
    | ((reportsToDelete, none), w1) =>
      let w2 := htm.deleteReports reportsToDelete w1
      let w3 := (sys.uuidNew w2).2
      let trustReport : HVSReport :=
        { ID := (sys.uuidNew w2).1, HostID := hostID, CreatedAt := sys.Now w3,
          Expiration := sys.Now w3 + twentyFourHours,
          TrustReport := { TrustReport.zero with Trusted := true }, Saml := "" }
      match htm.reportStore.Create w3 trustReport with
      | ((_, some _), w4) => (none, w4)
      | ((_, none), w4) =>
        MockHostTrustManager.VerifyHostsAsync sys htm rest fetchHostData preferHashMatch w4

/-- The mock manager as a `HostTrustManager`. -/
def MockHostTrustManager.asManager {W : Type} (sys : Sys W) (htm : MockHostTrustManager W) :
    HostTrustManager W where
  VerifyHostsAsync := fun w ids fetchHostData preferHashMatch =>
    MockHostTrustManager.VerifyHostsAsync sys htm ids fetchHostData preferHashMatch w

/-- Modelled from the spec: the state of the test, the reports of the mock report store
(`mocks.NewEmptyMockReportStore`), the clock in seconds and the next identifier that
`uuid.New` hands out. -/
structure MockWorld where
  reports : List HVSReport
  clock : Nat
  nextID : UUID
  deriving DecidableEq, Repr

/-- Whether a report meets the criteria: the host when one is given, and an expiration
before `ToDate` when one is given. -/
def ReportFilterCriteria.meets (c : ReportFilterCriteria) (r : HVSReport) : Bool :=
  (match c.HostID with
    | none => true
    | some h => r.HostID == h) &&
  (match c.ToDate with
    | none => true
    | some d => decide (r.Expiration < d))

/-- Modelled from the spec: the mock report store, a list of reports; no operation
fails. -/
def mockReportStore : ReportStore MockWorld where
  Create := fun w r => ((some r, none), { w with reports := w.reports ++ [r] })
  Search := fun w c => ((w.reports.filter c.meets, none), w)
  Delete := fun w id => (none, { w with reports := w.reports.filter (fun r => r.ID != id) })

/-- The clock and the identifier source of the test: the clock stands still during a
tick; identifiers are handed out in increasing order. -/
def mockSys : Sys MockWorld where
  Now := fun w => w.clock
  uuidNew := fun w => (w.nextID, { w with nextID := w.nextID + 1 })

/-- The reports of host `h`. -/
def reportsOf (w : MockWorld) (h : UUID) : List HVSReport :=
  w.reports.filter (fun r => r.HostID == h)

/-- Host `h` is refreshed at time `now`: it has exactly one report, that report expires
after `now`, and no other report of the store has its identifier. -/
def Refreshed (now : Nat) (w : MockWorld) (h : UUID) : Prop :=
  ∃ r, reportsOf w h = [r] ∧ now < r.Expiration ∧ ∀ x ∈ w.reports, x.ID = r.ID → x = r

end hrrs

namespace Example

/-- A report of host `host` with identifier `id` that expires at `expiration`. -/
def hostReport (id host expiration : Nat) : HVSReport :=
  { ID := id, HostID := host, TrustReport := { TrustReport.zero with Trusted := true },
    CreatedAt := 0, Expiration := expiration, Saml := "" }

/-- A store at time 1000 with a report long expired (host 10), one that expires within
the next period (host 20) and one that expires later (host 30). -/
def refreshWorld : hrrs.MockWorld :=
  { reports := [hostReport 1 10 5, hostReport 2 20 1001, hostReport 3 30 5000],
    clock := 1000, nextID := 4 }

end Example

namespace hrrs

/-- The report that the mock manager creates for host `h`. -/
def mockReport (w : MockWorld) (h : UUID) : HVSReport :=
  { ID := w.nextID, HostID := h, CreatedAt := w.clock,
    Expiration := w.clock + twentyFourHours,
    TrustReport := { TrustReport.zero with Trusted := true }, Saml := "" }

/-- The store after the mock manager has handled host `h`: the reports that share an
identifier with a report of `h` are gone and a new report of `h`, expiring in 24 hours,
is added. -/
def mockReplace (w : MockWorld) (h : UUID) : MockWorld :=
  { reports := w.reports.filter (fun r => (reportsOf w h).all (fun s => r.ID != s.ID)) ++
      [mockReport w h],
    clock := w.clock, nextID := w.nextID + 1 }

end hrrs

/-! ## Recording collaborators

The call log above is written by the embedded functions themselves.  To state what the
collaborators were asked, each collaborator is wrapped so that it appends its own
arguments and its result to a record kept in the world: an entry of the record exists
exactly when the collaborator was called, and it holds exactly what the collaborator was
given and what it returned. -/

section recording

/-- One call of a collaborator, as the collaborator received it: all its arguments and its
result. -/
inductive Event (R : Type) where
  | SearchFlavorgroups (hostId : UUID) (result : List UUID × Option Err)
  | FlavorGroupSearch (ids : List UUID) (result : List FlavorGroup × Option Err)
  | NewFlvGrpHostTrustReqs (hostId hwUuid : UUID) (fg : FlavorGroup) (hostData : HostManifest)
      (skipSignature : Bool) (result : Except Err R)
  | RetrieveTrustCacheFlavors (hostId fgId : UUID) (result : List UUID × Option Err)
  | FlavorRetrieve (flvId : UUID) (result : Except Err SignedFlavor)
  | FlavorVerify (hostData : HostManifest) (flavor : SignedFlavor) (skipSignature : Bool)
      (result : Except Err TrustReport)
  | RemoveTrustCacheFlavors (hostId : UUID) (ids : List UUID) (result : Option Err)
  | CreateFlavorGroupReport (hostId : UUID) (reqs : R) (hostData : HostManifest)
      (cache : hostTrustCache) (result : Except Err TrustReport)
  | GenerateSamlReport (issuer : IssuerConfiguration) (report : TrustReport)
      (result : SamlAssertion)
  | ReportUpdate (record : HVSReport) (result : Option HVSReport × Option Err)

variable {W R C : Type}

/-- The outcome `out` of a collaborator called in the world `w.1`, with the call appended
to the record `w.2`. -/
def record {α : Type} (w : W × List (Event R)) (out : α × W) (event : α → Event R) :
    α × (W × List (Event R)) :=
  (out.1, (out.2, w.2 ++ [event out.1]))

/-- The verifier `v` with every collaborator recording its calls.  The world is the world
of `v` together with the record; the collaborators act on the world as those of `v` do. -/
def recorded (v : Verifier W R C) : Verifier (W × List (Event R)) R C where
  FlavorStore :=
    { Retrieve := fun w flvId =>
        record w (v.FlavorStore.Retrieve w.1 flvId) (Event.FlavorRetrieve flvId) }
  FlavorGroupStore :=
    { Search := fun w ids =>
        record w (v.FlavorGroupStore.Search w.1 ids) (Event.FlavorGroupSearch ids) }
  HostStore :=
    { SearchFlavorgroups := fun w hostId =>
        record w (v.HostStore.SearchFlavorgroups w.1 hostId) (Event.SearchFlavorgroups hostId)
      RetrieveTrustCacheFlavors := fun w hostId fgId =>
        record w (v.HostStore.RetrieveTrustCacheFlavors w.1 hostId fgId)
          (Event.RetrieveTrustCacheFlavors hostId fgId)
      RemoveTrustCacheFlavors := fun w hostId ids =>
        record w (v.HostStore.RemoveTrustCacheFlavors w.1 hostId ids)
          (Event.RemoveTrustCacheFlavors hostId ids) }
  ReportStore :=
    { Update := fun w r => record w (v.ReportStore.Update w.1 r) (Event.ReportUpdate r) }
  FlavorVerifier :=
    { Verify := fun w hostData flavor skip =>
        record w (v.FlavorVerifier.Verify w.1 hostData flavor skip)
          (Event.FlavorVerify hostData flavor skip)
      GetVerifierCerts := v.FlavorVerifier.GetVerifierCerts }
  SamlIssuer := v.SamlIssuer
  SkipFlavorSignatureVerification := v.SkipFlavorSignatureVerification
  uuidParse := v.uuidParse
  NewFlvGrpHostTrustReqs := fun w hostId hwUuid fg hostData skip =>
    record w (v.NewFlvGrpHostTrustReqs w.1 hostId hwUuid fg hostData skip)
      (Event.NewFlvGrpHostTrustReqs hostId hwUuid fg hostData skip)
  MeetsFlavorGroupReqs := v.MeetsFlavorGroupReqs
  CreateFlavorGroupReport := fun w hostId reqs hostData cache =>
    record w (v.CreateFlavorGroupReport w.1 hostId reqs hostData cache)
      (Event.CreateFlavorGroupReport hostId reqs hostData cache)
  GenerateSamlReport := fun w issuer report =>
    record w (v.GenerateSamlReport w.1 issuer report) (Event.GenerateSamlReport issuer report)

/-- A state without the record: the world of the plain verifier and the call log. -/
def St.erase (s : St (W × List (Event R))) : St W := ⟨s.world.1, s.calls⟩

/-- The state in which a run starts: the world `w`, an empty record and an empty call
log. -/
def St.fresh (R : Type) (w : W) : St (W × List (Event R)) := ⟨(w, []), []⟩

/-- The record and the result of a recorded `ReportStore.Update` call. -/
def Event.asUpdate : Event R → Option (HVSReport × (Option HVSReport × Option Err))
  | Event.ReportUpdate r res => some (r, res)
  | _ => none

/-- The trust report and the assertion of a recorded `GenerateSamlReport` call. -/
def Event.asSaml : Event R → Option (TrustReport × SamlAssertion)
  | Event.GenerateSamlReport _ t saml => some (t, saml)
  | _ => none

/-- The recorded `ReportStore.Update` calls, as (record, result), in call order. -/
def recordedUpdates (es : List (Event R)) : List (HVSReport × (Option HVSReport × Option Err)) :=
  es.filterMap Event.asUpdate

/-- The recorded `GenerateSamlReport` calls, as (trust report, assertion), in call order. -/
def recordedSaml (es : List (Event R)) : List (TrustReport × SamlAssertion) :=
  es.filterMap Event.asSaml

/-- The events of looking up the IDs `flIds` in the flavor store, one after the other,
with the results `rs`. -/
def Event.retrievals (flIds : List UUID) (rs : List (Except Err SignedFlavor)) :
    List (Event R) :=
  List.zipWith Event.FlavorRetrieve flIds rs

/-- The events of verifying the flavors `flavors` against `hostData`, one after the
other, each call returning a report, with the reports `reports`. -/
def Event.verifications (hostData : HostManifest) (skip : Bool) (flavors : List SignedFlavor)
    (reports : List TrustReport) : List (Event R) :=
  List.zipWith (fun f r => Event.FlavorVerify hostData f skip (Except.ok r)) flavors reports

/-- The flavors whose report is trusted, in order. -/
def trustedFlavorsOf (flavors : List SignedFlavor) (reports : List TrustReport) : List Flavor :=
  ((flavors.zip reports).filter (fun x => x.2.Trusted)).map (fun x => x.1.Flavor)

/-- The results of the reports that are trusted, concatenated in order. -/
def trustedResultsOf (flavors : List SignedFlavor) (reports : List TrustReport) :
    List RuleResult :=
  (((flavors.zip reports).filter (fun x => x.2.Trusted)).map (fun x => x.2.Results)).flatten

/-- The IDs of the flavors whose report is not trusted, in order. -/
def untrustedIdsOf (flavors : List SignedFlavor) (reports : List TrustReport) : List UUID :=
  ((flavors.zip reports).filter (fun x => !x.2.Trusted)).map (fun x => x.1.Flavor.Meta.ID)

/-- The trust cache that cache validation (spec 4.2.1) yields for the cached flavors
`flavors` with the per-flavor reports `reports`. -/
def validatedCacheOf (hostId : UUID) (flavors : List SignedFlavor) (reports : List TrustReport) :
    hostTrustCache :=
  { hostID := hostId
    trustedFlavors := trustedFlavorsOf flavors reports
    trustReport := { TrustReport.zero with Results := trustedResultsOf flavors reports } }

/-- The trust cache of a flavor group (spec 4.2, step 4c): the validated cache when there
are cached flavors, the zero value otherwise. -/
def groupCacheOf (hostId : UUID) (flavors : List SignedFlavor) (reports : List TrustReport) :
    hostTrustCache :=
  if flavors.length > 0 then validatedCacheOf hostId flavors reports else hostTrustCache.zero

/-- The events of cache validation: one flavor-verifier call per cached flavor, then one
call of `HostStore.RemoveTrustCacheFlavors` with the IDs of the untrusted flavors. -/
def Event.validation (hostId : UUID) (hostData : HostManifest) (skip : Bool)
    (flavors : List SignedFlavor) (reports : List TrustReport) (removeResult : Option Err) :
    List (Event R) :=
  Event.verifications hostData skip flavors reports ++
    [Event.RemoveTrustCacheFlavors hostId (untrustedIdsOf flavors reports) removeResult]

/-- What was done for one flavor group: the recorded events, whether the trust cache met
the requirements of the group, and the results of the group report. -/
structure GroupRun (R : Type) where
  events : List (Event R)
  met : Bool
  results : List RuleResult

/-- Step 4 of spec 4.2 for the flavor group `fg`, as a statement about the recorded
events.  The requirements `reqs` are those that `NewFlvGrpHostTrustReqs` returned for
(`hostId`, `hwUuid`, `fg`); the IDs `flIds` are those that `RetrieveTrustCacheFlavors`
returned for (`hostId`, `fg.ID`); every ID was looked up in the flavor store, with the
results `rs`; the flavors that resolved were validated, when there are any, with the
per-flavor reports `reports`; the verdict is `MeetsFlavorGroupReqs` of `reqs` on the
resulting trust cache; when it is false, `CreateFlavorGroupReport` was called with
`hostId`, `reqs`, the manifest and that trust cache, and returned `created`.  The results
of the group are those of the trust cache when the verdict is true and those of `created`
otherwise. -/
def GroupProtocol (v : Verifier W R C) (hostId hwUuid : UUID) (hostData : HostManifest)
    (fg : FlavorGroup) (g : GroupRun R) : Prop :=
  ∃ (reqs : R) (flIds : List UUID) (err : Option Err) (rs : List (Except Err SignedFlavor))
    (reports : List TrustReport) (removeResult : Option Err) (created : TrustReport),
    rs.length = flIds.length ∧ reports.length = (succeeded rs).length ∧
    g.met = v.MeetsFlavorGroupReqs reqs (groupCacheOf hostId (succeeded rs) reports)
      v.FlavorVerifier.GetVerifierCerts ∧
    g.events =
      Event.NewFlvGrpHostTrustReqs hostId hwUuid fg hostData v.SkipFlavorSignatureVerification
          (Except.ok reqs) ::
        Event.RetrieveTrustCacheFlavors hostId fg.ID (flIds, err) ::
        (Event.retrievals flIds rs ++
          (if (succeeded rs).length > 0 then
            Event.validation hostId hostData v.SkipFlavorSignatureVerification (succeeded rs)
              reports removeResult
           else []) ++
          (if g.met then []
           else [Event.CreateFlavorGroupReport hostId reqs hostData
              (groupCacheOf hostId (succeeded rs) reports) (Except.ok created)])) ∧
    g.results =
      if g.met then (groupCacheOf hostId (succeeded rs) reports).trustReport.Results
      else created.Results

/-- Steps 1 to 4 of spec 4.2 as a statement about the recorded events `events`: the
hardware UUID of the manifest is valid; the host store was asked for the flavor groups
of `hostId`; the flavor-group store was asked for the IDs it returned and returned the
groups `groups` without an error; then each group was handled in that order, as
`GroupProtocol` says, which gives `runs`. -/
def VerifyProtocol (v : Verifier W R C) (hostId : UUID) (hostData : HostManifest)
    (groups : List FlavorGroup) (runs : List (GroupRun R)) (events : List (Event R)) : Prop :=
  ∃ (hwUuid : UUID) (flvGroupIds : List UUID) (err : Option Err),
    v.uuidParse hostData.HostInfo.HardwareUUID = Except.ok hwUuid ∧ hwUuid ≠ uuid.Nil ∧
    List.Forall₂ (GroupProtocol v hostId hwUuid hostData) groups runs ∧
    events =
      Event.SearchFlavorgroups hostId (flvGroupIds, err) ::
        Event.FlavorGroupSearch flvGroupIds (groups, none) ::
        (runs.map GroupRun.events).flatten

/-- The final trust report after step 4 of spec 4.2: the manifest and the results of all
groups, in order; `Trusted` is not yet assigned. -/
def finalReportOf (hostData : HostManifest) (runs : List (GroupRun R)) : TrustReport :=
  { HostManifest := hostData, Trusted := false, Results := (runs.map GroupRun.results).flatten }

end recording

section recordingSteps

variable {R : Type}

/-- The events of the persistence step: the calls of the SAML generator and of
`ReportStore.Update`. -/
def Event.persists : Event R → Bool
  | Event.GenerateSamlReport _ _ _ => true
  | Event.ReportUpdate _ _ => true
  | _ => false

end recordingSteps

section recordingViews

variable {R : Type}

/-- The host and the ID list of a recorded `HostStore.RemoveTrustCacheFlavors` call. -/
def Event.asRemoval : Event R → Option (UUID × List UUID)
  | Event.RemoveTrustCacheFlavors hostId ids _ => some (hostId, ids)
  | _ => none

/-- The manifest, the flavor, the signature flag and the report of a recorded
flavor-verifier call that returned a report. -/
def Event.asVerified : Event R → Option (HostManifest × SignedFlavor × Bool × TrustReport)
  | Event.FlavorVerify hostData f skip (Except.ok report) => some (hostData, f, skip, report)
  | _ => none

/-- The host, the hardware UUID and the flavor group of a recorded
`NewFlvGrpHostTrustReqs` call. -/
def Event.asNewReqs : Event R → Option (UUID × UUID × FlavorGroup)
  | Event.NewFlvGrpHostTrustReqs hostId hwUuid fg _ _ _ => some (hostId, hwUuid, fg)
  | _ => none

/-- The host, the trust cache and the report of a recorded `CreateFlavorGroupReport` call
that returned a report. -/
def Event.asCreated : Event R → Option (UUID × hostTrustCache × TrustReport)
  | Event.CreateFlavorGroupReport hostId _ _ cache (Except.ok report) =>
    some (hostId, cache, report)
  | _ => none

/-- The recorded `RemoveTrustCacheFlavors` calls, as (host, IDs), in call order. -/
def recordedRemovals (es : List (Event R)) : List (UUID × List UUID) :=
  es.filterMap Event.asRemoval

/-- The recorded flavor-verifier calls that returned a report, in call order. -/
def recordedVerified (es : List (Event R)) :
    List (HostManifest × SignedFlavor × Bool × TrustReport) :=
  es.filterMap Event.asVerified

/-- The recorded `NewFlvGrpHostTrustReqs` calls, in call order. -/
def recordedNewReqs (es : List (Event R)) : List (UUID × UUID × FlavorGroup) :=
  es.filterMap Event.asNewReqs

/-- The recorded `CreateFlavorGroupReport` calls that returned a report, in call order. -/
def recordedCreated (es : List (Event R)) : List (UUID × hostTrustCache × TrustReport) :=
  es.filterMap Event.asCreated

end recordingViews

/-! ## The call log of each function

Each lemma says which log entries a function can add: a projection `p` of the log that
is blind to those entries reads the same before and after. -/

section log

variable {W R C : Type} {α : Type}

theorem filterMap_call (p : Call → Option α) (s : St W) (c : Call) (w : W) :
    (s.call c w).calls.filterMap p = s.calls.filterMap p ++ (p c).toList := by
  cases h : p c <;> simp [St.call, List.filterMap_append, h]

theorem filterMap_note (p : Call → Option α) (s : St W) (c : Call) :
    (s.note c).calls.filterMap p = s.calls.filterMap p ++ (p c).toList := by
  cases h : p c <;> simp [St.note, List.filterMap_append, h]

theorem getCachedFlavors_loop_log (v : Verifier W R C) (p : Call → Option α)
    (hp : ∀ id, p (Call.FlavorRetrieve id) = none) (flIds : List UUID) :
    ∀ (result : List SignedFlavor) (s : St W),
      (getCachedFlavors.loop v flIds result s).2.calls.filterMap p = s.calls.filterMap p := by
  induction flIds with
  | nil => intro result s; rfl
  | cons flvId rest ih =>
    intro result s
    simp only [getCachedFlavors.loop]
    split <;> simp [ih, filterMap_call, hp]

theorem getCachedFlavors_log (v : Verifier W R C) (p : Call → Option α)
    (hp1 : ∀ h g, p (Call.RetrieveTrustCacheFlavors h g) = none)
    (hp2 : ∀ id, p (Call.FlavorRetrieve id) = none) (hostId flavGrpId : UUID) (s : St W) :
    (getCachedFlavors v hostId flavGrpId s).2.calls.filterMap p = s.calls.filterMap p := by
  simp only [getCachedFlavors]
  split <;> simp [getCachedFlavors_loop_log v p hp2, filterMap_call, hp1]

theorem validateCachedFlavors_loop_log (v : Verifier W R C) (p : Call → Option α)
    (hp : ∀ f r, p (Call.FlavorVerify f r) = none) (hostData : HostManifest)
    (cachedFlavors : List SignedFlavor) :
    ∀ (tf : List Flavor) (rs : List RuleResult) (del : List UUID) (s : St W),
      (validateCachedFlavors.loop v hostData cachedFlavors tf rs del s).2.calls.filterMap p
        = s.calls.filterMap p := by
  induction cachedFlavors with
  | nil => intro tf rs del s; rfl
  | cons cf rest ih =>
    intro tf rs del s
    simp only [validateCachedFlavors.loop]
    split
    · simp [filterMap_call, hp]
    · split <;> simp [ih, filterMap_call, hp]

theorem validateCachedFlavors_log (v : Verifier W R C) (p : Call → Option α)
    (hp1 : ∀ f r, p (Call.FlavorVerify f r) = none)
    (hp2 : ∀ h ids, p (Call.RemoveTrustCacheFlavors h ids) = none)
    (hostId : UUID) (hostData : HostManifest) (cachedFlavors : List SignedFlavor) (s : St W) :
    (validateCachedFlavors v hostId hostData cachedFlavors s).2.calls.filterMap p
      = s.calls.filterMap p := by
  have h := validateCachedFlavors_loop_log v p hp1 hostData cachedFlavors [] [] [] s
  simp only [validateCachedFlavors]
  split
  · next heq => rw [heq] at h; exact h
  · next heq => rw [heq] at h; simpa [filterMap_call, hp2] using h

theorem Verify_group_log (v : Verifier W R C) (p : Call → Option α) (hp : BlindToGroup p)
    (hmeets : ∀ g c b, p (Call.MeetsFlavorGroupReqs g c b) = none)
    (hostId hwUuid : UUID) (hostData : HostManifest) (fg : FlavorGroup) (s : St W) :
    (Verify.group v hostId hwUuid hostData fg s).2.calls.filterMap p = s.calls.filterMap p := by
  simp only [Verify.group]
  split
  · simp [filterMap_call, hp.newReqs]
  · next fgTrustReqs w hreq =>
    have h1 := getCachedFlavors_log v p hp.retrieveCache hp.flavorRetrieve hostId fg.ID
      (s.call (Call.NewFlvGrpHostTrustReqs hostId hwUuid fg.ID) w)
    split
    · next e s2 hc => rw [hc] at h1; simpa [filterMap_call, hp.newReqs] using h1
    · next cached s2 hc =>
      rw [hc] at h1
      have h2 : ((if cached.length > 0 then validateCachedFlavors v hostId hostData cached s2
          else (Except.ok hostTrustCache.zero, s2)).2.calls.filterMap p) = s2.calls.filterMap p := by
        split
        · exact validateCachedFlavors_log v p hp.flavorVerify hp.removal hostId hostData cached s2
        · rfl
      split
      · next e s3 hv => rw [hv] at h2; simpa [filterMap_call, hp.newReqs, h2] using h1
      · next cache s3 hv =>
        rw [hv] at h2
        simp only at h1 h2
        split
        · split <;>
            simp [filterMap_call, filterMap_note, hp.newReqs, hp.createReport, hmeets, h1, h2]
        · simp [filterMap_call, filterMap_note, hp.newReqs, hmeets, h1, h2]

theorem Verify_group_unmet (v : Verifier W R C) (hostId hwUuid : UUID) (hostData : HostManifest)
    (fg : FlavorGroup) (s s1 : St W) (met : Bool) (rep : TrustReport)
    (h : Verify.group v hostId hwUuid hostData fg s = (Except.ok (met, rep), s1)) :
    unmetGroups s1.calls = unmetGroups s.calls ++ (if met then [] else [fg.ID]) := by
  have hp : BlindToGroup Call.asUnmetReqs := ⟨fun _ _ _ => rfl, fun _ _ => rfl, fun _ => rfl,
    fun _ _ => rfl, fun _ _ => rfl, fun _ _ => rfl⟩
  simp only [Verify.group] at h
  split at h
  · simp at h
  · next fgTrustReqs w hreq =>
    have h1 := getCachedFlavors_log v Call.asUnmetReqs hp.retrieveCache hp.flavorRetrieve hostId fg.ID
      (s.call (Call.NewFlvGrpHostTrustReqs hostId hwUuid fg.ID) w)
    split at h
    · simp at h
    · next cached s2 hc =>
      rw [hc] at h1
      have h2 : ((if cached.length > 0 then validateCachedFlavors v hostId hostData cached s2
          else (Except.ok hostTrustCache.zero, s2)).2.calls.filterMap Call.asUnmetReqs)
            = s2.calls.filterMap Call.asUnmetReqs := by
        split
        · exact validateCachedFlavors_log v _ hp.flavorVerify hp.removal hostId hostData cached s2
        · rfl
      split at h
      · simp at h
      · next cache s3 hv =>
        rw [hv] at h2
        simp only at h1 h2
        split at h
        · next hm =>
          split at h
          · simp at h
          · simp only [Prod.mk.injEq, Except.ok.injEq] at h
            obtain ⟨⟨hmet, -⟩, hs⟩ := h
            subst hs hmet
            simp only [Bool.not_eq_true'] at hm
            simp [unmetGroups, filterMap_call, filterMap_note, hp.newReqs, hp.createReport, h1, h2,
              hm, Call.asUnmetReqs]
        · next hm =>
          simp only [Prod.mk.injEq, Except.ok.injEq] at h
          obtain ⟨⟨hmet, -⟩, hs⟩ := h
          subst hs hmet
          simp only [Bool.not_eq_true', Bool.not_eq_false] at hm
          simp [unmetGroups, filterMap_call, filterMap_note, hp.newReqs, h1, h2, hm,
            Call.asUnmetReqs]

/-- A projection of the log that is blind to everything `Verify` does before the
persistence step. -/
theorem Verify_loop_log (v : Verifier W R C) (p : Call → Option α) (hp : BlindToGroup p)
    (hmeets : ∀ g c b, p (Call.MeetsFlavorGroupReqs g c b) = none)
    (hadd : ∀ g rs, p (Call.AddResults g rs) = none)
    (hostId hwUuid : UUID) (hostData : HostManifest) (flvGroups : List FlavorGroup) :
    ∀ (valid : Bool) (fin : TrustReport) (s : St W),
      (Verify.loop v hostId hwUuid hostData flvGroups valid fin s).2.calls.filterMap p
        = s.calls.filterMap p := by
  induction flvGroups with
  | nil => intro valid fin s; rfl
  | cons fg rest ih =>
    intro valid fin s
    have hg := Verify_group_log v p hp hmeets hostId hwUuid hostData fg s
    simp only [Verify.loop]
    split
    · next e s1 he => rw [he] at hg; exact hg
    · next met rep s1 he =>
      rw [he] at hg
      rw [ih]
      simpa [filterMap_note, hadd] using hg

/-- What the loop over the flavor groups maintains: the final results are the
concatenation of the logged group results, the host manifest and the `Trusted` bit of the
final report are untouched, and `finalReportValid` holds exactly when no
`MeetsFlavorGroupReqs` call has returned false. -/
theorem Verify_loop_inv (v : Verifier W R C) (hostId hwUuid : UUID) (hostData : HostManifest)
    (flvGroups : List FlavorGroup) :
    ∀ (valid : Bool) (fin : TrustReport) (s : St W) (valid1 : Bool) (fin1 : TrustReport) (s1 : St W),
      Verify.loop v hostId hwUuid hostData flvGroups valid fin s = (Except.ok (valid1, fin1), s1) →
      fin.Results = (groupResults s.calls).flatten →
      (valid = true ↔ unmetGroups s.calls = []) →
      fin1.Results = (groupResults s1.calls).flatten ∧ (valid1 = true ↔ unmetGroups s1.calls = []) ∧
        fin1.HostManifest = fin.HostManifest ∧ fin1.Trusted = fin.Trusted := by
  induction flvGroups with
  | nil =>
    intro valid fin s valid1 fin1 s1 h hres hval
    simp only [Verify.loop, Prod.mk.injEq, Except.ok.injEq] at h
    obtain ⟨⟨rfl, rfl⟩, rfl⟩ := h
    exact ⟨hres, hval, rfl, rfl⟩
  | cons fg rest ih =>
    intro valid fin s valid1 fin1 s1 h hres hval
    simp only [Verify.loop] at h
    split at h
    · simp at h
    · next met rep s2 he =>
      have hblind : BlindToGroup Call.asAddResults := ⟨fun _ _ _ => rfl, fun _ _ => rfl,
        fun _ => rfl, fun _ _ => rfl, fun _ _ => rfl, fun _ _ => rfl⟩
      have hg := Verify_group_log v Call.asAddResults hblind (fun _ _ _ => rfl)
        hostId hwUuid hostData fg s
      have hu := Verify_group_unmet v hostId hwUuid hostData fg s s2 met rep he
      rw [he] at hg
      simp only at hg
      have := ih _ _ _ valid1 fin1 s1 h
        (by simp [TrustReport.AddResults, groupResults, filterMap_note, hg, hres,
              Call.asAddResults])
        (by
          have hn : unmetGroups (s2.note (Call.AddResults fg.ID rep.Results)).calls
              = unmetGroups s2.calls := by
            simp [unmetGroups, filterMap_note, Call.asUnmetReqs]
          rw [hn, hu]
          cases met <;> simp [hval])
      obtain ⟨h1, h2, h3, h4⟩ := this
      exact ⟨h1, h2, by simpa [TrustReport.AddResults] using h3,
        by simpa [TrustReport.AddResults] using h4⟩

/-- The outcome of lines 47-102 when they do not fail, read off the log: started on an
empty log, the final results are the concatenation of the logged group results,
`finalReportValid` holds exactly when no `MeetsFlavorGroupReqs` call returned false, the
final report embeds the host manifest with `Trusted` still false, and nothing was handed
to the report store or to the SAML generator. -/
theorem Verify_collect_ok (v : Verifier W R C) (hostId : UUID) (hostData : Option HostManifest)
    (w : W) (valid : Bool) (fin : TrustReport) (s1 : St W)
    (h : Verify.collect v hostId hostData ⟨w, []⟩ = (Except.ok (valid, fin), s1)) :
    fin.Results = (groupResults s1.calls).flatten ∧ (valid = true ↔ unmetGroups s1.calls = []) ∧
      some fin.HostManifest = hostData ∧ fin.Trusted = false ∧
      persisted s1.calls = [] ∧ samlInputs s1.calls = [] := by
  have hb1 : BlindToGroup Call.asReportUpdate := ⟨fun _ _ _ => rfl, fun _ _ => rfl,
    fun _ => rfl, fun _ _ => rfl, fun _ _ => rfl, fun _ _ => rfl⟩
  have hb2 : BlindToGroup Call.asSamlInput := ⟨fun _ _ _ => rfl, fun _ _ => rfl,
    fun _ => rfl, fun _ _ => rfl, fun _ _ => rfl, fun _ _ => rfl⟩
  simp only [Verify.collect] at h
  split at h
  · simp at h
  · next hd =>
    split at h
    · simp at h
    · next hwUuid hparse =>
      split at h
      · simp at h
      · split at h
        · simp at h
        · have hl1 := congrArg (fun r => r.2.calls.filterMap Call.asReportUpdate) h
          have hl2 := congrArg (fun r => r.2.calls.filterMap Call.asSamlInput) h
          simp only at hl1 hl2
          rw [Verify_loop_log v Call.asReportUpdate hb1 (fun _ _ _ => rfl) (fun _ _ => rfl)] at hl1
          rw [Verify_loop_log v Call.asSamlInput hb2 (fun _ _ _ => rfl) (fun _ _ => rfl)] at hl2
          have hi := Verify_loop_inv v hostId hwUuid hd _ _ _ _ valid fin s1 h
            (by simp [groupResults, St.call, Call.asAddResults])
            (by simp [unmetGroups, St.call, Call.asUnmetReqs])
          obtain ⟨h1, h2, h3, h4⟩ := hi
          refine ⟨h1, h2, by rw [h3], h4, ?_, ?_⟩
          · simpa [persisted, St.call, Call.asReportUpdate] using hl1.symm
          · simpa [samlInputs, St.call, Call.asSamlInput] using hl2.symm

/-- A run of lines 47-102 that fails hands nothing to the report store. -/
theorem Verify_collect_persisted (v : Verifier W R C) (hostId : UUID)
    (hostData : Option HostManifest) (s : St W) :
    persisted (Verify.collect v hostId hostData s).2.calls = persisted s.calls := by
  have hb1 : BlindToGroup Call.asReportUpdate := ⟨fun _ _ _ => rfl, fun _ _ => rfl,
    fun _ => rfl, fun _ _ => rfl, fun _ _ => rfl, fun _ _ => rfl⟩
  simp only [Verify.collect]
  split
  · rfl
  · split
    · rfl
    · split
      · rfl
      · split
        · simp [persisted, filterMap_call, Call.asReportUpdate]
        · simp only [persisted]
          rw [Verify_loop_log v Call.asReportUpdate hb1 (fun _ _ _ => rfl) (fun _ _ => rfl)]
          simp [filterMap_call, Call.asReportUpdate]

/-- The persistence step: what is handed to the SAML generator and to the report store. -/
theorem Verify_persist_spec (v : Verifier W R C) (hostId : UUID) (newData valid : Bool)
    (fin : TrustReport) (s : St W) :
    let out := Verify.persist v hostId newData valid fin s
    out.1.2 = none ∧
    (fin.Results ≠ [] ∧ (valid = false ∨ newData = true) →
      groupResults out.2.calls = groupResults s.calls ∧
      unmetGroups out.2.calls = unmetGroups s.calls ∧
      samlInputs out.2.calls = samlInputs s.calls ++ [fin] ∧
      persisted out.2.calls = persisted s.calls ++
        [{ ID := uuid.Nil, HostID := hostId,
           TrustReport := { fin with Trusted := fin.IsTrusted },
           CreatedAt := (v.GenerateSamlReport s.world v.SamlIssuer fin).1.CreatedTime,
           Expiration := (v.GenerateSamlReport s.world v.SamlIssuer fin).1.ExpiryTime,
           Saml := (v.GenerateSamlReport s.world v.SamlIssuer fin).1.Assertion }]) ∧
    (¬ (fin.Results ≠ [] ∧ (valid = false ∨ newData = true)) → out = ((none, none), s)) := by
  have hc : (decide (fin.Results.length > 0) && (!valid || newData)) = true ↔
      (fin.Results ≠ [] ∧ (valid = false ∨ newData = true)) := by
    cases hr : fin.Results <;> cases valid <;> cases newData <;> simp
  simp only [Verify.persist]
  by_cases hcond : (decide (fin.Results.length > 0) && (!valid || newData)) = true
  · have hcond2 := hc.mp hcond
    rw [if_pos hcond]
    refine ⟨rfl, fun _ => ?_, fun hn => absurd hcond2 hn⟩
    simp [storeTrustReport, groupResults, unmetGroups, samlInputs, persisted, filterMap_call,
      Call.asAddResults, Call.asUnmetReqs, Call.asSamlInput, Call.asReportUpdate, St.call]
  · have hcond2 := fun h => hcond (hc.mpr h)
    rw [if_neg hcond]
    exact ⟨rfl, fun h => absurd h hcond2, fun _ => rfl⟩

/-- Every error of the loop body is a wrapped error. -/
theorem Verify_group_error (v : Verifier W R C) (hostId hwUuid : UUID) (hostData : HostManifest)
    (fg : FlavorGroup) (s s1 : St W) (e : Err)
    (h : Verify.group v hostId hwUuid hostData fg s = (Except.error e, s1)) :
    ∃ cause msg, e = Err.wrap cause msg := by
  simp only [Verify.group] at h
  split at h
  · simp only [Prod.mk.injEq, Except.error.injEq] at h
    exact ⟨_, _, h.1.symm⟩
  · split at h
    · simp only [Prod.mk.injEq, Except.error.injEq] at h
      exact ⟨_, _, h.1.symm⟩
    · split at h
      · simp only [Prod.mk.injEq, Except.error.injEq] at h
        exact ⟨_, _, h.1.symm⟩
      · split at h
        · split at h
          · simp only [Prod.mk.injEq, Except.error.injEq] at h
            exact ⟨_, _, h.1.symm⟩
          · simp at h
        · simp at h

/-- Every error of the loop over the flavor groups is a wrapped error. -/
theorem Verify_loop_error (v : Verifier W R C) (hostId hwUuid : UUID) (hostData : HostManifest)
    (flvGroups : List FlavorGroup) :
    ∀ (valid : Bool) (fin : TrustReport) (s s1 : St W) (e : Err),
      Verify.loop v hostId hwUuid hostData flvGroups valid fin s = (Except.error e, s1) →
      ∃ cause msg, e = Err.wrap cause msg := by
  induction flvGroups with
  | nil => intro valid fin s s1 e h; simp [Verify.loop] at h
  | cons fg rest ih =>
    intro valid fin s s1 e h
    simp only [Verify.loop] at h
    split at h
    · next e2 s2 he =>
      simp only [Prod.mk.injEq, Except.error.injEq] at h
      obtain ⟨rfl, -⟩ := h
      exact Verify_group_error v hostId hwUuid hostData fg s s2 _ he
    · exact ih _ _ _ _ _ h

/-- The persistence step adds only `GenerateSamlReport` and `ReportStore.Update` entries. -/
theorem Verify_persist_log (v : Verifier W R C) (p : Call → Option α)
    (hp1 : ∀ t, p (Call.GenerateSamlReport t) = none)
    (hp2 : ∀ r res, p (Call.ReportUpdate r res) = none)
    (hostId : UUID) (newData valid : Bool) (fin : TrustReport) (s : St W) :
    (Verify.persist v hostId newData valid fin s).2.calls.filterMap p = s.calls.filterMap p := by
  simp only [Verify.persist]
  split
  · simp [storeTrustReport, filterMap_call, hp1, hp2]
  · rfl

/-- The loop of `validateCachedFlavors` on a list on which the flavor verifier never
errors: it ends without error, the verifier was called once per cached flavor, in order,
and the three accumulators grew by the partition of the flavors according to the
`Trusted` bit of their reports. -/
theorem validateCachedFlavors_loop_partition (v : Verifier W R C) (hostData : HostManifest)
    (cachedFlavors : List SignedFlavor)
    (hnever : ∀ w f, f ∈ cachedFlavors → ∃ report w1,
      v.FlavorVerifier.Verify w hostData f v.SkipFlavorSignatureVerification = (Except.ok report, w1)) :
    ∀ (tf : List Flavor) (rs : List RuleResult) (del : List UUID) (s : St W),
      ∃ (vs : List (SignedFlavor × TrustReport)) (s1 : St W),
        validateCachedFlavors.loop v hostData cachedFlavors tf rs del s
          = (Except.ok (tf ++ (vs.filter (fun x => x.2.Trusted)).map (fun x => x.1.Flavor),
              rs ++ ((vs.filter (fun x => x.2.Trusted)).map (fun x => x.2.Results)).flatten,
              del ++ (vs.filter (fun x => !x.2.Trusted)).map (fun x => x.1.Flavor.Meta.ID)), s1) ∧
        vs.map Prod.fst = cachedFlavors ∧
        verified s1.calls = verified s.calls ++ vs ∧
        removals s1.calls = removals s.calls := by
  induction cachedFlavors with
  | nil => intro tf rs del s; exact ⟨[], s, by simp [validateCachedFlavors.loop]⟩
  | cons cf rest ih =>
    intro tf rs del s
    obtain ⟨report, w1, hv⟩ := hnever s.world cf (List.mem_cons_self _ _)
    have hrest : ∀ w f, f ∈ rest → ∃ report w1,
        v.FlavorVerifier.Verify w hostData f v.SkipFlavorSignatureVerification
          = (Except.ok report, w1) :=
      fun w f hf => hnever w f (List.mem_cons_of_mem _ hf)
    simp only [validateCachedFlavors.loop, hv]
    by_cases ht : report.Trusted = true
    · rw [if_pos ht]
      obtain ⟨vs, s1, h1, h2, h3, h4⟩ := ih hrest (tf ++ [cf.Flavor]) (rs ++ report.Results) del
        (s.call (Call.FlavorVerify cf (Except.ok report)) w1)
      refine ⟨(cf, report) :: vs, s1, ?_, by simp [h2], ?_, ?_⟩
      · rw [h1]; simp [ht]
      · rw [h3]; simp [verified, filterMap_call, Call.asVerified]
      · rw [h4]; simp [removals, filterMap_call, Call.asRemoval]
    · rw [if_neg ht]
      obtain ⟨vs, s1, h1, h2, h3, h4⟩ := ih hrest tf rs (del ++ [cf.Flavor.Meta.ID])
        (s.call (Call.FlavorVerify cf (Except.ok report)) w1)
      refine ⟨(cf, report) :: vs, s1, ?_, by simp [h2], ?_, ?_⟩
      · rw [h1]; simp [ht]
      · rw [h3]; simp [verified, filterMap_call, Call.asVerified]
      · rw [h4]; simp [removals, filterMap_call, Call.asRemoval]

theorem getLast_call (s : St W) (c : Call) (w : W) : (s.call c w).calls.getLast? = some c := by
  simp [St.call]

theorem VerifyErrorOutcome_congr {before before1 after : List Call} {returned : Option Err}
    {expected : Err → Err} (hb : verifyErrors before = verifyErrors before1)
    (h : VerifyErrorOutcome before after returned expected) :
    VerifyErrorOutcome before1 after returned expected := by
  simpa only [VerifyErrorOutcome, hb] using h

theorem validateCachedFlavors_loop_verifyError (v : Verifier W R C) (hostData : HostManifest)
    (cachedFlavors : List SignedFlavor) :
    ∀ (tf : List Flavor) (rs : List RuleResult) (del : List UUID) (s : St W),
      VerifyErrorOutcome s.calls
        (validateCachedFlavors.loop v hostData cachedFlavors tf rs del s).2.calls
        (errorOf (validateCachedFlavors.loop v hostData cachedFlavors tf rs del s).1)
        (fun e => Err.wrap e msgFlavorVerifier) := by
  induction cachedFlavors with
  | nil => intro tf rs del s; exact Or.inl rfl
  | cons cf rest ih =>
    intro tf rs del s
    simp only [validateCachedFlavors.loop]
    split
    · next e w hv =>
      refine Or.inr ⟨cf, e, rfl, getLast_call _ _ _, ?_⟩
      simp [verifyErrors, filterMap_call, Call.asVerifyError]
    · next report w hv =>
      have hstep : verifyErrors (s.call (Call.FlavorVerify cf (Except.ok report)) w).calls
          = verifyErrors s.calls := by
        simp [verifyErrors, filterMap_call, Call.asVerifyError]
      split
      · have := ih (tf ++ [cf.Flavor]) (rs ++ report.Results) del
          (s.call (Call.FlavorVerify cf (Except.ok report)) w)
        simpa only [VerifyErrorOutcome, hstep] using this
      · have := ih tf rs (del ++ [cf.Flavor.Meta.ID])
          (s.call (Call.FlavorVerify cf (Except.ok report)) w)
        simpa only [VerifyErrorOutcome, hstep] using this

theorem validateCachedFlavors_verifyError (v : Verifier W R C) (hostId : UUID)
    (hostData : HostManifest) (cachedFlavors : List SignedFlavor) (s : St W) :
    VerifyErrorOutcome s.calls
      (validateCachedFlavors v hostId hostData cachedFlavors s).2.calls
      (errorOf (validateCachedFlavors v hostId hostData cachedFlavors s).1)
      (fun e => Err.wrap e msgFlavorVerifier) := by
  have h := validateCachedFlavors_loop_verifyError v hostData cachedFlavors [] [] [] s
  simp only [validateCachedFlavors]
  split
  · next e s1 heq => rw [heq] at h; exact h
  · next tf rs del s1 heq =>
    rw [heq] at h
    rcases h with h | ⟨f, e, h1, -, -⟩
    · refine Or.inl ?_
      simp only [verifyErrors, filterMap_call] at h ⊢
      simp [h, Call.asVerifyError]
    · simp [errorOf] at h1

theorem Verify_group_verifyError (v : Verifier W R C) (hostId hwUuid : UUID)
    (hostData : HostManifest) (fg : FlavorGroup) (s : St W) :
    VerifyErrorOutcome s.calls
      (Verify.group v hostId hwUuid hostData fg s).2.calls
      (errorOf (Verify.group v hostId hwUuid hostData fg s).1)
      (fun e => Err.wrap (Err.wrap e msgFlavorVerifier) msgValidatingCache) := by
  simp only [Verify.group]
  split
  · exact Or.inl (by simp [verifyErrors, filterMap_call, Call.asVerifyError])
  · next fgTrustReqs w hreq =>
    have h1 := getCachedFlavors_log v Call.asVerifyError (fun _ _ => rfl) (fun _ => rfl) hostId fg.ID
      (s.call (Call.NewFlvGrpHostTrustReqs hostId hwUuid fg.ID) w)
    have h0 : verifyErrors (s.call (Call.NewFlvGrpHostTrustReqs hostId hwUuid fg.ID) w).calls
        = verifyErrors s.calls := by
      simp [verifyErrors, filterMap_call, Call.asVerifyError]
    split
    · next e s2 hc => rw [hc] at h1; exact Or.inl (by rw [← h0]; exact h1)
    · next cached s2 hc =>
      rw [hc] at h1
      have h12 : verifyErrors s2.calls = verifyErrors s.calls := by rw [← h0]; exact h1
      have h2 : VerifyErrorOutcome s2.calls
          (if cached.length > 0 then validateCachedFlavors v hostId hostData cached s2
            else (Except.ok hostTrustCache.zero, s2)).2.calls
          (errorOf (if cached.length > 0 then validateCachedFlavors v hostId hostData cached s2
            else (Except.ok hostTrustCache.zero, s2)).1)
          (fun e => Err.wrap e msgFlavorVerifier) := by
        split
        · exact validateCachedFlavors_verifyError v hostId hostData cached s2
        · exact Or.inl rfl
      split
      · next e s3 hv =>
        rw [hv] at h2
        rcases h2 with h2 | ⟨f, e1, h21, h22, h23⟩
        · exact Or.inl (by rw [← h12]; exact h2)
        · simp only [errorOf, Option.some.injEq] at h21
          subst h21
          exact Or.inr ⟨f, e1, rfl, h22, by rw [← h12]; exact h23⟩
      · next cache s3 hv =>
        rw [hv] at h2
        rcases h2 with h2 | ⟨f, e1, h21, -, -⟩
        · simp only at h2
          refine Or.inl ?_
          split
          · split <;>
              simp only [verifyErrors, filterMap_call, filterMap_note] at h2 h12 ⊢ <;>
              simp [h2, h12, Call.asVerifyError]
          · simp only [verifyErrors, filterMap_call, filterMap_note] at h2 h12 ⊢
            simp [h2, h12, Call.asVerifyError]
        · simp [errorOf] at h21

theorem Verify_loop_verifyError (v : Verifier W R C) (hostId hwUuid : UUID)
    (hostData : HostManifest) (flvGroups : List FlavorGroup) :
    ∀ (valid : Bool) (fin : TrustReport) (s : St W),
      VerifyErrorOutcome s.calls
        (Verify.loop v hostId hwUuid hostData flvGroups valid fin s).2.calls
        (errorOf (Verify.loop v hostId hwUuid hostData flvGroups valid fin s).1)
        (fun e => Err.wrap (Err.wrap e msgFlavorVerifier) msgValidatingCache) := by
  induction flvGroups with
  | nil => intro valid fin s; exact Or.inl rfl
  | cons fg rest ih =>
    intro valid fin s
    have hg := Verify_group_verifyError v hostId hwUuid hostData fg s
    simp only [Verify.loop]
    split
    · next e s1 he => rw [he] at hg; exact hg
    · next met rep s1 he =>
      rw [he] at hg
      rcases hg with hg | ⟨f, e1, h21, -, -⟩
      · have hn : verifyErrors (s1.note (Call.AddResults fg.ID rep.Results)).calls
            = verifyErrors s.calls := by
          simp only [verifyErrors, filterMap_note] at hg ⊢
          simp [hg, Call.asVerifyError]
        have := ih (valid && met) (fin.AddResults rep.Results)
          (s1.note (Call.AddResults fg.ID rep.Results))
        simpa only [VerifyErrorOutcome, hn] using this
      · simp [errorOf] at h21

theorem updates_fst (cs : List Call) : (updates cs).map Prod.fst = persisted cs := by
  induction cs with
  | nil => rfl
  | cons c cs ih =>
    cases c <;> simp_all [updates, persisted, List.filterMap_cons, Call.asUpdate, Call.asReportUpdate]

end log

/-! ## The in-memory host store -/

/-- Removal in the in-memory host store is set removal on every trust cache of the host. -/
theorem Example.cacheOf_remove (w : Example.Mem) (hostId fgId : UUID) (ids : List UUID) :
    Example.cacheOf ((Example.hostStore [1]).RemoveTrustCacheFlavors w hostId ids).2 hostId fgId
      = (Example.cacheOf w hostId fgId).filter (fun id => !ids.contains id) := by
  simp only [Example.hostStore, Example.cacheOf]
  induction w.trustCache with
  | nil => rfl
  | cons row rows ih =>
    by_cases h1 : row.1 = hostId <;> by_cases h2 : row.2.1 = fgId <;>
      by_cases h3 : ids.contains row.2.2 = true <;>
      simp_all [List.filter_cons, List.filterMap_cons]

/-- The in-memory flavor store returns under an ID a flavor with that ID. -/
theorem Example.flavorStore_id (flavors : List SignedFlavor) (w : Example.Mem) (id : UUID)
    (sf : SignedFlavor) (h : ((Example.flavorStore flavors).Retrieve w id).1 = Except.ok sf) :
    sf.Flavor.Meta.ID = id := by
  simp only [Example.flavorStore] at h
  split at h
  · next f hf =>
    simp only [Except.ok.injEq] at h
    subst h
    simpa using List.find?_some hf
  · simp at h

/-- The in-memory verifier of host 5 satisfies the conditions of repeated verification. -/
theorem Example.v1_stable :
    StableStores Example.v1 5 Example.hd1 (fun w g => Example.cacheOf w 5 g) where
  searchFlavorgroups := fun _ _ => rfl
  flavorGroupSearch := fun _ _ _ => rfl
  newReqs := fun _ _ _ _ => rfl
  flavorRetrieve := fun _ _ _ => rfl
  flavorVerify := fun _ _ _ => rfl
  retrieveCache := fun _ _ => rfl
  removeCache := fun w ids g => Example.cacheOf_remove w 5 g ids
  flavorID := fun w id sf h => Example.flavorStore_id Example.flavors w id sf h
  meetsHostID := fun _ _ _ _ => rfl

/-! ## Properties of the world preserved by the verifier -/

section frame

variable {W R C : Type} {v : Verifier W R C} {P : W → Prop}

theorem getCachedFlavors_loop_frame (hf : FramedBy v P) (flIds : List UUID) :
    ∀ (result : List SignedFlavor) (s : St W), P s.world →
      P (getCachedFlavors.loop v flIds result s).2.world := by
  induction flIds with
  | nil => intro result s h; exact h
  | cons flvId rest ih =>
    intro result s h
    have h1 := hf.flavorRetrieve s.world flvId h
    simp only [getCachedFlavors.loop]
    split
    · next flv w heq => rw [heq] at h1; exact ih _ _ h1
    · next e w heq => rw [heq] at h1; exact ih _ _ h1

theorem getCachedFlavors_frame (hf : FramedBy v P) (hostId flavGrpId : UUID) (s : St W)
    (h : P s.world) : P (getCachedFlavors v hostId flavGrpId s).2.world := by
  have h1 := hf.retrieveTrustCacheFlavors s.world hostId flavGrpId h
  simp only [getCachedFlavors]
  split
  · exact h1
  · exact getCachedFlavors_loop_frame hf _ _ _ h1

theorem validateCachedFlavors_loop_frame (hf : FramedBy v P) (hostData : HostManifest)
    (cachedFlavors : List SignedFlavor) :
    ∀ (tf : List Flavor) (rs : List RuleResult) (del : List UUID) (s : St W), P s.world →
      P (validateCachedFlavors.loop v hostData cachedFlavors tf rs del s).2.world := by
  induction cachedFlavors with
  | nil => intro tf rs del s h; exact h
  | cons cf rest ih =>
    intro tf rs del s h
    have h1 := hf.flavorVerify s.world hostData cf v.SkipFlavorSignatureVerification h
    simp only [validateCachedFlavors.loop]
    split
    · next e w heq => rw [heq] at h1; exact h1
    · next report w heq =>
      rw [heq] at h1
      split
      · exact ih _ _ _ _ h1
      · exact ih _ _ _ _ h1

theorem validateCachedFlavors_frame (hf : FramedBy v P)
    (hostId : UUID)
    (hrem : ∀ w ids, P w → P (v.HostStore.RemoveTrustCacheFlavors w hostId ids).2)
    (hostData : HostManifest) (cachedFlavors : List SignedFlavor) (s : St W)
    (h : P s.world) : P (validateCachedFlavors v hostId hostData cachedFlavors s).2.world := by
  have h1 := validateCachedFlavors_loop_frame hf hostData cachedFlavors [] [] [] s h
  simp only [validateCachedFlavors]
  split
  · next e s1 heq => rw [heq] at h1; exact h1
  · next tf rs del s1 heq => rw [heq] at h1; exact hrem _ _ h1

theorem Verify_group_frame (hf : FramedBy v P)
    (hostId hwUuid : UUID)
    (hrem : ∀ w ids, P w → P (v.HostStore.RemoveTrustCacheFlavors w hostId ids).2)
    (hostData : HostManifest) (fg : FlavorGroup) (s : St W)
    (h : P s.world) : P (Verify.group v hostId hwUuid hostData fg s).2.world := by
  have h1 := hf.newReqs s.world hostId hwUuid fg hostData v.SkipFlavorSignatureVerification h
  simp only [Verify.group]
  split
  · next e w heq => rw [heq] at h1; exact h1
  · next reqs w heq =>
    rw [heq] at h1
    have h2 := getCachedFlavors_frame hf hostId fg.ID
      (s.call (Call.NewFlvGrpHostTrustReqs hostId hwUuid fg.ID) w) h1
    split
    · next e s2 hc => rw [hc] at h2; exact h2
    · next cached s2 hc =>
      rw [hc] at h2
      have h3 : P (if cached.length > 0 then validateCachedFlavors v hostId hostData cached s2
          else (Except.ok hostTrustCache.zero, s2)).2.world := by
        split
        · exact validateCachedFlavors_frame hf hostId hrem hostData cached s2 h2
        · exact h2
      split
      · next e s3 hv => rw [hv] at h3; exact h3
      · next cache s3 hv =>
        rw [hv] at h3
        split
        · have h4 := hf.createReport s3.world hostId reqs hostData cache h3
          split
          · next e w5 hcr => simp only [St.note] at hcr; rw [hcr] at h4; exact h4
          · next rep w5 hcr => simp only [St.note] at hcr; rw [hcr] at h4; exact h4
        · exact h3

theorem Verify_loop_frame (hf : FramedBy v P)
    (hostId hwUuid : UUID)
    (hrem : ∀ w ids, P w → P (v.HostStore.RemoveTrustCacheFlavors w hostId ids).2)
    (hostData : HostManifest) (flvGroups : List FlavorGroup) :
    ∀ (valid : Bool) (fin : TrustReport) (s : St W), P s.world →
      P (Verify.loop v hostId hwUuid hostData flvGroups valid fin s).2.world := by
  induction flvGroups with
  | nil => intro valid fin s h; exact h
  | cons fg rest ih =>
    intro valid fin s h
    have h1 := Verify_group_frame hf hostId hwUuid hrem hostData fg s h
    simp only [Verify.loop]
    split
    · next e s1 heq => rw [heq] at h1; exact h1
    · next met rep s1 heq => rw [heq] at h1; exact ih _ _ _ h1

theorem Verify_persist_frame (hf : FramedBy v P) (hostId : UUID) (newData valid : Bool)
    (fin : TrustReport) (s : St W) (h : P s.world) :
    P (Verify.persist v hostId newData valid fin s).2.world := by
  simp only [Verify.persist]
  split
  · exact hf.reportUpdate _ _ (hf.generateSaml _ _ _ h)
  · exact h

end frame

/-! ## Pruning of the trust cache -/

section pruning

variable {W R C : Type} {v : Verifier W R C} {P : W → Prop}

theorem validateCachedFlavors_loop_marks (hostData : HostManifest) (sf : SignedFlavor)
    (huntrusted : ∀ w report w1,
      v.FlavorVerifier.Verify w hostData sf v.SkipFlavorSignatureVerification
        = (Except.ok report, w1) → report.Trusted = false)
    (cachedFlavors : List SignedFlavor) :
    ∀ (tf : List Flavor) (rs : List RuleResult) (del : List UUID) (s : St W)
      (tf1 : List Flavor) (rs1 : List RuleResult) (del1 : List UUID) (s1 : St W),
      validateCachedFlavors.loop v hostData cachedFlavors tf rs del s
        = (Except.ok (tf1, rs1, del1), s1) →
      (sf.Flavor.Meta.ID ∈ del ∨ sf ∈ cachedFlavors) → sf.Flavor.Meta.ID ∈ del1 := by
  induction cachedFlavors with
  | nil =>
    intro tf rs del s tf1 rs1 del1 s1 h hin
    simp only [validateCachedFlavors.loop, Prod.mk.injEq, Except.ok.injEq] at h
    obtain ⟨⟨-, -, rfl⟩, -⟩ := h
    rcases hin with hin | hsf
    · exact hin
    · simp at hsf
  | cons cf rest ih =>
    intro tf rs del s tf1 rs1 del1 s1 h hin
    simp only [validateCachedFlavors.loop] at h
    split at h
    · simp at h
    · next report w hv =>
      split at h
      · next ht =>
        refine ih _ _ _ _ _ _ _ _ h ?_
        rcases hin with hin | hsf
        · exact Or.inl hin
        · rcases List.mem_cons.mp hsf with rfl | hsf
          · have := huntrusted _ _ _ hv
            rw [this] at ht
            simp at ht
          · exact Or.inr hsf
      · refine ih _ _ _ _ _ _ _ _ h ?_
        rcases hin with hin | hsf
        · exact Or.inl (List.mem_append_left _ hin)
        · rcases List.mem_cons.mp hsf with rfl | hsf
          · exact Or.inl (by simp)
          · exact Or.inr hsf

theorem validateCachedFlavors_establishes (hostId : UUID) (hostData : HostManifest)
    (sf : SignedFlavor)
    (huntrusted : ∀ w report w1,
      v.FlavorVerifier.Verify w hostData sf v.SkipFlavorSignatureVerification
        = (Except.ok report, w1) → report.Trusted = false)
    (hest : ∀ w ids, sf.Flavor.Meta.ID ∈ ids →
      P (v.HostStore.RemoveTrustCacheFlavors w hostId ids).2)
    (cachedFlavors : List SignedFlavor) (s s1 : St W) (htc : hostTrustCache)
    (h : validateCachedFlavors v hostId hostData cachedFlavors s = (Except.ok htc, s1))
    (hin : sf ∈ cachedFlavors) : P s1.world := by
  simp only [validateCachedFlavors] at h
  split at h
  · simp at h
  · next tf rs del s2 heq =>
    have hm := validateCachedFlavors_loop_marks hostData sf huntrusted cachedFlavors _ _ _ _ _ _ _ _
      heq (Or.inr hin)
    simp only [Prod.mk.injEq] at h
    obtain ⟨-, rfl⟩ := h
    exact hest _ _ hm

theorem getCachedFlavors_loop_resolves (fid : UUID) (sf : SignedFlavor)
    (hresolve : ∀ w, ∃ w1, v.FlavorStore.Retrieve w fid = (Except.ok sf, w1))
    (flIds : List UUID) :
    ∀ (result : List SignedFlavor) (s : St W),
      (sf ∈ result ∨ fid ∈ flIds) → sf ∈ (getCachedFlavors.loop v flIds result s).1 := by
  induction flIds with
  | nil =>
    intro result s h
    rcases h with h | h
    · exact h
    · simp at h
  | cons flvId rest ih =>
    intro result s h
    simp only [getCachedFlavors.loop]
    split
    · next flv w heq =>
      refine ih _ _ ?_
      rcases h with hsf | h
      · exact Or.inl (List.mem_append_left _ hsf)
      · rcases List.mem_cons.mp h with rfl | h
        · obtain ⟨w1, hr⟩ := hresolve s.world
          rw [hr] at heq
          simp only [Prod.mk.injEq, Except.ok.injEq] at heq
          obtain ⟨rfl, -⟩ := heq
          exact Or.inl (by simp)
        · exact Or.inr h
    · next e w heq =>
      refine ih _ _ ?_
      rcases h with h | h
      · exact Or.inl h
      · rcases List.mem_cons.mp h with rfl | h
        · obtain ⟨w1, hr⟩ := hresolve s.world
          rw [hr] at heq
          simp at heq
        · exact Or.inr h

theorem getCachedFlavors_resolves (hf : FramedBy v P) (hostId g fid : UUID) (sf : SignedFlavor)
    (hread : ∀ w, ¬ P w → fid ∈ (v.HostStore.RetrieveTrustCacheFlavors w hostId g).1.1)
    (hresolve : ∀ w, ∃ w1, v.FlavorStore.Retrieve w fid = (Except.ok sf, w1))
    (s s1 : St W) (cached : List SignedFlavor)
    (h : getCachedFlavors v hostId g s = (Except.ok cached, s1)) :
    P s1.world ∨ sf ∈ cached := by
  by_cases hP : P s.world
  · left
    have := getCachedFlavors_frame hf hostId g s hP
    rw [h] at this
    exact this
  · right
    have hin := hread s.world hP
    simp only [getCachedFlavors] at h
    split at h
    · simp at h
    · simp only [Prod.mk.injEq, Except.ok.injEq] at h
      obtain ⟨rfl, -⟩ := h
      exact getCachedFlavors_loop_resolves fid sf hresolve _ _ _ (Or.inr hin)

theorem Verify_group_prunes (hf : FramedBy v P) (hostId hwUuid : UUID)
    (hrem : ∀ w ids, P w → P (v.HostStore.RemoveTrustCacheFlavors w hostId ids).2)
    (hostData : HostManifest) (fg : FlavorGroup) (fid : UUID) (sf : SignedFlavor)
    (hread : ∀ w, ¬ P w → fid ∈ (v.HostStore.RetrieveTrustCacheFlavors w hostId fg.ID).1.1)
    (hest : ∀ w ids, sf.Flavor.Meta.ID ∈ ids →
      P (v.HostStore.RemoveTrustCacheFlavors w hostId ids).2)
    (hresolve : ∀ w, ∃ w1, v.FlavorStore.Retrieve w fid = (Except.ok sf, w1))
    (huntrusted : ∀ w report w1,
      v.FlavorVerifier.Verify w hostData sf v.SkipFlavorSignatureVerification
        = (Except.ok report, w1) → report.Trusted = false)
    (s s1 : St W) (res : Bool × TrustReport)
    (h : Verify.group v hostId hwUuid hostData fg s = (Except.ok res, s1)) : P s1.world := by
  simp only [Verify.group] at h
  split at h
  · simp at h
  · next reqs w hreq =>
    split at h
    · simp at h
    · next cached s2 hc =>
      have hcase := getCachedFlavors_resolves hf hostId fg.ID fid sf hread hresolve _ _ _ hc
      have h3 : ∀ cache s3, (if cached.length > 0 then
          validateCachedFlavors v hostId hostData cached s2
          else (Except.ok hostTrustCache.zero, s2)) = (Except.ok cache, s3) → P s3.world := by
        intro cache s3 hv
        rcases hcase with hP | hin
        · have : P (if cached.length > 0 then validateCachedFlavors v hostId hostData cached s2
              else (Except.ok hostTrustCache.zero, s2)).2.world := by
            split
            · exact validateCachedFlavors_frame hf hostId hrem hostData cached s2 hP
            · exact hP
          rw [hv] at this
          exact this
        · have hlen : cached.length > 0 := List.length_pos_of_mem hin
          rw [if_pos hlen] at hv
          exact validateCachedFlavors_establishes hostId hostData sf huntrusted hest cached
            s2 s3 cache hv hin
      split at h
      · simp at h
      · next cache s3 hv =>
        have hP3 := h3 cache s3 hv
        split at h
        · have h4 := hf.createReport s3.world hostId reqs hostData cache hP3
          split at h
          · simp at h
          · next rep w5 hcr =>
            simp only [St.note] at hcr
            rw [hcr] at h4
            simp only [Prod.mk.injEq] at h
            obtain ⟨-, rfl⟩ := h
            exact h4
        · simp only [Prod.mk.injEq] at h
          obtain ⟨-, rfl⟩ := h
          exact hP3

theorem Verify_group_cacheReads (hostId hwUuid : UUID) (hostData : HostManifest)
    (fg : FlavorGroup) (s s1 : St W) (res : Bool × TrustReport)
    (h : Verify.group v hostId hwUuid hostData fg s = (Except.ok res, s1)) :
    cacheReads s1.calls = cacheReads s.calls ++ [(hostId, fg.ID)] := by
  simp only [Verify.group] at h
  split at h
  · simp at h
  · next reqs w hreq =>
    split at h
    · simp at h
    · next cached s2 hc =>
      have h1 : cacheReads s2.calls = cacheReads s.calls ++ [(hostId, fg.ID)] := by
        simp only [getCachedFlavors] at hc
        split at hc
        · simp at hc
        · simp only [Prod.mk.injEq] at hc
          obtain ⟨-, rfl⟩ := hc
          simp only [cacheReads]
          rw [getCachedFlavors_loop_log v Call.asCacheRead (fun _ => rfl)]
          simp [filterMap_call, Call.asCacheRead]
      have h2 : cacheReads (if cached.length > 0 then
          validateCachedFlavors v hostId hostData cached s2
          else (Except.ok hostTrustCache.zero, s2)).2.calls = cacheReads s2.calls := by
        split
        · exact validateCachedFlavors_log v _ (fun _ _ => rfl) (fun _ _ => rfl) hostId hostData
            cached s2
        · rfl
      split at h
      · simp at h
      · next cache s3 hv =>
        rw [hv] at h2
        simp only at h2
        split at h
        · split at h
          · simp at h
          · simp only [Prod.mk.injEq] at h
            obtain ⟨-, rfl⟩ := h
            simp only [cacheReads, filterMap_call, filterMap_note] at h1 h2 ⊢
            simp [h1, h2, Call.asCacheRead]
        · simp only [Prod.mk.injEq] at h
          obtain ⟨-, rfl⟩ := h
          simp only [cacheReads, filterMap_call, filterMap_note] at h1 h2 ⊢
          simp [h1, h2, Call.asCacheRead]

theorem Verify_loop_cacheReads (hostId hwUuid : UUID) (hostData : HostManifest)
    (flvGroups : List FlavorGroup) :
    ∀ (valid : Bool) (fin : TrustReport) (s s1 : St W) (res : Bool × TrustReport),
      Verify.loop v hostId hwUuid hostData flvGroups valid fin s = (Except.ok res, s1) →
      cacheReads s1.calls = cacheReads s.calls ++ flvGroups.map (fun fg => (hostId, fg.ID)) := by
  induction flvGroups with
  | nil =>
    intro valid fin s s1 res h
    simp only [Verify.loop, Prod.mk.injEq] at h
    obtain ⟨-, rfl⟩ := h
    simp
  | cons fg rest ih =>
    intro valid fin s s1 res h
    simp only [Verify.loop] at h
    split at h
    · simp at h
    · next met rep s2 he =>
      have hg := Verify_group_cacheReads hostId hwUuid hostData fg s s2 _ he
      have := ih _ _ _ _ _ h
      rw [this]
      simp only [cacheReads, filterMap_note] at hg ⊢
      simp [hg, Call.asCacheRead]

theorem Verify_loop_prunes (hf : FramedBy v P) (hostId hwUuid : UUID)
    (hrem : ∀ w ids, P w → P (v.HostStore.RemoveTrustCacheFlavors w hostId ids).2)
    (hostData : HostManifest) (g fid : UUID) (sf : SignedFlavor)
    (hread : ∀ w, ¬ P w → fid ∈ (v.HostStore.RetrieveTrustCacheFlavors w hostId g).1.1)
    (hest : ∀ w ids, sf.Flavor.Meta.ID ∈ ids →
      P (v.HostStore.RemoveTrustCacheFlavors w hostId ids).2)
    (hresolve : ∀ w, ∃ w1, v.FlavorStore.Retrieve w fid = (Except.ok sf, w1))
    (huntrusted : ∀ w report w1,
      v.FlavorVerifier.Verify w hostData sf v.SkipFlavorSignatureVerification
        = (Except.ok report, w1) → report.Trusted = false)
    (flvGroups : List FlavorGroup) :
    ∀ (valid : Bool) (fin : TrustReport) (s s1 : St W) (res : Bool × TrustReport),
      Verify.loop v hostId hwUuid hostData flvGroups valid fin s = (Except.ok res, s1) →
      (P s.world ∨ ∃ fg ∈ flvGroups, fg.ID = g) → P s1.world := by
  induction flvGroups with
  | nil =>
    intro valid fin s s1 res h hin
    simp only [Verify.loop, Prod.mk.injEq] at h
    obtain ⟨-, rfl⟩ := h
    rcases hin with hP | ⟨fg, hfg, -⟩
    · exact hP
    · simp at hfg
  | cons fg rest ih =>
    intro valid fin s s1 res h hin
    simp only [Verify.loop] at h
    split at h
    · simp at h
    · next met rep s2 he =>
      refine ih _ _ _ _ _ h ?_
      rcases hin with hP | ⟨fg1, hfg, hid⟩
      · left
        have := Verify_group_frame hf hostId hwUuid hrem hostData fg s hP
        rw [he] at this
        exact this
      · rcases List.mem_cons.mp hfg with rfl | hfg
        · left
          subst hid
          exact Verify_group_prunes hf hostId hwUuid hrem hostData fg1 fid sf hread hest hresolve
            huntrusted s s2 _ he
        · exact Or.inr ⟨fg1, hfg, hid⟩

/-- A run of lines 47-102 that does not fail is a run of the loop over the flavor groups
that `FlavorGroupStore.Search` returned, started after the two searches. -/
theorem Verify_collect_loop (v : Verifier W R C) (hostId : UUID) (hostData : HostManifest)
    (s s1 : St W) (res : Bool × TrustReport)
    (h : Verify.collect v hostId (some hostData) s = (Except.ok res, s1)) :
    ∃ hwUuid, v.uuidParse hostData.HostInfo.HardwareUUID = Except.ok hwUuid ∧ hwUuid ≠ uuid.Nil ∧
      (v.FlavorGroupStore.Search (v.HostStore.SearchFlavorgroups s.world hostId).2
          (v.HostStore.SearchFlavorgroups s.world hostId).1.1).1.2 = none ∧
      Verify.loop v hostId hwUuid hostData
        (v.FlavorGroupStore.Search (v.HostStore.SearchFlavorgroups s.world hostId).2
          (v.HostStore.SearchFlavorgroups s.world hostId).1.1).1.1
        true { HostManifest := hostData, Trusted := false, Results := [] }
        ((s.call (Call.SearchFlavorgroups hostId)
            (v.HostStore.SearchFlavorgroups s.world hostId).2).call
          (Call.FlavorGroupSearch (v.HostStore.SearchFlavorgroups s.world hostId).1.1)
          (v.FlavorGroupStore.Search (v.HostStore.SearchFlavorgroups s.world hostId).2
            (v.HostStore.SearchFlavorgroups s.world hostId).1.1).2)
        = (Except.ok res, s1) := by
  simp only [Verify.collect] at h
  split at h
  · simp at h
  · next hwUuid hparse =>
    split at h
    · simp at h
    · next hnil =>
      split at h
      · simp at h
      · next herr => exact ⟨hwUuid, hparse, hnil, herr, h⟩

end pruning

/-! ## Repeated verification: the trust caches under pruning -/

section stable

variable {W R C : Type} (v : Verifier W R C) (hostId hwUuid : UUID) (hostData : HostManifest)
  (cacheOf : W → UUID → List UUID) (w0 : W)

theorem good_not_bad (id : UUID) (h : goodId v hostData w0 id = true) :
    badId v hostData w0 id = false := by
  simp only [goodId, badId] at h ⊢
  cases hr : resolveAt v w0 id with
  | none => rfl
  | some sf => rw [hr] at h; simp only at h ⊢; simp [h]

theorem prunedIds_eq_filter (hID : ∀ id sf, resolveAt v w0 id = some sf → sf.Flavor.Meta.ID = id)
    (ids : List UUID) : prunedIds v hostData w0 ids = ids.filter (badId v hostData w0) := by
  induction ids with
  | nil => rfl
  | cons id rest ih =>
    simp only [prunedIds] at ih ⊢
    cases hr : resolveAt v w0 id with
    | none => simp [List.filterMap_cons, List.filter_cons, hr, badId, ih]
    | some sf =>
      have := hID id sf hr
      cases ht : trustedAt v hostData w0 sf <;>
        simp [List.filterMap_cons, List.filter_cons, hr, badId, ih, ht, this]

theorem trusted_filter_keep (keep : UUID → Bool)
    (hkeep : ∀ id, goodId v hostData w0 id = true → keep id = true) (ids : List UUID) :
    ((ids.filter keep).filterMap (resolveAt v w0)).filter (trustedAt v hostData w0)
      = (ids.filterMap (resolveAt v w0)).filter (trustedAt v hostData w0) := by
  induction ids with
  | nil => rfl
  | cons id rest ih =>
    cases hk : keep id with
    | true => 
      cases hr : resolveAt v w0 id with
      | none => simp [List.filter_cons, List.filterMap_cons, hk, hr, ih]
      | some sf => simp [List.filter_cons, List.filterMap_cons, hk, hr, ih]
    | false =>
      have hg : goodId v hostData w0 id = false := by
        cases hgd : goodId v hostData w0 id with
        | false => rfl
        | true => rw [hkeep id hgd] at hk; cases hk
      cases hr : resolveAt v w0 id with
      | none => simp [List.filter_cons, List.filterMap_cons, hk, hr, ih]
      | some sf =>
        simp only [goodId, hr] at hg
        simp [List.filter_cons, List.filterMap_cons, hk, hr, ih, hg]

theorem validatedCache_filter_keep (keep : UUID → Bool)
    (hkeep : ∀ id, goodId v hostData w0 id = true → keep id = true) (ids : List UUID) :
    validatedCache v hostId hostData w0 (ids.filter keep)
      = validatedCache v hostId hostData w0 ids := by
  simp only [validatedCache, trusted_filter_keep v hostData w0 keep hkeep ids]

theorem verifies_filter_keep (keep : UUID → Bool) (ids : List UUID)
    (h : (ids.filterMap (resolveAt v w0)).all (verifiesAt v hostData w0) = true) :
    ((ids.filter keep).filterMap (resolveAt v w0)).all (verifiesAt v hostData w0) = true := by
  rw [List.all_eq_true] at h ⊢
  intro sf hsf
  apply h
  rw [List.mem_filterMap] at hsf ⊢
  obtain ⟨id, hid, hr⟩ := hsf
  exact ⟨id, List.mem_of_mem_filter hid, hr⟩

theorem Pruned_refl (w : W) : Pruned v hostData cacheOf w0 w w :=
  ⟨fun _ => true, fun _ _ => rfl, fun g => by simp⟩

theorem Pruned_trans {w1 w2 w3 : W} (h12 : Pruned v hostData cacheOf w0 w1 w2)
    (h23 : Pruned v hostData cacheOf w0 w2 w3) : Pruned v hostData cacheOf w0 w1 w3 := by
  obtain ⟨k1, hk1, hc1⟩ := h12
  obtain ⟨k2, hk2, hc2⟩ := h23
  refine ⟨fun id => k1 id && k2 id, fun id hg => by simp [hk1 id hg, hk2 id hg], fun g => ?_⟩
  rw [hc2, hc1, List.filter_filter]
  congr 1
  funext id
  exact Bool.and_comm _ _

/-- The trust caches after one flavor group: the bad IDs of the group's cache are gone
from every cache of the host. -/
theorem stableStep_cache (hs : StableStores v hostId hostData cacheOf) (fg : FlavorGroup)
    (w w1 : W) (h : stableStep v hostId hwUuid hostData cacheOf w0 fg w = some w1) (g : UUID) :
    cacheOf w1 g = (cacheOf w g).filter
      (fun id => !((cacheOf w fg.ID).filter (badId v hostData w0)).contains id) := by
  have hID : ∀ id sf, resolveAt v w0 id = some sf → sf.Flavor.Meta.ID = id := by
    intro id sf hr
    simp only [resolveAt] at hr
    split at hr
    · next sf1 heq =>
      simp only [Option.some.injEq] at hr
      subst hr
      exact hs.flavorID w0 id _ heq
    · simp at hr
  simp only [stableStep] at h
  split at h
  · simp at h
  · split at h
    · split at h
      · simp only [Option.some.injEq] at h
        subst h
        rw [hs.removeCache, prunedIds_eq_filter v hostData w0 hID]
      · next hlen =>
        simp only [Option.some.injEq] at h
        subst h
        have hnil : (cacheOf w fg.ID).filterMap (resolveAt v w0) = [] := by
          cases hl : (cacheOf w fg.ID).filterMap (resolveAt v w0) with
          | nil => rfl
          | cons a l => rw [hl] at hlen; simp at hlen
        have hbad : (cacheOf w fg.ID).filter (badId v hostData w0) = [] := by
          rw [List.filter_eq_nil_iff]
          intro id hid
          have : resolveAt v w0 id = none := by
            rw [List.filterMap_eq_nil_iff] at hnil
            exact hnil id hid
          simp [badId, this]
        rw [hbad]
        simp
    · simp at h

theorem stableStep_pruned (hs : StableStores v hostId hostData cacheOf) (fg : FlavorGroup)
    (w w1 : W) (h : stableStep v hostId hwUuid hostData cacheOf w0 fg w = some w1) :
    Pruned v hostData cacheOf w0 w w1 := by
  refine ⟨fun id => !((cacheOf w fg.ID).filter (badId v hostData w0)).contains id, ?_,
    stableStep_cache v hostId hwUuid hostData cacheOf w0 hs fg w w1 h⟩
  intro id hg
  have hb := good_not_bad v hostData w0 id hg
  simp [hb]

theorem stableStep_defined (fg : FlavorGroup) (w w1 w2 : W)
    (hp : Pruned v hostData cacheOf w0 w w2)
    (h : stableStep v hostId hwUuid hostData cacheOf w0 fg w = some w1) :
    ∃ w3, stableStep v hostId hwUuid hostData cacheOf w0 fg w2 = some w3 := by
  obtain ⟨keep, hkeep, hc⟩ := hp
  simp only [stableStep] at h ⊢
  split at h
  · simp at h
  · next reqs hreq =>
    split at h
    · next hcond =>
      simp only [Bool.and_eq_true] at hcond
      have hcond2 : (((cacheOf w2 fg.ID).filterMap (resolveAt v w0)).all (verifiesAt v hostData w0) &&
          v.MeetsFlavorGroupReqs reqs (validatedCache v hostId hostData w0 (cacheOf w2 fg.ID))
            v.FlavorVerifier.GetVerifierCerts) = true := by
        rw [hc fg.ID, validatedCache_filter_keep v hostId hostData w0 keep hkeep,
          verifies_filter_keep v hostData w0 keep _ hcond.1, hcond.2]
        rfl
      rw [if_pos hcond2]
      split
      · exact ⟨_, rfl⟩
      · exact ⟨_, rfl⟩
    · simp at h

theorem stableStep_sim (hs : StableStores v hostId hostData cacheOf) (fg : FlavorGroup)
    (w w1 w2 : W) (hp : Pruned v hostData cacheOf w0 w w2)
    (h : stableStep v hostId hwUuid hostData cacheOf w0 fg w = some w1) :
    ∃ w3, stableStep v hostId hwUuid hostData cacheOf w0 fg w2 = some w3 ∧
      Pruned v hostData cacheOf w0 w1 w3 := by
  obtain ⟨w3, h3⟩ := stableStep_defined v hostId hwUuid hostData cacheOf w0 fg w w1 w2 hp h
  refine ⟨w3, h3, ?_⟩
  obtain ⟨keep, hkeep, hc⟩ := hp
  have hc1 := stableStep_cache v hostId hwUuid hostData cacheOf w0 hs fg w w1 h
  have hc3 := stableStep_cache v hostId hwUuid hostData cacheOf w0 hs fg w2 w3 h3
  refine ⟨fun id => keep id &&
    !((cacheOf w2 fg.ID).filter (badId v hostData w0)).contains id, ?_, ?_⟩
  · intro id hg
    have hb := good_not_bad v hostData w0 id hg
    simp [hkeep id hg, hb]
  · intro g
    rw [hc3, hc1, hc g, hc fg.ID]
    simp only [List.filter_filter]
    apply List.filter_congr
    intro id _
    cases hk : keep id <;> cases hb : badId v hostData w0 id <;>
      by_cases hm : id ∈ cacheOf w fg.ID <;> simp [hk, hb, hm]

theorem stableRun_pruned (hs : StableStores v hostId hostData cacheOf)
    (flvGroups : List FlavorGroup) :
    ∀ (w w1 : W), stableRun v hostId hwUuid hostData cacheOf w0 flvGroups w = some w1 →
      Pruned v hostData cacheOf w0 w w1 := by
  induction flvGroups with
  | nil =>
    intro w w1 h
    simp only [stableRun, Option.some.injEq] at h
    subst h
    exact Pruned_refl v hostData cacheOf w0 w
  | cons fg rest ih =>
    intro w w1 h
    simp only [stableRun] at h
    split at h
    · simp at h
    · next w2 hstep =>
      exact Pruned_trans v hostData cacheOf w0
        (stableStep_pruned v hostId hwUuid hostData cacheOf w0 hs fg w w2 hstep) (ih w2 w1 h)

theorem stableRun_sim (hs : StableStores v hostId hostData cacheOf)
    (flvGroups : List FlavorGroup) :
    ∀ (w w1 w2 : W), Pruned v hostData cacheOf w0 w w2 →
      stableRun v hostId hwUuid hostData cacheOf w0 flvGroups w = some w1 →
      ∃ w3, stableRun v hostId hwUuid hostData cacheOf w0 flvGroups w2 = some w3 := by
  induction flvGroups with
  | nil => intro w w1 w2 _ _; exact ⟨w2, rfl⟩
  | cons fg rest ih =>
    intro w w1 w2 hp h
    simp only [stableRun] at h ⊢
    split at h
    · simp at h
    · next wa hstep =>
      obtain ⟨wb, hb, hpb⟩ := stableStep_sim v hostId hwUuid hostData cacheOf w0 hs fg w wa w2 hp hstep
      rw [hb]
      exact ih wa w1 wb hpb h

/-- Stability: a world from which all flavor groups are processed with their requirements
met leads to a world from which they are again. -/
theorem stableRun_again (hs : StableStores v hostId hostData cacheOf)
    (flvGroups : List FlavorGroup) (w w1 : W)
    (h : stableRun v hostId hwUuid hostData cacheOf w0 flvGroups w = some w1) :
    ∃ w3, stableRun v hostId hwUuid hostData cacheOf w0 flvGroups w1 = some w3 :=
  stableRun_sim v hostId hwUuid hostData cacheOf w0 hs flvGroups w w1 w1
    (stableRun_pruned v hostId hwUuid hostData cacheOf w0 hs flvGroups w w1 h) h

end stable

/-! ## Repeated verification: the verifier against stable stores -/

section stableRuns

variable {W R C : Type} {v : Verifier W R C} {hostId : UUID} {hostData : HostManifest}
  {cacheOf : W → UUID → List UUID}

theorem getCachedFlavors_loop_stable (hs : StableStores v hostId hostData cacheOf) (w0 : W)
    (flIds : List UUID) :
    ∀ (result : List SignedFlavor) (s : St W),
      (getCachedFlavors.loop v flIds result s).1 = result ++ flIds.filterMap (resolveAt v w0) ∧
        (getCachedFlavors.loop v flIds result s).2.world = s.world := by
  induction flIds with
  | nil => intro result s; simp [getCachedFlavors.loop]
  | cons id rest ih =>
    intro result s
    simp only [getCachedFlavors.loop]
    rw [hs.flavorRetrieve s.world w0 id]
    cases hr : (v.FlavorStore.Retrieve w0 id).1 with
    | ok sf =>
      simp only
      obtain ⟨h1, h2⟩ := ih (result ++ [sf]) (s.call (Call.FlavorRetrieve id) s.world)
      rw [h1, h2]
      simp [List.filterMap_cons, resolveAt, hr, St.call]
    | error e =>
      simp only
      obtain ⟨h1, h2⟩ := ih result (s.call (Call.FlavorRetrieve id) s.world)
      rw [h1, h2]
      simp [List.filterMap_cons, resolveAt, hr, St.call]

theorem getCachedFlavors_stable (hs : StableStores v hostId hostData cacheOf) (w0 : W)
    (g : UUID) (s : St W) :
    (getCachedFlavors v hostId g s).1 = Except.ok ((cacheOf s.world g).filterMap (resolveAt v w0)) ∧
      (getCachedFlavors v hostId g s).2.world = s.world := by
  obtain ⟨h1, h2⟩ := getCachedFlavors_loop_stable hs w0 (cacheOf s.world g) []
    (s.call (Call.RetrieveTrustCacheFlavors hostId g) s.world)
  unfold getCachedFlavors
  rw [hs.retrieveCache s.world g]
  simp only [h1, h2, List.nil_append]
  exact ⟨trivial, rfl⟩

theorem validateCachedFlavors_loop_stable (hs : StableStores v hostId hostData cacheOf) (w0 : W)
    (cachedFlavors : List SignedFlavor) :
    ∀ (tf : List Flavor) (rs : List RuleResult) (del : List UUID) (s : St W),
      (validateCachedFlavors.loop v hostData cachedFlavors tf rs del s).2.world = s.world ∧
      (cachedFlavors.all (verifiesAt v hostData w0) = true →
        (validateCachedFlavors.loop v hostData cachedFlavors tf rs del s).1
          = Except.ok
              (tf ++ (cachedFlavors.filter (trustedAt v hostData w0)).map (fun sf => sf.Flavor),
               rs ++ ((cachedFlavors.filter (trustedAt v hostData w0)).map
                  (resultsAt v hostData w0)).flatten,
               del ++ (cachedFlavors.filter (fun sf => !trustedAt v hostData w0 sf)).map
                  (fun sf => sf.Flavor.Meta.ID))) ∧
      (cachedFlavors.all (verifiesAt v hostData w0) = false →
        ∃ e, (validateCachedFlavors.loop v hostData cachedFlavors tf rs del s).1
          = Except.error e) := by
  induction cachedFlavors with
  | nil => intro tf rs del s; simp [validateCachedFlavors.loop]
  | cons cf rest ih =>
    intro tf rs del s
    simp only [validateCachedFlavors.loop]
    rw [hs.flavorVerify s.world w0 cf]
    cases hr : (v.FlavorVerifier.Verify w0 hostData cf v.SkipFlavorSignatureVerification).1 with
    | error e =>
      have hv : verifiesAt v hostData w0 cf = false := by simp [verifiesAt, reportAt, hr]
      simp [hv, St.call]
    | ok report =>
      have hv : verifiesAt v hostData w0 cf = true := by simp [verifiesAt, reportAt, hr]
      have hres : resultsAt v hostData w0 cf = report.Results := by simp [resultsAt, reportAt, hr]
      have htr : trustedAt v hostData w0 cf = report.Trusted := by simp [trustedAt, reportAt, hr]
      simp only
      by_cases ht : report.Trusted = true
      · rw [if_pos ht]
        obtain ⟨h1, h2, h3⟩ := ih (tf ++ [cf.Flavor]) (rs ++ report.Results) del
          (s.call (Call.FlavorVerify cf (Except.ok report)) s.world)
        refine ⟨by rw [h1]; rfl, fun hall => ?_, fun hall => ?_⟩
        · simp only [List.all_cons, hv, Bool.true_and] at hall
          rw [h2 hall]
          simp [List.filter_cons, htr, ht, hres]
        · simp only [List.all_cons, hv, Bool.true_and] at hall
          exact h3 hall
      · rw [if_neg ht]
        obtain ⟨h1, h2, h3⟩ := ih tf rs (del ++ [cf.Flavor.Meta.ID])
          (s.call (Call.FlavorVerify cf (Except.ok report)) s.world)
        refine ⟨by rw [h1]; rfl, fun hall => ?_, fun hall => ?_⟩
        · simp only [List.all_cons, hv, Bool.true_and] at hall
          rw [h2 hall]
          simp [List.filter_cons, htr, ht]
        · simp only [List.all_cons, hv, Bool.true_and] at hall
          exact h3 hall

theorem validateCachedFlavors_stable (hs : StableStores v hostId hostData cacheOf) (w0 : W)
    (ids : List UUID) (s : St W) :
    ((ids.filterMap (resolveAt v w0)).all (verifiesAt v hostData w0) = true →
      (validateCachedFlavors v hostId hostData (ids.filterMap (resolveAt v w0)) s).1
          = Except.ok (validatedCache v hostId hostData w0 ids) ∧
        (validateCachedFlavors v hostId hostData (ids.filterMap (resolveAt v w0)) s).2.world
          = (v.HostStore.RemoveTrustCacheFlavors s.world hostId (prunedIds v hostData w0 ids)).2) ∧
    ((ids.filterMap (resolveAt v w0)).all (verifiesAt v hostData w0) = false →
      ∃ e, (validateCachedFlavors v hostId hostData (ids.filterMap (resolveAt v w0)) s).1
        = Except.error e) := by
  obtain ⟨h1, h2, h3⟩ := validateCachedFlavors_loop_stable hs w0 (ids.filterMap (resolveAt v w0))
    [] [] [] s
  constructor
  · intro hall
    have h2 := h2 hall
    simp only [validateCachedFlavors]
    split
    · next e s1 heq => rw [heq] at h2; simp at h2
    · next tf rs del s1 heq =>
      rw [heq] at h1 h2
      simp only [List.nil_append, Except.ok.injEq, Prod.mk.injEq] at h2
      obtain ⟨rfl, rfl, rfl⟩ := h2
      simp only at h1
      simp [validatedCache, prunedIds, St.call, h1]
  · intro hall
    obtain ⟨e, he⟩ := h3 hall
    simp only [validateCachedFlavors]
    split
    · next e1 s1 heq => exact ⟨e1, rfl⟩
    · next tf rs del s1 heq => rw [heq] at he; simp at he

theorem validatedCache_of_unresolved (w0 : W) (ids : List UUID)
    (h : ids.filterMap (resolveAt v w0) = []) :
    validatedCache v hostId hostData w0 ids = { hostTrustCache.zero with hostID := hostId } := by
  simp [validatedCache, h, hostTrustCache.zero, TrustReport.zero]

/-- One flavor group against stable stores: the loop body of `Verify` ends with the
requirements met exactly when `stableStep` is defined, and then in the world it gives. -/
theorem Verify_group_stable (hs : StableStores v hostId hostData cacheOf) (w0 : W)
    (hwUuid : UUID) (fg : FlavorGroup) (s : St W) :
    (∀ w1, stableStep v hostId hwUuid hostData cacheOf w0 fg s.world = some w1 →
      ∃ rep s1, Verify.group v hostId hwUuid hostData fg s = (Except.ok (true, rep), s1) ∧
        s1.world = w1) ∧
    (stableStep v hostId hwUuid hostData cacheOf w0 fg s.world = none →
      ∀ rep s1, Verify.group v hostId hwUuid hostData fg s ≠ (Except.ok (true, rep), s1)) := by
  have hreq := hs.newReqs s.world w0 hwUuid fg
  obtain ⟨hc1, hc2⟩ := getCachedFlavors_stable hs w0 fg.ID
    (s.call (Call.NewFlvGrpHostTrustReqs hostId hwUuid fg.ID) s.world)
  have hc2 : (getCachedFlavors v hostId fg.ID
      (s.call (Call.NewFlvGrpHostTrustReqs hostId hwUuid fg.ID) s.world)).2.world = s.world := hc2
  have hc1 : (getCachedFlavors v hostId fg.ID
      (s.call (Call.NewFlvGrpHostTrustReqs hostId hwUuid fg.ID) s.world)).1
        = Except.ok ((cacheOf s.world fg.ID).filterMap (resolveAt v w0)) := hc1
  generalize hs2 : (getCachedFlavors v hostId fg.ID
      (s.call (Call.NewFlvGrpHostTrustReqs hostId hwUuid fg.ID) s.world)) = gc at hc1 hc2
  obtain ⟨gr, s2⟩ := gc
  simp only at hc1 hc2
  subst hc1
  obtain ⟨hva, hvb⟩ := validateCachedFlavors_stable hs w0 (cacheOf s.world fg.ID) s2
  unfold Verify.group stableStep
  rw [hreq]
  cases hr : (v.NewFlvGrpHostTrustReqs w0 hostId hwUuid fg hostData
      v.SkipFlavorSignatureVerification).1 with
  | error e => simp
  | ok reqs =>
    simp only [hs2]
    by_cases hlen : ((cacheOf s.world fg.ID).filterMap (resolveAt v w0)).length > 0
    · simp only [if_pos hlen]
      cases hall : ((cacheOf s.world fg.ID).filterMap (resolveAt v w0)).all (verifiesAt v hostData w0) with
      | false =>
        obtain ⟨e, he⟩ := hvb hall
        generalize (validateCachedFlavors v hostId hostData
          ((cacheOf s.world fg.ID).filterMap (resolveAt v w0)) s2) = vr at he
        obtain ⟨vr1, s3⟩ := vr
        simp only at he
        subst he
        simp
      | true =>
        obtain ⟨h1, h2⟩ := hva hall
        generalize (validateCachedFlavors v hostId hostData
          ((cacheOf s.world fg.ID).filterMap (resolveAt v w0)) s2) = vr at h1 h2
        obtain ⟨vr1, s3⟩ := vr
        simp only at h1 h2
        subst h1
        rw [hc2] at h2
        cases hm : v.MeetsFlavorGroupReqs reqs
            (validatedCache v hostId hostData w0 (cacheOf s.world fg.ID))
            v.FlavorVerifier.GetVerifierCerts with
        | true =>
          simp only [hm, Bool.not_true, Bool.false_eq_true, if_false, hall, Bool.and_self, if_true,
            St.note]
          refine ⟨fun w1 h => ⟨_, _, rfl, ?_⟩, fun h => by simp at h⟩
          simp only [Option.some.injEq] at h
          rw [← h]
          exact h2
        | false =>
          simp only [hm, Bool.not_false, if_true, Bool.and_false, Bool.false_eq_true, if_false]
          refine ⟨fun w1 h => by simp at h, fun _ rep s1 => ?_⟩
          split <;> simp
    · simp only [if_neg hlen]
      have hnil : (cacheOf s.world fg.ID).filterMap (resolveAt v w0) = [] := by
        cases hl : (cacheOf s.world fg.ID).filterMap (resolveAt v w0) with
        | nil => rfl
        | cons a l => rw [hl] at hlen; simp at hlen
      have hm0 : v.MeetsFlavorGroupReqs reqs hostTrustCache.zero v.FlavorVerifier.GetVerifierCerts
          = v.MeetsFlavorGroupReqs reqs
              (validatedCache v hostId hostData w0 (cacheOf s.world fg.ID))
              v.FlavorVerifier.GetVerifierCerts := by
        rw [validatedCache_of_unresolved w0 _ hnil]
        exact (hs.meetsHostID reqs hostTrustCache.zero _ hostId).symm
      rw [hm0]
      cases hm : v.MeetsFlavorGroupReqs reqs
          (validatedCache v hostId hostData w0 (cacheOf s.world fg.ID))
          v.FlavorVerifier.GetVerifierCerts with
      | true =>
        simp only [Bool.not_true, Bool.false_eq_true, if_false, hnil, List.all_nil, Bool.and_self,
          if_true, St.note]
        refine ⟨fun w1 h => ⟨_, _, rfl, ?_⟩, fun h => by simp at h⟩
        simp only [Option.some.injEq] at h
        rw [← h]
        exact hc2
      | false =>
        simp only [Bool.not_false, if_true, Bool.and_false, Bool.false_eq_true, if_false]
        refine ⟨fun w1 h => by simp at h, fun _ rep s1 => ?_⟩
        split <;> simp

theorem Verify_loop_stable_of_ok (hs : StableStores v hostId hostData cacheOf) (w0 : W)
    (hwUuid : UUID) (flvGroups : List FlavorGroup) :
    ∀ (valid : Bool) (fin : TrustReport) (s s1 : St W) (fin1 : TrustReport),
      Verify.loop v hostId hwUuid hostData flvGroups valid fin s = (Except.ok (true, fin1), s1) →
      valid = true ∧
        stableRun v hostId hwUuid hostData cacheOf w0 flvGroups s.world = some s1.world := by
  induction flvGroups with
  | nil =>
    intro valid fin s s1 fin1 h
    simp only [Verify.loop, Prod.mk.injEq, Except.ok.injEq] at h
    obtain ⟨⟨rfl, -⟩, rfl⟩ := h
    exact ⟨rfl, rfl⟩
  | cons fg rest ih =>
    intro valid fin s s1 fin1 h
    simp only [Verify.loop] at h
    split at h
    · simp at h
    · next met rep s2 he =>
      obtain ⟨hvm, hrun⟩ := ih _ _ _ _ _ h
      simp only [Bool.and_eq_true] at hvm
      obtain ⟨rfl, rfl⟩ := hvm
      refine ⟨rfl, ?_⟩
      obtain ⟨hsome, hnone⟩ := Verify_group_stable hs w0 hwUuid fg s
      cases hst : stableStep v hostId hwUuid hostData cacheOf w0 fg s.world with
      | none => exact absurd he (hnone hst rep s2)
      | some w1 =>
        obtain ⟨rep1, s3, h3, hw⟩ := hsome w1 hst
        rw [he] at h3
        simp only [Prod.mk.injEq, Except.ok.injEq, true_and] at h3
        obtain ⟨-, rfl⟩ := h3
        simp only [stableRun, hst]
        rw [← hw]
        exact hrun

theorem Verify_loop_ok_of_stable (hs : StableStores v hostId hostData cacheOf) (w0 : W)
    (hwUuid : UUID) (flvGroups : List FlavorGroup) :
    ∀ (fin : TrustReport) (s : St W) (w1 : W),
      stableRun v hostId hwUuid hostData cacheOf w0 flvGroups s.world = some w1 →
      ∃ fin1 s1, Verify.loop v hostId hwUuid hostData flvGroups true fin s
          = (Except.ok (true, fin1), s1) ∧ s1.world = w1 := by
  induction flvGroups with
  | nil =>
    intro fin s w1 h
    simp only [stableRun, Option.some.injEq] at h
    exact ⟨fin, s, rfl, h⟩
  | cons fg rest ih =>
    intro fin s w1 h
    simp only [stableRun] at h
    split at h
    · simp at h
    · next w2 hst =>
      obtain ⟨rep, s2, hg, hw⟩ := (Verify_group_stable hs w0 hwUuid fg s).1 w2 hst
      subst hw
      obtain ⟨fin1, s1, hl, hw1⟩ := ih (fin.AddResults rep.Results)
        (s2.note (Call.AddResults fg.ID rep.Results)) w1 h
      refine ⟨fin1, s1, ?_, hw1⟩
      simp only [Verify.loop, hg, Bool.and_self]
      exact hl

/-- One more call of `Verify` without new data from a world in which every flavor group
is processed with its requirements met: nothing is returned, nothing is persisted, and
the world reached is the one `stableRun` gives. -/
theorem Verify_stable_call (hs : StableStores v hostId hostData cacheOf) (w0 : W) (hwUuid : UUID)
    (hparse : v.uuidParse hostData.HostInfo.HardwareUUID = Except.ok hwUuid)
    (hnil : hwUuid ≠ uuid.Nil)
    (hsearch : (v.FlavorGroupStore.Search w0 (v.HostStore.SearchFlavorgroups w0 hostId).1.1).1.2
      = none)
    (s : St W) (w1 : W)
    (hrun : stableRun v hostId hwUuid hostData cacheOf w0
      (v.FlavorGroupStore.Search w0 (v.HostStore.SearchFlavorgroups w0 hostId).1.1).1.1 s.world
        = some w1) :
    ∃ s1, Verify v hostId (some hostData) false s = ((none, none), s1) ∧ s1.world = w1 ∧
      persisted s1.calls = persisted s.calls := by
  obtain ⟨fin1, s1, hl, hw1⟩ := Verify_loop_ok_of_stable hs w0 hwUuid _
    { HostManifest := hostData, Trusted := false, Results := [] }
    ((s.call (Call.SearchFlavorgroups hostId) s.world).call
      (Call.FlavorGroupSearch (v.HostStore.SearchFlavorgroups w0 hostId).1.1) s.world) w1 hrun
  have hcol : Verify.collect v hostId (some hostData) s = (Except.ok (true, fin1), s1) := by
    have hA := hs.searchFlavorgroups s.world w0
    have hB := hs.flavorGroupSearch s.world w0 (v.HostStore.SearchFlavorgroups w0 hostId).1.1
    simp only [St.call] at hl
    simp only [Verify.collect, hparse, if_neg hnil, hA, St.call, hB, hsearch]
    exact hl
  have hper := Verify_collect_persisted v hostId (some hostData) s
  rw [hcol] at hper
  refine ⟨s1, ?_, hw1, hper⟩
  simp [Verify, hcol, Verify.persist]

/-- The first call: when `Verify` returns no error and no `MeetsFlavorGroupReqs` call
returned false, every flavor group was processed with its requirements met. -/
theorem Verify_first_call (hs : StableStores v hostId hostData cacheOf) (w : W)
    (hok : (Verify v hostId (some hostData) false ⟨w, []⟩).1.2 = none)
    (hmet : unmetGroups (Verify v hostId (some hostData) false ⟨w, []⟩).2.calls = []) :
    ∃ hwUuid w1, v.uuidParse hostData.HostInfo.HardwareUUID = Except.ok hwUuid ∧
      hwUuid ≠ uuid.Nil ∧
      (v.FlavorGroupStore.Search w (v.HostStore.SearchFlavorgroups w hostId).1.1).1.2 = none ∧
      stableRun v hostId hwUuid hostData cacheOf w
        (v.FlavorGroupStore.Search w (v.HostStore.SearchFlavorgroups w hostId).1.1).1.1 w
          = some w1 := by
  cases hc : Verify.collect v hostId (some hostData) ⟨w, []⟩ with
  | mk res s1 =>
    cases res with
    | error e => simp [Verify, hc] at hok
    | ok vf =>
      obtain ⟨valid, fin⟩ := vf
      obtain ⟨-, hval, -, -, -, -⟩ := Verify_collect_ok v hostId _ w valid fin s1 hc
      have hV : Verify v hostId (some hostData) false ⟨w, []⟩
          = Verify.persist v hostId false valid fin s1 := by simp [Verify, hc]
      have hu : unmetGroups (Verify.persist v hostId false valid fin s1).2.calls
          = unmetGroups s1.calls :=
        Verify_persist_log v Call.asUnmetReqs (fun _ => rfl) (fun _ _ => rfl) _ _ _ _ _
      rw [hV, hu] at hmet
      have hvalid : valid = true := hval.mpr hmet
      subst hvalid
      obtain ⟨hwUuid, hparse, hnil, hsearch, hloop⟩ :=
        Verify_collect_loop v hostId hostData _ _ _ hc
      have h1 : (v.HostStore.SearchFlavorgroups w hostId).2 = w :=
        congrArg Prod.snd (hs.searchFlavorgroups w w)
      simp only at hsearch hloop
      rw [h1] at hsearch hloop
      have h2 : (v.FlavorGroupStore.Search w (v.HostStore.SearchFlavorgroups w hostId).1.1).2 = w :=
        congrArg Prod.snd (hs.flavorGroupSearch w w _)
      obtain ⟨-, hrun⟩ := Verify_loop_stable_of_ok hs w hwUuid _ _ _ _ _ _ hloop
      refine ⟨hwUuid, s1.world, hparse, hnil, hsearch, ?_⟩
      simpa [St.call, h2] using hrun

theorem VerifyTimes_stable (hs : StableStores v hostId hostData cacheOf) (w0 : W) (hwUuid : UUID)
    (hparse : v.uuidParse hostData.HostInfo.HardwareUUID = Except.ok hwUuid)
    (hnil : hwUuid ≠ uuid.Nil)
    (hsearch : (v.FlavorGroupStore.Search w0 (v.HostStore.SearchFlavorgroups w0 hostId).1.1).1.2
      = none) (n : Nat) :
    ∀ (s : St W) (w1 : W),
      stableRun v hostId hwUuid hostData cacheOf w0
        (v.FlavorGroupStore.Search w0 (v.HostStore.SearchFlavorgroups w0 hostId).1.1).1.1 s.world
          = some w1 →
      (VerifyTimes v hostId (some hostData) false n s).1 = List.replicate n (none, none) ∧
        persisted (VerifyTimes v hostId (some hostData) false n s).2.calls = persisted s.calls := by
  induction n with
  | zero => intro s w1 _; exact ⟨rfl, rfl⟩
  | succ n ih =>
    intro s w1 hrun
    obtain ⟨s1, hV, hw1, hp1⟩ := Verify_stable_call hs w0 hwUuid hparse hnil hsearch s w1 hrun
    obtain ⟨w3, hagain⟩ := stableRun_again v hostId hwUuid hostData cacheOf w0 hs _ s.world w1 hrun
    rw [← hw1] at hagain
    obtain ⟨h1, h2⟩ := ih s1 w3 hagain
    simp only [VerifyTimes, hV]
    exact ⟨by rw [h1]; rfl, by rw [h2, hp1]⟩

end stableRuns

/-! ## The verifier: validation of the manifest and pruning of the trust cache -/

section claims

variable {W R C : Type}

/-- C5: called with an absent (nil) host manifest, `Verify` returns a nil report and
`ErrInvalidHostManiFest`, and it does so before any call to a store, to the flavor
verifier or to the SAML generator: the world and the call log are what they were. -/
theorem Verify_nil_manifest (v : Verifier W R C) (hostId : UUID) (newData : Bool) (s : St W) :
    Verify v hostId none newData s = ((none, some ErrInvalidHostManiFest), s) := by
  rfl

/-- C6: for a present host manifest, `Verify` returns a nil report and
`ErrManifestMissingHwUUID` if and only if `HostInfo.HardwareUUID` fails to parse as a
UUID or parses to the nil UUID; and in that case no store is read or written: the world
and the call log are what they were. -/
theorem Verify_missing_hw_uuid (v : Verifier W R C) (hostId : UUID) (hostData : HostManifest)
    (newData : Bool) (s : St W) :
    ((Verify v hostId (some hostData) newData s).1 = (none, some ErrManifestMissingHwUUID) ↔
      ((∃ e, v.uuidParse hostData.HostInfo.HardwareUUID = Except.error e) ∨
        v.uuidParse hostData.HostInfo.HardwareUUID = Except.ok uuid.Nil)) ∧
    (((∃ e, v.uuidParse hostData.HostInfo.HardwareUUID = Except.error e) ∨
        v.uuidParse hostData.HostInfo.HardwareUUID = Except.ok uuid.Nil) →
      (Verify v hostId (some hostData) newData s).2 = s) := by
  cases hparse : v.uuidParse hostData.HostInfo.HardwareUUID with
  | error e0 =>
    refine ⟨⟨fun _ => Or.inl ⟨e0, rfl⟩, fun _ => ?_⟩, fun _ => ?_⟩ <;>
      simp [Verify, Verify.collect, hparse]
  | ok hwUuid =>
    by_cases hnil : hwUuid = uuid.Nil
    · subst hnil
      refine ⟨⟨fun _ => Or.inr rfl, fun _ => ?_⟩, fun _ => ?_⟩ <;>
        simp [Verify, Verify.collect, hparse]
    · have hne : ¬ ((∃ e, (Except.ok hwUuid : Except Err UUID) = Except.error e) ∨
          (Except.ok hwUuid : Except Err UUID) = Except.ok uuid.Nil) := by
        rintro (⟨e, he⟩ | he)
        · cases he
        · exact hnil (by injection he)
      refine ⟨⟨fun h => ?_, fun h => absurd h hne⟩, fun h => absurd h hne⟩
      exfalso
      simp only [Verify] at h
      split at h
      · next e s1 hc =>
        simp only [Prod.mk.injEq, Option.some.injEq, true_and] at h
        subst h
        simp only [Verify.collect, hparse, if_neg hnil] at hc
        split at hc
        · simp only [Prod.mk.injEq, Except.error.injEq] at hc
          have := hc.1
          simp [ErrManifestMissingHwUUID] at this
        · obtain ⟨cause, msg, he⟩ := Verify_loop_error v hostId hwUuid hostData _ _ _ _ _ _ hc
          simp [ErrManifestMissingHwUUID] at he
      · next valid fin s1 hc =>
        have := (Verify_persist_spec v hostId newData valid fin s1).1
        rw [h] at this
        simp at this

/-- C3: cache pruning.  Take a host, a flavor group `g` of the host whose trust cache
was read during the run, and a flavor `sf` with ID `fid`; let `cacheOf` be the host's
trust cache for `g`, which `RetrieveTrustCacheFlavors` reads, with
`RemoveTrustCacheFlavors` as set removal on it and no other collaborator call inserting
`fid`.  If `fid` resolves to `sf` in the flavor store and the flavor verifier reports
`sf` as not trusted against the manifest, then after `Verify` returns without error the
host's trust cache for `g` does not contain `fid`. -/
theorem Verify_prunes_untrusted_flavor (v : Verifier W R C) (hostId : UUID)
    (hostData : HostManifest) (newData : Bool) (w : W) (g fid : UUID) (sf : SignedFlavor)
    (cacheOf : W → List UUID)
    (hread : ∀ w, (v.HostStore.RetrieveTrustCacheFlavors w hostId g).1.1 = cacheOf w)
    (hremove : ∀ w ids, cacheOf (v.HostStore.RemoveTrustCacheFlavors w hostId ids).2
      = (cacheOf w).filter (fun id => !ids.contains id))
    (hframe : FramedBy v (fun w => fid ∉ cacheOf w))
    (hresolve : ∀ w, ∃ w1, v.FlavorStore.Retrieve w fid = (Except.ok sf, w1))
    (hid : sf.Flavor.Meta.ID = fid)
    (huntrusted : ∀ w report w1,
      v.FlavorVerifier.Verify w hostData sf v.SkipFlavorSignatureVerification
        = (Except.ok report, w1) → report.Trusted = false)
    (hg : (hostId, g) ∈ cacheReads (Verify v hostId (some hostData) newData ⟨w, []⟩).2.calls)
    (hok : (Verify v hostId (some hostData) newData ⟨w, []⟩).1.2 = none) :
    fid ∉ cacheOf (Verify v hostId (some hostData) newData ⟨w, []⟩).2.world := by
  have hrem : ∀ w ids, (fun w => fid ∉ cacheOf w) w →
      (fun w => fid ∉ cacheOf w) (v.HostStore.RemoveTrustCacheFlavors w hostId ids).2 := by
    intro w0 ids hP
    simp only [hremove]
    intro hmem
    exact hP (List.mem_of_mem_filter hmem)
  have hest : ∀ w ids, sf.Flavor.Meta.ID ∈ ids →
      (fun w => fid ∉ cacheOf w) (v.HostStore.RemoveTrustCacheFlavors w hostId ids).2 := by
    intro w0 ids hin
    rw [hid] at hin
    simp only [hremove]
    intro hmem
    have := (List.mem_filter.mp hmem).2
    simp [hin] at this
  have hrd : ∀ w, ¬ (fun w => fid ∉ cacheOf w) w →
      fid ∈ (v.HostStore.RetrieveTrustCacheFlavors w hostId g).1.1 := by
    intro w0 hn
    rw [hread]
    exact not_not.mp hn
  cases hc : Verify.collect v hostId (some hostData) ⟨w, []⟩ with
  | mk res s1 =>
    cases res with
    | error e => simp [Verify, hc] at hok
    | ok vf =>
      obtain ⟨valid, fin⟩ := vf
      have hV : Verify v hostId (some hostData) newData ⟨w, []⟩
          = Verify.persist v hostId newData valid fin s1 := by simp [Verify, hc]
      rw [hV] at hg ⊢
      obtain ⟨hwUuid, -, -, -, hloop⟩ := Verify_collect_loop v hostId hostData _ _ _ hc
      have hreads := Verify_loop_cacheReads hostId hwUuid hostData _ _ _ _ _ _ hloop
      have hlog := Verify_persist_log v Call.asCacheRead (fun _ => rfl) (fun _ _ => rfl)
        hostId newData valid fin s1
      simp only [cacheReads] at hg hreads
      rw [hlog, hreads] at hg
      simp only [filterMap_call, Call.asCacheRead, Option.toList, List.filterMap_nil,
        List.append_nil, List.nil_append, List.mem_map, Prod.mk.injEq, true_and] at hg
      have hP1 := Verify_loop_prunes hframe hostId hwUuid hrem hostData g fid sf hrd hest
        hresolve huntrusted _ _ _ _ _ _ hloop (Or.inr hg)
      exact Verify_persist_frame hframe hostId newData valid fin s1 hP1

/-- Witness for C3: host 5 has the flavors 10 and 11 cached for group 1; flavor 11 does
not match the manifest and is gone from the cache after `Verify`. -/
theorem Verify_prunes_untrusted_flavor_witness :
    11 ∉ Example.cacheOf (Verify Example.v1 5 (some Example.hd1) false ⟨Example.w1, []⟩).2.world 5 1 :=
  Verify_prunes_untrusted_flavor Example.v1 5 Example.hd1 false Example.w1 1 11
    (Example.flavor 11 "b2") (fun w => Example.cacheOf w 5 1)
    (fun _ => rfl)
    (fun w ids => Example.cacheOf_remove w 5 1 ids)
    ⟨fun _ _ h => h, fun _ _ _ h => h, fun _ _ h => h, fun _ _ h => h, fun _ _ h => h,
      fun _ _ _ _ h => h, fun _ _ _ _ _ _ h => h, fun _ _ _ _ _ h => h, fun _ _ _ h => h⟩
    (fun w => ⟨w, rfl⟩) rfl
    (fun w report w1 h => by
      simp only [Example.v1, Example.verifier, Example.flavorVerifier, Prod.mk.injEq,
        Except.ok.injEq] at h
      rw [← h.1]
      decide)
    (by decide) (by decide)

end claims

/-! ## Errors of the collaborators -/

section errors

variable {W R C : Type}

/-- C8, as the code has it: an error of the flavor verifier is fatal.  If
`FlavorVerifier.Verify` returns an error for a cached flavor during `Verify`, then that
call is the last call `Verify` makes (the trust cache of the group is not pruned, no
report is generated or stored), no other flavor-verifier call failed, and `Verify`
returns a nil report and that error, wrapped by `validateCachedFlavors` and by `Verify`. -/
theorem Verify_flavor_verifier_error (v : Verifier W R C) (hostId : UUID)
    (hostData : Option HostManifest) (newData : Bool) (w : W) (f : SignedFlavor) (e : Err)
    (h : (f, e) ∈ verifyErrors (Verify v hostId hostData newData ⟨w, []⟩).2.calls) :
    (Verify v hostId hostData newData ⟨w, []⟩).1
        = (none, some (Err.wrap (Err.wrap e msgFlavorVerifier) msgValidatingCache)) ∧
      (Verify v hostId hostData newData ⟨w, []⟩).2.calls.getLast?
        = some (Call.FlavorVerify f (Except.error e)) ∧
      verifyErrors (Verify v hostId hostData newData ⟨w, []⟩).2.calls = [(f, e)] := by
  have hcol : VerifyErrorOutcome []
      (Verify.collect v hostId hostData ⟨w, []⟩).2.calls
      (errorOf (Verify.collect v hostId hostData ⟨w, []⟩).1)
      (fun e => Err.wrap (Err.wrap e msgFlavorVerifier) msgValidatingCache) := by
    simp only [Verify.collect]
    split
    · exact Or.inl rfl
    · split
      · exact Or.inl rfl
      · split
        · exact Or.inl rfl
        · split
          · exact Or.inl (by simp [verifyErrors, filterMap_call, Call.asVerifyError])
          · next hwUuid hparse hnil err herr =>
            refine VerifyErrorOutcome_congr ?_ (Verify_loop_verifyError v hostId hwUuid _ _ true _ _)
            simp [verifyErrors, filterMap_call, Call.asVerifyError]
  cases hc : Verify.collect v hostId hostData ⟨w, []⟩ with
  | mk res s1 =>
    rw [hc] at hcol
    cases res with
    | error e1 =>
      have hV : Verify v hostId hostData newData ⟨w, []⟩ = ((none, some e1), s1) := by
        simp [Verify, hc]
      rw [hV] at h ⊢
      rcases hcol with hcol | ⟨f1, e2, h1, h2, h3⟩
      · simp only at hcol
        rw [hcol] at h
        simp [verifyErrors] at h
      · simp only [errorOf, Option.some.injEq] at h1
        simp only [verifyErrors, List.filterMap_nil, List.nil_append] at h3
        simp only at h2
        have hfe : (f, e) = (f1, e2) := by
          have : (f, e) ∈ [(f1, e2)] := by rw [← h3]; exact h
          simpa using this
        simp only [Prod.mk.injEq] at hfe
        obtain ⟨rfl, rfl⟩ := hfe
        exact ⟨by rw [h1], h2, h3⟩
    | ok vf =>
      exfalso
      obtain ⟨valid, fin⟩ := vf
      have hV : Verify v hostId hostData newData ⟨w, []⟩
          = Verify.persist v hostId newData valid fin s1 := by simp [Verify, hc]
      have hl := Verify_persist_log v Call.asVerifyError (fun _ => rfl) (fun _ _ => rfl)
        hostId newData valid fin s1
      rw [hV] at h
      simp only [verifyErrors] at h
      rw [hl] at h
      rcases hcol with hcol | ⟨f1, e2, h1, -, -⟩
      · simp only [verifyErrors] at hcol
        rw [hcol] at h
        simp at h
      · simp [errorOf] at h1

/-- Witness for C8 as amended: the strict flavor verifier fails on the first cached
flavor of host 5. -/
theorem Verify_flavor_verifier_error_witness :
    (Example.flavor 10 "b1", Err.new "flavor is not signed")
        ∈ verifyErrors (Verify Example.v2 5 (some Example.hd1) false ⟨Example.w1, []⟩).2.calls ∧
      (Verify Example.v2 5 (some Example.hd1) false ⟨Example.w1, []⟩).1
        = (none, some (Err.wrap (Err.wrap (Err.new "flavor is not signed") msgFlavorVerifier)
            msgValidatingCache)) :=
  ⟨by decide,
    (Verify_flavor_verifier_error Example.v2 5 (some Example.hd1) false Example.w1
      (Example.flavor 10 "b1") (Err.new "flavor is not signed") (by decide)).1⟩

/-- Counterexample to C8 as stated: the flavor verifier returns an error for the cached
flavor 10, and `Verify` returns an error on that account, without marking any flavor
for removal and leaving the trust cache as it was. -/
theorem flavor_verifier_failure_is_fatal :
    verifyErrors (Verify Example.v2 5 (some Example.hd1) false ⟨Example.w1, []⟩).2.calls
        = [(Example.flavor 10 "b1", Err.new "flavor is not signed")] ∧
      (Verify Example.v2 5 (some Example.hd1) false ⟨Example.w1, []⟩).1.2 ≠ none ∧
      removals (Verify Example.v2 5 (some Example.hd1) false ⟨Example.w1, []⟩).2.calls = [] ∧
      (Verify Example.v2 5 (some Example.hd1) false ⟨Example.w1, []⟩).2.world = Example.w1 := by
  decide

/-- C9, as the code has it: an error of `ReportStore.Update` is not propagated.  For
every run of `Verify` that reaches the persistence step, whatever `ReportStore.Update`
returns, `Verify` returns the report that `Update` returned (nil when `Update` returned
none) together with a nil error. -/
theorem Verify_update_error_swallowed (v : Verifier W R C) (hostId : UUID)
    (hostData : Option HostManifest) (newData : Bool) (w : W) (record : HVSReport)
    (result : Option HVSReport × Option Err)
    (h : (record, result) ∈ updates (Verify v hostId hostData newData ⟨w, []⟩).2.calls) :
    (Verify v hostId hostData newData ⟨w, []⟩).1 = (result.1, none) := by
  cases hc : Verify.collect v hostId hostData ⟨w, []⟩ with
  | mk res s1 =>
    cases res with
    | error e =>
      exfalso
      have hp := Verify_collect_persisted v hostId hostData ⟨w, []⟩
      rw [hc] at hp
      simp only [Verify, hc] at h
      have : persisted s1.calls ≠ [] := by
        rw [← updates_fst]
        intro hnil
        rw [List.map_eq_nil_iff] at hnil
        rw [hnil] at h
        simp at h
      exact this (by simpa [persisted] using hp)
    | ok vf =>
      obtain ⟨valid, fin⟩ := vf
      obtain ⟨-, -, -, -, hper, -⟩ := Verify_collect_ok v hostId _ w valid fin s1 hc
      have hu : updates s1.calls = [] := by
        have := updates_fst s1.calls
        rw [hper, List.map_eq_nil_iff] at this
        exact this
      have hV : Verify v hostId hostData newData ⟨w, []⟩
          = Verify.persist v hostId newData valid fin s1 := by simp [Verify, hc]
      rw [hV] at h ⊢
      simp only [Verify.persist] at h ⊢
      split
      · next hcond =>
        rw [if_pos hcond] at h
        simp only [storeTrustReport, updates, filterMap_call] at h hu ⊢
        simp only [hu, Call.asUpdate, Option.toList, List.append_nil, List.nil_append,
          List.mem_singleton, Prod.mk.injEq] at h
        obtain ⟨-, rfl⟩ := h
        rfl
      · next hcond =>
        rw [if_neg hcond, hu] at h
        simp at h

/-- Witness for C9 as amended: the report store of `v3` fails, and `Verify` returns
nil, nil. -/
theorem Verify_update_error_swallowed_witness :
    (Example.report1, ((none : Option HVSReport), some (Err.new "connection refused")))
        ∈ updates (Verify Example.v3 5 (some Example.hd1) true ⟨Example.w1, []⟩).2.calls ∧
      (Verify Example.v3 5 (some Example.hd1) true ⟨Example.w1, []⟩).1 = (none, none) :=
  ⟨by decide,
    Verify_update_error_swallowed Example.v3 5 (some Example.hd1) true Example.w1
      Example.report1 (none, some (Err.new "connection refused")) (by decide)⟩

/-- Counterexample to C9 as stated: the run reaches the persistence step,
`ReportStore.Update` returns an error, and `Verify` returns a nil error. -/
theorem report_store_failure_not_propagated :
    updates (Verify Example.v3 5 (some Example.hd1) true ⟨Example.w1, []⟩).2.calls
        = [(Example.report1, (none, some (Err.new "connection refused")))] ∧
      (Verify Example.v3 5 (some Example.hd1) true ⟨Example.w1, []⟩).1.2 = none := by
  decide

end errors

/-! ## Idempotence of verification without new data -/

section idempotence

variable {W R C : Type}

/-- C7: idempotence of `Verify` without new data.  Against unchanged flavor stores, a
deterministic flavor verifier and a trust cache on which `RemoveTrustCacheFlavors` is set
removal (`StableStores`), take a host and a manifest for which `Verify` without new data
completes and finds, for each flavor group of the host, that the validated trust cache
meets the group's requirements.  Then, for every `n`, `n` successive calls
`Verify(host, manifest, newData=false)` each return a nil report and a nil error, and
together make no call to `ReportStore.Update`. -/
theorem Verify_idempotent (v : Verifier W R C) (hostId : UUID) (hostData : HostManifest)
    (cacheOf : W → UUID → List UUID) (w : W) (n : Nat)
    (hs : StableStores v hostId hostData cacheOf)
    (hok : (Verify v hostId (some hostData) false ⟨w, []⟩).1.2 = none)
    (hmet : unmetGroups (Verify v hostId (some hostData) false ⟨w, []⟩).2.calls = []) :
    (VerifyTimes v hostId (some hostData) false n ⟨w, []⟩).1 = List.replicate n (none, none) ∧
      persisted (VerifyTimes v hostId (some hostData) false n ⟨w, []⟩).2.calls = [] := by
  obtain ⟨hwUuid, w1, hparse, hnil, hsearch, hrun⟩ := Verify_first_call hs w hok hmet
  exact VerifyTimes_stable hs w hwUuid hparse hnil hsearch n ⟨w, []⟩ w1 hrun

/-- Witness for C7: host 5, whose cached flavor 10 matches the manifest, verified three
times without new data. -/
theorem Verify_idempotent_witness :
    (VerifyTimes Example.v1 5 (some Example.hd1) false 3 ⟨Example.w1, []⟩).1
        = [(none, none), (none, none), (none, none)] ∧
      persisted (VerifyTimes Example.v1 5 (some Example.hd1) false 3 ⟨Example.w1, []⟩).2.calls = [] :=
  Verify_idempotent Example.v1 5 Example.hd1 (fun w g => Example.cacheOf w 5 g) Example.w1 3
    Example.v1_stable (by decide) (by decide)

end idempotence

/-! ## The flavor digest -/

section digest

/-- C4: for every byte sequence that `Flavor.UnmarshalJSON` accepts (nil error), a
subsequent `getFlavorDigest` on that flavor returns exactly the SHA-384 digest of the
received bytes, whatever a re-serialisation of the parsed flavor would be, and leaves the
flavor as it is. -/
theorem Flavor_digest_of_unmarshal (c : Codec) (flavor parsed : Flavor) (flavorJSON : Bytes)
    (h : Flavor.UnmarshalJSON c flavor flavorJSON = (none, parsed)) :
    Flavor.getFlavorDigest c parsed = (Except.ok (c.sha384 flavorJSON), parsed) := by
  simp only [Flavor.UnmarshalJSON] at h
  split at h
  · simp at h
  · simp only [Flavor.calculateFlavorDigest] at h
    split at h
    · simp at h
    · simp only [Prod.mk.injEq, true_and] at h
      subst h
      simp [Flavor.getFlavorDigest]

/-- Witness for C4: the two bytes of an empty JSON object, decoded into a flavor. -/
theorem Flavor_digest_of_unmarshal_witness :
    Flavor.UnmarshalJSON Example.codec (Example.flavor 10 "b1").Flavor [123, 125]
        = (none, { (Example.flavor 10 "b1").Flavor with flavorDigest := some [2, 248] }) ∧
      Flavor.getFlavorDigest Example.codec
          { (Example.flavor 10 "b1").Flavor with flavorDigest := some [2, 248] }
        = (Except.ok (Example.codec.sha384 [123, 125]),
            { (Example.flavor 10 "b1").Flavor with flavorDigest := some [2, 248] }) :=
  ⟨by decide, Flavor_digest_of_unmarshal Example.codec (Example.flavor 10 "b1").Flavor _ [123, 125]
    (by decide)⟩

end digest

/-! ## The cached flavors of a flavor group -/

section cachedFlavors

variable {W R C : Type}

theorem getCachedFlavors_loop_spec (v : Verifier W R C) (flIds : List UUID) :
    ∀ (result : List SignedFlavor) (s : St W),
      (getCachedFlavors.loop v flIds result s).1
          = result ++ succeeded (retrieveEach v flIds s.world).1 ∧
        (getCachedFlavors.loop v flIds result s).2.world = (retrieveEach v flIds s.world).2 ∧
        (getCachedFlavors.loop v flIds result s).2.calls
          = s.calls ++ flIds.map Call.FlavorRetrieve := by
  induction flIds with
  | nil => intro result s; simp [getCachedFlavors.loop, retrieveEach, succeeded]
  | cons flvId rest ih =>
    intro result s
    cases hr : v.FlavorStore.Retrieve s.world flvId with
    | mk r w1 =>
      cases r with
      | ok flv =>
        obtain ⟨h1, h2, h3⟩ := ih (result ++ [flv]) (s.call (Call.FlavorRetrieve flvId) w1)
        simp only [getCachedFlavors.loop, retrieveEach, hr, h1, h2, h3]
        simp [succeeded, St.call]
      | error e =>
        obtain ⟨h1, h2, h3⟩ := ih result (s.call (Call.FlavorRetrieve flvId) w1)
        simp only [getCachedFlavors.loop, retrieveEach, hr, h1, h2, h3]
        simp [succeeded, St.call]

/-- C11: `getCachedFlavors` equals its reference definition for every host and group.
Its result and the world it leaves are those of `getCachedFlavorsSpec`; it fails if and
only if `HostStore.RetrieveTrustCacheFlavors` returns an error together with an empty ID
list; and when it does not fail (also when an error comes with a non-empty ID list) it
has looked up every ID once, in ID order, and returns exactly the flavors for which
`FlavorStore.Retrieve` succeeded, skipping the IDs whose lookup failed. -/
theorem getCachedFlavors_refines_spec (v : Verifier W R C) (hostId flavGrpId : UUID) (s : St W) :
    ((getCachedFlavors v hostId flavGrpId s).1, (getCachedFlavors v hostId flavGrpId s).2.world)
        = getCachedFlavorsSpec v hostId flavGrpId s.world ∧
    ((∃ e, (getCachedFlavors v hostId flavGrpId s).1 = Except.error e) ↔
      ((v.HostStore.RetrieveTrustCacheFlavors s.world hostId flavGrpId).1.2 ≠ none ∧
        (v.HostStore.RetrieveTrustCacheFlavors s.world hostId flavGrpId).1.1 = [])) ∧
    (¬ ((v.HostStore.RetrieveTrustCacheFlavors s.world hostId flavGrpId).1.2 ≠ none ∧
        (v.HostStore.RetrieveTrustCacheFlavors s.world hostId flavGrpId).1.1 = []) →
      (getCachedFlavors v hostId flavGrpId s).1
          = Except.ok (succeeded (retrieveEach v
              (v.HostStore.RetrieveTrustCacheFlavors s.world hostId flavGrpId).1.1
              (v.HostStore.RetrieveTrustCacheFlavors s.world hostId flavGrpId).2).1) ∧
        (getCachedFlavors v hostId flavGrpId s).2.calls
          = s.calls ++ Call.RetrieveTrustCacheFlavors hostId flavGrpId ::
              (v.HostStore.RetrieveTrustCacheFlavors s.world hostId flavGrpId).1.1.map
                Call.FlavorRetrieve) := by
  cases hr : v.HostStore.RetrieveTrustCacheFlavors s.world hostId flavGrpId with
  | mk res w1 =>
    obtain ⟨flIds, err⟩ := res
    obtain ⟨h1, h2, h3⟩ := getCachedFlavors_loop_spec v flIds []
      (s.call (Call.RetrieveTrustCacheFlavors hostId flavGrpId) w1)
    simp only [St.call] at h1 h2 h3
    cases err with
    | none =>
      simp only [getCachedFlavors, getCachedFlavorsSpec, hr, St.call, h1, h2, h3]
      simp
    | some e =>
      cases flIds with
      | nil => simp [getCachedFlavors, getCachedFlavorsSpec, hr, St.call]
      | cons a l =>
        simp only [getCachedFlavors, getCachedFlavorsSpec, hr, St.call, h1, h2, h3]
        simp [h2, h3]

end cachedFlavors

/-! ## The error of `SearchFlavorgroups` -/

section searchError

variable {W R C : Type}

theorem getCachedFlavors_loop_searchError (v : Verifier W R C) (err : W → UUID → Option Err)
    (flIds : List UUID) :
    ∀ (result : List SignedFlavor) (s : St W),
      getCachedFlavors.loop (withSearchError v err) flIds result s
        = getCachedFlavors.loop v flIds result s := by
  induction flIds with
  | nil => intro result s; rfl
  | cons flvId rest ih =>
    intro result s
    simp only [getCachedFlavors.loop, ih]
    rfl

theorem getCachedFlavors_searchError (v : Verifier W R C) (err : W → UUID → Option Err)
    (hostId flavGrpId : UUID) (s : St W) :
    getCachedFlavors (withSearchError v err) hostId flavGrpId s
      = getCachedFlavors v hostId flavGrpId s := by
  simp only [getCachedFlavors, getCachedFlavors_loop_searchError]
  rfl

theorem validateCachedFlavors_loop_searchError (v : Verifier W R C)
    (err : W → UUID → Option Err) (hostData : HostManifest) (cachedFlavors : List SignedFlavor) :
    ∀ (tf : List Flavor) (rs : List RuleResult) (del : List UUID) (s : St W),
      validateCachedFlavors.loop (withSearchError v err) hostData cachedFlavors tf rs del s
        = validateCachedFlavors.loop v hostData cachedFlavors tf rs del s := by
  induction cachedFlavors with
  | nil => intro tf rs del s; rfl
  | cons cf rest ih =>
    intro tf rs del s
    simp only [validateCachedFlavors.loop, ih]
    rfl

theorem validateCachedFlavors_searchError (v : Verifier W R C) (err : W → UUID → Option Err)
    (hostId : UUID) (hostData : HostManifest) (cachedFlavors : List SignedFlavor) (s : St W) :
    validateCachedFlavors (withSearchError v err) hostId hostData cachedFlavors s
      = validateCachedFlavors v hostId hostData cachedFlavors s := by
  simp only [validateCachedFlavors, validateCachedFlavors_loop_searchError]
  rfl

theorem Verify_group_searchError (v : Verifier W R C) (err : W → UUID → Option Err)
    (hostId hwUuid : UUID) (hostData : HostManifest) (fg : FlavorGroup) (s : St W) :
    Verify.group (withSearchError v err) hostId hwUuid hostData fg s
      = Verify.group v hostId hwUuid hostData fg s := by
  simp only [Verify.group, getCachedFlavors_searchError, validateCachedFlavors_searchError]
  rfl

theorem Verify_loop_searchError (v : Verifier W R C) (err : W → UUID → Option Err)
    (hostId hwUuid : UUID) (hostData : HostManifest) (flvGroups : List FlavorGroup) :
    ∀ (valid : Bool) (fin : TrustReport) (s : St W),
      Verify.loop (withSearchError v err) hostId hwUuid hostData flvGroups valid fin s
        = Verify.loop v hostId hwUuid hostData flvGroups valid fin s := by
  induction flvGroups with
  | nil => intro valid fin s; rfl
  | cons fg rest ih =>
    intro valid fin s
    simp only [Verify.loop, Verify_group_searchError, ih]

theorem Verify_collect_searchError (v : Verifier W R C) (err : W → UUID → Option Err)
    (hostId : UUID) (hostData : Option HostManifest) (s : St W) :
    Verify.collect (withSearchError v err) hostId hostData s
      = Verify.collect v hostId hostData s := by
  simp only [Verify.collect, Verify_loop_searchError]
  rfl

theorem Verify_persist_searchError (v : Verifier W R C) (err : W → UUID → Option Err)
    (hostId : UUID) (newData valid : Bool) (fin : TrustReport) (s : St W) :
    Verify.persist (withSearchError v err) hostId newData valid fin s
      = Verify.persist v hostId newData valid fin s := by
  rfl

end searchError

section searchErrorClaim

variable {W R C : Type}

/-- C17: `Verify` ignores the error returned by `HostStore.SearchFlavorgroups`.  For every
input, the outcome of `Verify` (the returned report, the returned error, the world and all
calls made) is the same whatever error `SearchFlavorgroups` returns next to its IDs.  With
a present manifest, `Verify` returns the store-access error exactly when the hardware UUID
is valid and `FlavorGroupStore.Search` returns an error; in that case it returns a nil
report, and the two searches are the only calls it makes. -/
theorem Verify_ignores_search_error (v : Verifier W R C) (err : W → UUID → Option Err)
    (hostId : UUID) (hostData : Option HostManifest) (hd : HostManifest) (newData : Bool)
    (s : St W) :
    Verify (withSearchError v err) hostId hostData newData s
        = Verify v hostId hostData newData s ∧
    ((Verify v hostId (some hd) newData s).1.2 = some errStoreAccess ↔
      ((∃ hwUuid, v.uuidParse hd.HostInfo.HardwareUUID = Except.ok hwUuid ∧ hwUuid ≠ uuid.Nil) ∧
        (v.FlavorGroupStore.Search (v.HostStore.SearchFlavorgroups s.world hostId).2
          (v.HostStore.SearchFlavorgroups s.world hostId).1.1).1.2 ≠ none)) ∧
    ((Verify v hostId (some hd) newData s).1.2 = some errStoreAccess →
      (Verify v hostId (some hd) newData s).1.1 = none ∧
      (Verify v hostId (some hd) newData s).2.calls
        = s.calls ++ [Call.SearchFlavorgroups hostId,
            Call.FlavorGroupSearch (v.HostStore.SearchFlavorgroups s.world hostId).1.1]) := by
  refine ⟨?_, ?_⟩
  · simp only [Verify, Verify_collect_searchError]
    rfl
  · have key : ∀ e, (Verify v hostId (some hd) newData s).1.2 = some e →
        (∃ cause msg, e = Err.wrap cause msg) ∨ e = ErrManifestMissingHwUUID ∨
        ((∃ hwUuid, v.uuidParse hd.HostInfo.HardwareUUID = Except.ok hwUuid ∧
            hwUuid ≠ uuid.Nil) ∧
          (v.FlavorGroupStore.Search (v.HostStore.SearchFlavorgroups s.world hostId).2
            (v.HostStore.SearchFlavorgroups s.world hostId).1.1).1.2 ≠ none ∧
          e = errStoreAccess ∧
          (Verify v hostId (some hd) newData s).1.1 = none ∧
          (Verify v hostId (some hd) newData s).2.calls
            = s.calls ++ [Call.SearchFlavorgroups hostId,
                Call.FlavorGroupSearch (v.HostStore.SearchFlavorgroups s.world hostId).1.1]) := by
      intro e he
      cases hc : Verify.collect v hostId (some hd) s with
      | mk res s1 =>
        cases res with
        | ok vf =>
          exfalso
          have := (Verify_persist_spec v hostId newData vf.1 vf.2 s1).1
          simp only [Verify, hc] at he
          rw [he] at this
          simp at this
        | error e1 =>
          have hV : Verify v hostId (some hd) newData s = ((none, some e1), s1) := by
            simp [Verify, hc]
          rw [hV] at he ⊢
          simp only [Option.some.injEq] at he
          subst he
          simp only [Verify.collect] at hc
          split at hc
          · next e0 hparse =>
            simp only [Prod.mk.injEq, Except.error.injEq] at hc
            exact Or.inr (Or.inl hc.1.symm)
          · next hwUuid hparse =>
            split at hc
            · simp only [Prod.mk.injEq, Except.error.injEq] at hc
              exact Or.inr (Or.inl hc.1.symm)
            · next hnil =>
              split at hc
              · next e2 herr =>
                simp only [Prod.mk.injEq, Except.error.injEq] at hc
                obtain ⟨h1, h2⟩ := hc
                refine Or.inr (Or.inr ⟨⟨hwUuid, hparse, hnil⟩, ?_, h1.symm, rfl, ?_⟩)
                · simp only [St.call] at herr
                  rw [herr]
                  simp
                · rw [← h2]
                  simp [St.call]
              · obtain ⟨cause, msg, h⟩ := Verify_loop_error v hostId hwUuid hd _ _ _ _ _ _ hc
                exact Or.inl ⟨cause, msg, h⟩
    refine ⟨⟨fun h => ?_, fun h => ?_⟩, fun h => ?_⟩
    · rcases key _ h with ⟨cause, msg, hw⟩ | hm | ⟨h1, h2, -⟩
      · simp [errStoreAccess] at hw
      · simp [errStoreAccess, ErrManifestMissingHwUUID] at hm
      · exact ⟨h1, h2⟩
    · obtain ⟨⟨hwUuid, hparse, hnil⟩, herr⟩ := h
      cases hs : (v.FlavorGroupStore.Search (v.HostStore.SearchFlavorgroups s.world hostId).2
          (v.HostStore.SearchFlavorgroups s.world hostId).1.1).1.2 with
      | none => exact absurd hs herr
      | some e2 =>
        simp only [Verify, Verify.collect, hparse, if_neg hnil, St.call, hs]
        rfl
    · rcases key _ h with ⟨cause, msg, hw⟩ | hm | ⟨-, -, -, h3, h4⟩
      · simp [errStoreAccess] at hw
      · simp [errStoreAccess, ErrManifestMissingHwUUID] at hm
      · exact ⟨h3, h4⟩

end searchErrorClaim

/-! ## The expected PCR values of a flavor -/

section pcr

/-- C14: for every flavor, bank and PCR index, `Flavor.GetPcrValue` returns the `PcrEx`
stored in `flavor.Pcrs` under the name of the bank and the string form of the index, with
no error, if and only if both the bank entry and the index entry exist; if the bank is
missing, or the index is missing within the bank, it returns a nil value and an error;
and it returns nothing else. -/
theorem Flavor_GetPcrValue_spec (indexString : PcrIndex → String) (flavor : Flavor)
    (bank : SHAAlgorithm) (index : PcrIndex) :
    (∀ pcr, Flavor.GetPcrValue indexString flavor bank index = (some pcr, none) ↔
      ∃ indexMap, flavor.Pcrs.lookup bank = some indexMap ∧
        indexMap.lookup (indexString index) = some pcr) ∧
    ((∃ e, Flavor.GetPcrValue indexString flavor bank index = (none, some e)) ↔
      (flavor.Pcrs.lookup bank = none ∨
        ∃ indexMap, flavor.Pcrs.lookup bank = some indexMap ∧
          indexMap.lookup (indexString index) = none)) ∧
    ((∃ pcr, Flavor.GetPcrValue indexString flavor bank index = (some pcr, none)) ∨
      ∃ e, Flavor.GetPcrValue indexString flavor bank index = (none, some e)) := by
  cases hb : flavor.Pcrs.lookup bank with
  | none =>
    have hval : ∃ e, Flavor.GetPcrValue indexString flavor bank index = (none, some e) :=
      ⟨_, by simp only [Flavor.GetPcrValue, hb]; rfl⟩
    obtain ⟨e, he⟩ := hval
    rw [he]
    refine ⟨fun pcr => ⟨fun h => by simp at h, fun h => ?_⟩,
      ⟨fun _ => Or.inl rfl, fun _ => ⟨_, rfl⟩⟩, Or.inr ⟨_, rfl⟩⟩
    obtain ⟨m, hm, -⟩ := h
    cases hm
  | some indexMap =>
    cases hi : indexMap.lookup (indexString index) with
    | none =>
      have hval : ∃ e, Flavor.GetPcrValue indexString flavor bank index = (none, some e) :=
        ⟨_, by simp only [Flavor.GetPcrValue, hb, hi]; rfl⟩
      obtain ⟨e, he⟩ := hval
      rw [he]
      refine ⟨fun pcr => ⟨fun h => by simp at h, fun h => ?_⟩,
        ⟨fun _ => Or.inr ⟨indexMap, rfl, hi⟩, fun _ => ⟨_, rfl⟩⟩, Or.inr ⟨_, rfl⟩⟩
      obtain ⟨m, hm, hl⟩ := h
      cases hm
      rw [hi] at hl
      cases hl
    | some pcrValue =>
      have hval : Flavor.GetPcrValue indexString flavor bank index = (some pcrValue, none) := by
        simp only [Flavor.GetPcrValue, hb, hi]
      rw [hval]
      refine ⟨fun pcr => ⟨fun h => ?_, fun h => ?_⟩, ⟨fun h => ?_, fun h => ?_⟩,
        Or.inl ⟨_, rfl⟩⟩
      · simp only [Prod.mk.injEq, Option.some.injEq, and_true] at h
        subst h
        exact ⟨indexMap, rfl, hi⟩
      · obtain ⟨m, hm, hl⟩ := h
        cases hm
        rw [hi] at hl
        cases hl
        rfl
      · obtain ⟨e, he⟩ := h
        simp at he
      · rcases h with h | ⟨m, hm, hl⟩
        · cases h
        · cases hm
          rw [hi] at hl
          cases hl

end pcr

/-! ## The data store -/

section datastore

variable {W DB : Type}

theorem postgres_connect_spec (d : postgres.Deps W DB) (args : String) (n : Nat) :
    ∀ (db : Option DB) (dbErr : Option Err) (w : W) (opened : Nat),
      (postgres.New.connect d args n db dbErr w opened).2.2 ≤ opened + n ∧
      (0 < n → opened < (postgres.New.connect d args n db dbErr w opened).2.2) ∧
      (0 < n → (postgres.New.connect d args n db dbErr w opened).1.2 = none →
        ∃ w0 w1 h, d.Open w0 "postgres" args = (Except.ok h, w1) ∧
          (postgres.New.connect d args n db dbErr w opened).1.1 = some h) := by
  induction n with
  | zero => intro db dbErr w opened; simp [postgres.New.connect]
  | succ n ih =>
    intro db dbErr w opened
    simp only [postgres.New.connect]
    cases ho : d.Open w "postgres" args with
    | mk r w1 =>
      cases r with
      | ok h =>
        refine ⟨by simp only; omega, fun _ => by simp only; omega, fun _ _ => ?_⟩
        exact ⟨w, w1, h, ho, rfl⟩
      | error e =>
        simp only
        obtain ⟨h1, h2, h3⟩ := ih none (some e) w1 (opened + 1)
        refine ⟨by omega, fun _ => ?_, fun _ hnone => ?_⟩
        · cases n with
          | zero => simp [postgres.New.connect]
          | succ m => have := h2 (Nat.succ_pos m); omega
        · cases n with
          | zero => simp [postgres.New.connect] at hnone
          | succ m => exact h3 (Nat.succ_pos m) hnone

/-- How far the contract of `New` holds: `New` returns an error without any connection
attempt if and only if one of `Host`, `Port`, `User`, `Password`, `Dbname` is empty; and
when `ConnRetryAttempts` is at least 1, a nil error comes with a handle that a call of
`gorm.Open` returned. -/
theorem postgres_New_spec (d : postgres.Deps W DB) (cfg : postgres.Config) (w : W) :
    (((postgres.New d cfg w).1.2 ≠ none ∧ (postgres.New d cfg w).2.2 = 0) ↔
      (cfg.Host = "" ∨ cfg.Port = "" ∨ cfg.User = "" ∨ cfg.Password = "" ∨ cfg.Dbname = "")) ∧
    (1 ≤ cfg.ConnRetryAttempts → (postgres.New d cfg w).1.2 = none →
      ∃ w0 w1 args h, d.Open w0 "postgres" args = (Except.ok h, w1) ∧
        (postgres.New d cfg w).1.1.Db = some h) := by
  by_cases hf : cfg.Host = "" ∨ cfg.Port = "" ∨ cfg.User = "" ∨ cfg.Password = "" ∨ cfg.Dbname = ""
  · simp [postgres.New, hf]
  · simp only [postgres.New, if_neg hf]
    generalize hargs : ("host=" ++ cfg.Host ++ " port=" ++ cfg.Port ++ " user=" ++ cfg.User
      ++ " dbname=" ++ cfg.Dbname ++ " password=" ++ cfg.Password ++ " cfg.SslMode=" ++ _ ++ _) = args
    obtain ⟨h1, h2, h3⟩ := postgres_connect_spec d args cfg.ConnRetryAttempts.toNat none none w 0
    cases hc : postgres.New.connect d args cfg.ConnRetryAttempts.toNat none none w 0 with
    | mk res rest =>
      obtain ⟨db, dbErr⟩ := res
      obtain ⟨w1, opened⟩ := rest
      rw [hc] at h1 h2 h3
      simp only at h1 h2 h3
      cases dbErr with
      | some e =>
        simp only [ne_eq, not_false_eq_true, true_and, hf, iff_false]
        refine ⟨?_, fun _ h => by simp at h⟩
        intro h0
        cases hn : cfg.ConnRetryAttempts.toNat with
        | zero => rw [hn] at hc; simp [postgres.New.connect] at hc
        | succ m => rw [hn] at h2; have := h2 (Nat.succ_pos m); omega
      | none =>
        simp only [ne_eq, not_true_eq_false, false_and, hf]
        refine ⟨trivial, fun hge _ => ?_⟩
        have hpos : 0 < cfg.ConnRetryAttempts.toNat := by omega
        obtain ⟨w0, w2, h, ho, hdb⟩ := h3 hpos rfl
        exact ⟨w0, w2, args, h, ho, hdb⟩

/-- C19, at the failing input: with every field of the configuration set and
`ConnRetryAttempts` 0, `New` makes no connection attempt and returns a nil error together
with a data store whose `Db` is nil. -/
theorem postgres_New_without_attempts :
    (postgres.New Example.pgDeps Example.pgNoAttempts ()).1.2 = none ∧
      (postgres.New Example.pgDeps Example.pgNoAttempts ()).1.1.Db = none ∧
      (postgres.New Example.pgDeps Example.pgNoAttempts ()).2.2 = 0 := by
  decide

end datastore

/-! ## The host report refresher -/

section refresher

open hrrs

theorem deleteReports_mock (S : List HVSReport) :
    ∀ w : MockWorld,
      MockHostTrustManager.deleteReports ⟨mockReportStore⟩ S w =
        { w with reports := w.reports.filter (fun r => S.all (fun s => r.ID != s.ID)) } := by
  induction S with
  | nil => intro w; simp [MockHostTrustManager.deleteReports]
  | cons s S ih =>
    intro w
    rw [MockHostTrustManager.deleteReports, ih]
    simp only [mockReportStore, List.filter_filter, List.all_cons]
    congr 1
    apply List.filter_congr
    intro r _
    exact Bool.and_comm _ _

theorem meets_host (h : UUID) :
    ReportFilterCriteria.meets ⟨some h, none⟩ = fun r => r.HostID == h := by
  funext r
  simp [ReportFilterCriteria.meets]

theorem mockReportStore_Search (w : MockWorld) (c : ReportFilterCriteria) :
    mockReportStore.Search w c = ((w.reports.filter c.meets, none), w) := rfl

theorem mockReportStore_Create (w : MockWorld) (r : HVSReport) :
    mockReportStore.Create w r = ((some r, none), { w with reports := w.reports ++ [r] }) := rfl

theorem mock_VerifyHostsAsync_cons (h : UUID) (rest : List UUID) (f p : Bool) (w : MockWorld) :
    MockHostTrustManager.VerifyHostsAsync mockSys ⟨mockReportStore⟩ (h :: rest) f p w =
      MockHostTrustManager.VerifyHostsAsync mockSys ⟨mockReportStore⟩ rest f p
        (mockReplace w h) := by
  rw [MockHostTrustManager.VerifyHostsAsync]
  simp only [mockReportStore_Search, mockReportStore_Create, meets_host, deleteReports_mock]
  rfl

theorem mockReplace_fresh (w : MockWorld) (h : UUID)
    (hfresh : ∀ r ∈ w.reports, r.ID < w.nextID) :
    ∀ r ∈ (mockReplace w h).reports, r.ID < (mockReplace w h).nextID := by
  intro r hr
  simp only [mockReplace, List.mem_append, List.mem_filter, List.mem_singleton] at hr ⊢
  rcases hr with ⟨hr, _⟩ | rfl
  · exact Nat.lt_succ_of_lt (hfresh r hr)
  · exact Nat.lt_succ_self _

theorem mockReplace_self (now : Nat) (w : MockWorld) (h : UUID)
    (hfresh : ∀ r ∈ w.reports, r.ID < w.nextID) (hnow : now ≤ w.clock) :
    Refreshed now (mockReplace w h) h := by
  refine ⟨mockReport w h, ?_, ?_, ?_⟩
  · simp only [reportsOf, mockReplace, List.filter_append, List.filter_filter]
    have h0 : w.reports.filter (fun a => a.HostID == h &&
        (w.reports.filter (fun r => r.HostID == h)).all (fun s => a.ID != s.ID)) = [] := by
      rw [List.filter_eq_nil_iff]
      intro a ha
      simp only [Bool.and_eq_true, beq_iff_eq, List.all_eq_true, List.mem_filter, bne_iff_ne,
        ne_eq, and_imp, not_and, not_forall, Classical.not_imp, not_not]
      intro hh
      exact ⟨a, ha, hh, rfl⟩
    rw [h0]
    simp [mockReport]
  · show now < w.clock + twentyFourHours
    simp only [twentyFourHours]; omega
  · intro x hx hid
    simp only [mockReplace, List.mem_append, List.mem_filter, List.mem_singleton] at hx
    rcases hx with ⟨hx, _⟩ | rfl
    · have := hfresh x hx
      exact absurd hid (Nat.ne_of_lt this)
    · rfl

theorem mockReplace_other (now : Nat) (w : MockWorld) (h k : UUID)
    (hfresh : ∀ r ∈ w.reports, r.ID < w.nextID) (hnow : now ≤ w.clock)
    (hk : Refreshed now w k) :
    Refreshed now (mockReplace w h) k := by
  by_cases hkh : k = h
  · subst hkh
    exact mockReplace_self now w k hfresh hnow
  · obtain ⟨r, hr, hexp, huniq⟩ := hk
    have hrmem : r ∈ w.reports ∧ r.HostID = k := by
      have : r ∈ reportsOf w k := by rw [hr]; exact List.mem_singleton_self r
      simpa [reportsOf] using this
    refine ⟨r, ?_, hexp, ?_⟩
    · simp only [reportsOf, mockReplace, List.filter_append, List.filter_filter]
      have h1 : w.reports.filter (fun a => a.HostID == k &&
          (w.reports.filter (fun r => r.HostID == h)).all (fun s => a.ID != s.ID)) =
          w.reports.filter (fun a => a.HostID == k) := by
        apply List.filter_congr
        intro a ha
        by_cases hak : a.HostID = k
        · have hain : a ∈ reportsOf w k := by simp [reportsOf, ha, hak]
          rw [hr, List.mem_singleton] at hain
          subst hain
          simp only [hak, beq_self_eq_true, Bool.true_and, List.all_eq_true, List.mem_filter,
            beq_iff_eq, bne_iff_ne, ne_eq, and_imp]
          intro s hs hsh hid
          have := huniq s hs hid.symm
          subst this
          exact hkh (hak.symm.trans hsh)
        · simp [hak]
      rw [h1]
      have h2 : [mockReport w h].filter (fun a => a.HostID == k) = [] := by
        simp [mockReport, Ne.symm hkh]
      rw [h2, List.append_nil]
      exact hr
    · intro x hx hid
      simp only [mockReplace, List.mem_append, List.mem_filter, List.mem_singleton] at hx
      rcases hx with ⟨hx, _⟩ | rfl
      · exact huniq x hx hid
      · have := hfresh r hrmem.1
        exact absurd hid.symm (Nat.ne_of_lt this)

theorem mock_VerifyHostsAsync_refreshes (now : Nat) (f p : Bool) (ids : List UUID) :
    ∀ w : MockWorld, (∀ r ∈ w.reports, r.ID < w.nextID) → now ≤ w.clock →
      (∀ h ∈ ids, Refreshed now
        (MockHostTrustManager.VerifyHostsAsync mockSys ⟨mockReportStore⟩ ids f p w).2 h) ∧
      (∀ k, Refreshed now w k → Refreshed now
        (MockHostTrustManager.VerifyHostsAsync mockSys ⟨mockReportStore⟩ ids f p w).2 k) := by
  induction ids with
  | nil =>
    intro w _ _
    exact ⟨fun h hh => absurd hh (List.not_mem_nil h),
      fun k hk => by simpa [MockHostTrustManager.VerifyHostsAsync] using hk⟩
  | cons h rest ih =>
    intro w hfresh hnow
    rw [mock_VerifyHostsAsync_cons]
    obtain ⟨ih1, ih2⟩ := ih (mockReplace w h) (mockReplace_fresh w h hfresh) hnow
    refine ⟨fun k hk => ?_, fun k hk => ih2 k (mockReplace_other now w h k hfresh hnow hk)⟩
    rcases List.mem_cons.mp hk with rfl | hk
    · exact ih2 k (mockReplace_self now w k hfresh hnow)
    · exact ih1 k hk

/-- C15: one tick of the refresher over the mock report store, at the time `w.clock` and
with the period `cfg.RefreshPeriod`.  Whatever the manager is, the tick calls
`VerifyHostsAsync` once, with `fetchHostData` true and `preferHashMatch` false, and the
host IDs it passes are exactly the hosts of the stored reports whose expiration is
earlier than `w.clock + cfg.RefreshPeriod`.  With the mock manager of the test, which
deletes the reports of each host it is given and creates one that expires in 24 hours,
every host of such a report ends with exactly one report, and that report expires after
`w.clock`. -/
theorem refreshTick_batch_refreshed (cfg : HRRSConfig) (w : MockWorld)
    (hfresh : ∀ r ∈ w.reports, r.ID < w.nextID) :
    (∀ mgr : HostTrustManager MockWorld, ∃ ids,
      (refreshTick mockSys mockReportStore mgr cfg w).1 = [⟨ids, true, false⟩] ∧
      (refreshTick mockSys mockReportStore mgr cfg w).2 =
        (mgr.VerifyHostsAsync w ids true false).2 ∧
      ∀ h, h ∈ ids ↔
        ∃ r ∈ w.reports, r.HostID = h ∧ r.Expiration < w.clock + cfg.RefreshPeriod) ∧
    (∀ r ∈ w.reports, r.Expiration < w.clock + cfg.RefreshPeriod →
      ∃ r1, reportsOf (refreshTick mockSys mockReportStore
          (MockHostTrustManager.asManager mockSys ⟨mockReportStore⟩) cfg w).2 r.HostID = [r1] ∧
        w.clock < r1.Expiration) := by
  have hmeets : ∀ r : HVSReport,
      ReportFilterCriteria.meets ⟨none, some (w.clock + cfg.RefreshPeriod)⟩ r = true ↔
        r.Expiration < w.clock + cfg.RefreshPeriod := by
    intro r
    simp [ReportFilterCriteria.meets]
  constructor
  · intro mgr
    refine ⟨(w.reports.filter
      (ReportFilterCriteria.meets ⟨none, some (w.clock + cfg.RefreshPeriod)⟩)).map
        (fun r : HVSReport => r.HostID), rfl, rfl, ?_⟩
    intro h
    simp only [List.mem_map, List.mem_filter, hmeets]
    constructor
    · rintro ⟨r, ⟨hr, hexp⟩, rfl⟩
      exact ⟨r, hr, rfl, hexp⟩
    · rintro ⟨r, hr, rfl, hexp⟩
      exact ⟨r, ⟨hr, hexp⟩, rfl⟩
  · intro r hr hexp
    have hmem : r.HostID ∈ (w.reports.filter
        (ReportFilterCriteria.meets ⟨none, some (w.clock + cfg.RefreshPeriod)⟩)).map
          (fun r => r.HostID) :=
      List.mem_map.mpr ⟨r, List.mem_filter.mpr ⟨hr, (hmeets r).mpr hexp⟩, rfl⟩
    obtain ⟨r1, h1, h2, -⟩ :=
      (mock_VerifyHostsAsync_refreshes w.clock true false _ w hfresh (Nat.le_refl _)).1
        r.HostID hmem
    exact ⟨r1, h1, h2⟩

/-- Witness for C15: at time 1000 with a period of 2 seconds, of the hosts 10 (report
expired at 5), 20 (report expiring at 1001) and 30 (report expiring at 5000) the tick
passes 10 and 20 to the manager. -/
theorem refreshTick_batch_refreshed_witness :
    (∀ r ∈ Example.refreshWorld.reports, r.ID < Example.refreshWorld.nextID) ∧
    ((∀ mgr : HostTrustManager MockWorld, ∃ ids,
      (refreshTick mockSys mockReportStore mgr ⟨2⟩ Example.refreshWorld).1 =
        [⟨ids, true, false⟩] ∧
      (refreshTick mockSys mockReportStore mgr ⟨2⟩ Example.refreshWorld).2 =
        (mgr.VerifyHostsAsync Example.refreshWorld ids true false).2 ∧
      ∀ h, h ∈ ids ↔
        ∃ r ∈ Example.refreshWorld.reports, r.HostID = h ∧
          r.Expiration < Example.refreshWorld.clock + (⟨2⟩ : HRRSConfig).RefreshPeriod) ∧
    (∀ r ∈ Example.refreshWorld.reports,
      r.Expiration < Example.refreshWorld.clock + (⟨2⟩ : HRRSConfig).RefreshPeriod →
      ∃ r1, reportsOf (refreshTick mockSys mockReportStore
          (MockHostTrustManager.asManager mockSys ⟨mockReportStore⟩) ⟨2⟩
            Example.refreshWorld).2 r.HostID = [r1] ∧
        Example.refreshWorld.clock < r1.Expiration)) ∧
    (refreshTick mockSys mockReportStore
      (MockHostTrustManager.asManager mockSys ⟨mockReportStore⟩) ⟨2⟩
        Example.refreshWorld).1 = [⟨[10, 20], true, false⟩] ∧
    (refreshTick mockSys mockReportStore
      (MockHostTrustManager.asManager mockSys ⟨mockReportStore⟩) ⟨2⟩
        Example.refreshWorld).2.reports.map (fun r => (r.ID, r.HostID, r.Expiration)) =
      [(3, 30, 5000), (4, 10, 87400), (5, 20, 87400)] :=
  ⟨by decide, refreshTick_batch_refreshed ⟨2⟩ Example.refreshWorld (by decide),
    by decide, by decide⟩


end refresher

/-! ## The record of the collaborators

What the collaborators of `recorded v` have recorded when a function of the verifier
returns. -/

section recordedCalls

variable {W R C : Type} {α : Type}

theorem recorded_Retrieve (v : Verifier W R C) (w : W × List (Event R)) (flvId : UUID) :
    (recorded v).FlavorStore.Retrieve w flvId
      = record w (v.FlavorStore.Retrieve w.1 flvId) (Event.FlavorRetrieve flvId) := rfl

theorem recorded_FlavorGroupSearch (v : Verifier W R C) (w : W × List (Event R))
    (ids : List UUID) :
    (recorded v).FlavorGroupStore.Search w ids
      = record w (v.FlavorGroupStore.Search w.1 ids) (Event.FlavorGroupSearch ids) := rfl

theorem recorded_SearchFlavorgroups (v : Verifier W R C) (w : W × List (Event R))
    (hostId : UUID) :
    (recorded v).HostStore.SearchFlavorgroups w hostId
      = record w (v.HostStore.SearchFlavorgroups w.1 hostId) (Event.SearchFlavorgroups hostId) :=
  rfl

theorem recorded_RetrieveTrustCacheFlavors (v : Verifier W R C) (w : W × List (Event R))
    (hostId fgId : UUID) :
    (recorded v).HostStore.RetrieveTrustCacheFlavors w hostId fgId
      = record w (v.HostStore.RetrieveTrustCacheFlavors w.1 hostId fgId)
          (Event.RetrieveTrustCacheFlavors hostId fgId) := rfl

theorem recorded_RemoveTrustCacheFlavors (v : Verifier W R C) (w : W × List (Event R))
    (hostId : UUID) (ids : List UUID) :
    (recorded v).HostStore.RemoveTrustCacheFlavors w hostId ids
      = record w (v.HostStore.RemoveTrustCacheFlavors w.1 hostId ids)
          (Event.RemoveTrustCacheFlavors hostId ids) := rfl

theorem recorded_Update (v : Verifier W R C) (w : W × List (Event R)) (r : HVSReport) :
    (recorded v).ReportStore.Update w r
      = record w (v.ReportStore.Update w.1 r) (Event.ReportUpdate r) := rfl

theorem recorded_FlavorVerify (v : Verifier W R C) (w : W × List (Event R))
    (hostData : HostManifest) (f : SignedFlavor) (skip : Bool) :
    (recorded v).FlavorVerifier.Verify w hostData f skip
      = record w (v.FlavorVerifier.Verify w.1 hostData f skip)
          (Event.FlavorVerify hostData f skip) := rfl

theorem recorded_NewFlvGrpHostTrustReqs (v : Verifier W R C) (w : W × List (Event R))
    (hostId hwUuid : UUID) (fg : FlavorGroup) (hostData : HostManifest) (skip : Bool) :
    (recorded v).NewFlvGrpHostTrustReqs w hostId hwUuid fg hostData skip
      = record w (v.NewFlvGrpHostTrustReqs w.1 hostId hwUuid fg hostData skip)
          (Event.NewFlvGrpHostTrustReqs hostId hwUuid fg hostData skip) := rfl

theorem recorded_CreateFlavorGroupReport (v : Verifier W R C) (w : W × List (Event R))
    (hostId : UUID) (reqs : R) (hostData : HostManifest) (cache : hostTrustCache) :
    (recorded v).CreateFlavorGroupReport w hostId reqs hostData cache
      = record w (v.CreateFlavorGroupReport w.1 hostId reqs hostData cache)
          (Event.CreateFlavorGroupReport hostId reqs hostData cache) := rfl

theorem recorded_GenerateSamlReport (v : Verifier W R C) (w : W × List (Event R))
    (issuer : IssuerConfiguration) (report : TrustReport) :
    (recorded v).GenerateSamlReport w issuer report
      = record w (v.GenerateSamlReport w.1 issuer report)
          (Event.GenerateSamlReport issuer report) := rfl

theorem recorded_skip (v : Verifier W R C) :
    (recorded v).SkipFlavorSignatureVerification = v.SkipFlavorSignatureVerification := rfl

theorem recorded_meets (v : Verifier W R C) :
    (recorded v).MeetsFlavorGroupReqs = v.MeetsFlavorGroupReqs := rfl

theorem recorded_certs (v : Verifier W R C) :
    (recorded v).FlavorVerifier.GetVerifierCerts = v.FlavorVerifier.GetVerifierCerts := rfl

theorem recorded_issuer (v : Verifier W R C) : (recorded v).SamlIssuer = v.SamlIssuer := rfl

theorem recorded_uuidParse (v : Verifier W R C) : (recorded v).uuidParse = v.uuidParse := rfl

/-- The look-ups of `getCachedFlavors`: every ID is looked up once, in order. -/
theorem getCachedFlavors_loop_recorded (v : Verifier W R C) (flIds : List UUID) :
    ∀ (result : List SignedFlavor) (s : St (W × List (Event R))),
      ∃ rs : List (Except Err SignedFlavor), rs.length = flIds.length ∧
        (getCachedFlavors.loop (recorded v) flIds result s).1 = result ++ succeeded rs ∧
        (getCachedFlavors.loop (recorded v) flIds result s).2.world.2
          = s.world.2 ++ Event.retrievals flIds rs := by
  induction flIds with
  | nil =>
    intro result s
    exact ⟨[], rfl, by simp [getCachedFlavors.loop, succeeded],
      by simp [getCachedFlavors.loop, Event.retrievals]⟩
  | cons flvId rest ih =>
    intro result s
    cases hr : v.FlavorStore.Retrieve s.world.1 flvId with
    | mk r w1 =>
      cases r with
      | ok flv =>
        obtain ⟨rs, h1, h2, h3⟩ := ih (result ++ [flv]) (s.call (Call.FlavorRetrieve flvId)
          (w1, s.world.2 ++ [Event.FlavorRetrieve flvId (Except.ok flv)]))
        refine ⟨Except.ok flv :: rs, by simp [h1], ?_, ?_⟩
        · simp only [getCachedFlavors.loop, recorded_Retrieve, record, hr, h2]
          simp [succeeded]
        · simp only [getCachedFlavors.loop, recorded_Retrieve, record, hr, h3]
          simp [Event.retrievals, St.call]
      | error e =>
        obtain ⟨rs, h1, h2, h3⟩ := ih result (s.call (Call.FlavorRetrieve flvId)
          (w1, s.world.2 ++ [Event.FlavorRetrieve flvId (Except.error e)]))
        refine ⟨Except.error e :: rs, by simp [h1], ?_, ?_⟩
        · simp only [getCachedFlavors.loop, recorded_Retrieve, record, hr, h2]
          simp [succeeded]
        · simp only [getCachedFlavors.loop, recorded_Retrieve, record, hr, h3]
          simp [Event.retrievals, St.call]

theorem getCachedFlavors_recorded (v : Verifier W R C) (hostId flavGrpId : UUID)
    (s s1 : St (W × List (Event R))) (flavors : List SignedFlavor)
    (h : getCachedFlavors (recorded v) hostId flavGrpId s = (Except.ok flavors, s1)) :
    ∃ (flIds : List UUID) (err : Option Err) (rs : List (Except Err SignedFlavor)),
      rs.length = flIds.length ∧ flavors = succeeded rs ∧
      s1.world.2 = s.world.2 ++
        Event.RetrieveTrustCacheFlavors hostId flavGrpId (flIds, err) ::
          Event.retrievals flIds rs := by
  cases hr : v.HostStore.RetrieveTrustCacheFlavors s.world.1 hostId flavGrpId with
  | mk res w1 =>
    obtain ⟨flIds, err⟩ := res
    obtain ⟨rs, h1, h2, h3⟩ := getCachedFlavors_loop_recorded v flIds []
      (s.call (Call.RetrieveTrustCacheFlavors hostId flavGrpId)
        (w1, s.world.2 ++ [Event.RetrieveTrustCacheFlavors hostId flavGrpId (flIds, err)]))
    refine ⟨flIds, err, rs, h1, ?_⟩
    simp only [getCachedFlavors, recorded_RetrieveTrustCacheFlavors, record, hr] at h
    split at h
    · simp at h
    · simp only [Prod.mk.injEq, Except.ok.injEq] at h
      obtain ⟨hf, hs⟩ := h
      constructor
      · rw [← hf, h2]; simp
      · rw [← hs, h3]; simp only [St.call, List.append_assoc, List.singleton_append]

end recordedCalls

section recordedValidation

variable {W R C : Type}

theorem partition_cons (f : SignedFlavor) (report : TrustReport) (flavors : List SignedFlavor)
    (reports : List TrustReport) :
    trustedFlavorsOf (f :: flavors) (report :: reports)
        = (if report.Trusted then [f.Flavor] else []) ++ trustedFlavorsOf flavors reports ∧
      trustedResultsOf (f :: flavors) (report :: reports)
        = (if report.Trusted then report.Results else []) ++ trustedResultsOf flavors reports ∧
      untrustedIdsOf (f :: flavors) (report :: reports)
        = (if report.Trusted then [] else [f.Flavor.Meta.ID]) ++ untrustedIdsOf flavors reports := by
  cases hT : report.Trusted <;>
    simp [trustedFlavorsOf, trustedResultsOf, untrustedIdsOf, List.filter_cons, hT]

/-- The loop of `validateCachedFlavors`, when it ends without an error: the flavor
verifier was called once per cached flavor, in order, with the manifest and the
signature flag of the verifier, and the accumulators were extended by the partition of
the flavors along the reports it returned. -/
theorem validateCachedFlavors_loop_recorded (v : Verifier W R C) (hostData : HostManifest)
    (cachedFlavors : List SignedFlavor) :
    ∀ (tf : List Flavor) (res : List RuleResult) (del : List UUID)
      (s s1 : St (W × List (Event R))) (tf1 : List Flavor) (res1 : List RuleResult)
      (del1 : List UUID),
      validateCachedFlavors.loop (recorded v) hostData cachedFlavors tf res del s
        = (Except.ok (tf1, res1, del1), s1) →
      ∃ reports : List TrustReport, reports.length = cachedFlavors.length ∧
        tf1 = tf ++ trustedFlavorsOf cachedFlavors reports ∧
        res1 = res ++ trustedResultsOf cachedFlavors reports ∧
        del1 = del ++ untrustedIdsOf cachedFlavors reports ∧
        s1.world.2 = s.world.2 ++
          Event.verifications hostData v.SkipFlavorSignatureVerification cachedFlavors reports := by
  induction cachedFlavors with
  | nil =>
    intro tf res del s s1 tf1 res1 del1 h
    simp only [validateCachedFlavors.loop, Prod.mk.injEq, Except.ok.injEq] at h
    obtain ⟨⟨rfl, rfl, rfl⟩, rfl⟩ := h
    exact ⟨[], rfl, by simp [trustedFlavorsOf], by simp [trustedResultsOf],
      by simp [untrustedIdsOf], by simp [Event.verifications]⟩
  | cons cf rest ih =>
    intro tf res del s s1 tf1 res1 del1 h
    cases hv : v.FlavorVerifier.Verify s.world.1 hostData cf v.SkipFlavorSignatureVerification with
    | mk r w1 =>
      cases r with
      | error e =>
        simp [validateCachedFlavors.loop, recorded_FlavorVerify, recorded_skip, record, hv] at h
      | ok report =>
        simp only [validateCachedFlavors.loop, recorded_FlavorVerify, recorded_skip, record, hv] at h
        cases hT : report.Trusted with
        | true =>
          simp only [hT, if_true] at h
          obtain ⟨reports, h1, h2, h3, h4, h5⟩ := ih _ _ _ _ _ _ _ _ h
          obtain ⟨p1, p2, p3⟩ := partition_cons cf report rest reports
          refine ⟨report :: reports, by simp [h1], ?_, ?_, ?_, ?_⟩
          · rw [h2, p1, hT]; simp
          · rw [h3, p2, hT]; simp
          · rw [h4, p3, hT]; simp
          · rw [h5]; simp [Event.verifications, St.call]
        | false =>
          simp only [hT, if_false, Bool.false_eq_true] at h
          obtain ⟨reports, h1, h2, h3, h4, h5⟩ := ih _ _ _ _ _ _ _ _ h
          obtain ⟨p1, p2, p3⟩ := partition_cons cf report rest reports
          refine ⟨report :: reports, by simp [h1], ?_, ?_, ?_, ?_⟩
          · rw [h2, p1, hT]; simp
          · rw [h3, p2, hT]; simp
          · rw [h4, p3, hT]; simp
          · rw [h5]; simp [Event.verifications, St.call]

/-- A call of `validateCachedFlavors` that returns a trust cache: the flavor verifier was
called once per cached flavor, then `RemoveTrustCacheFlavors` once, with the host and the
IDs of the flavors whose report is not trusted; the trust cache holds the host, the
trusted flavors and their results. -/
theorem validateCachedFlavors_recorded (v : Verifier W R C) (hostId : UUID)
    (hostData : HostManifest) (cachedFlavors : List SignedFlavor)
    (s s1 : St (W × List (Event R))) (cache : hostTrustCache)
    (h : validateCachedFlavors (recorded v) hostId hostData cachedFlavors s
      = (Except.ok cache, s1)) :
    ∃ (reports : List TrustReport) (removeResult : Option Err),
      reports.length = cachedFlavors.length ∧
      cache = validatedCacheOf hostId cachedFlavors reports ∧
      s1.world.2 = s.world.2 ++
        Event.validation hostId hostData v.SkipFlavorSignatureVerification cachedFlavors reports
          removeResult := by
  cases hl : validateCachedFlavors.loop (recorded v) hostData cachedFlavors [] [] [] s with
  | mk r s2 =>
    cases r with
    | error e => simp [validateCachedFlavors, hl] at h
    | ok acc =>
      obtain ⟨tf1, res1, del1⟩ := acc
      obtain ⟨reports, h1, h2, h3, h4, h5⟩ :=
        validateCachedFlavors_loop_recorded v hostData cachedFlavors _ _ _ _ _ _ _ _ hl
      simp only [List.nil_append] at h2 h3 h4
      subst h2 h3 h4
      refine ⟨reports, (v.HostStore.RemoveTrustCacheFlavors s2.world.1 hostId
        (untrustedIdsOf cachedFlavors reports)).1, h1, ?_⟩
      simp only [validateCachedFlavors, hl, recorded_RemoveTrustCacheFlavors, record,
        Prod.mk.injEq, Except.ok.injEq] at h
      obtain ⟨hc, hs⟩ := h
      constructor
      · rw [← hc]; rfl
      · rw [← hs]
        simp only [St.call, h5, Event.validation, List.append_assoc]

end recordedValidation

section recordedGroups

variable {W R C : Type}

theorem record_eq {α : Type} (w : W × List (Event R)) (out : α × W) (event : α → Event R)
    (a : α) (w1 : W × List (Event R)) (h : record w out event = (a, w1)) :
    out.1 = a ∧ w1.2 = w.2 ++ [event a] := by
  simp only [record, Prod.mk.injEq] at h
  obtain ⟨rfl, rfl⟩ := h
  exact ⟨rfl, rfl⟩

/-- One pass of the loop over the flavor groups that ends without an error follows step 4
of spec 4.2, as `GroupProtocol` states it on the recorded events. -/
theorem Verify_group_recorded (v : Verifier W R C) (hostId hwUuid : UUID)
    (hostData : HostManifest) (fg : FlavorGroup) (s s1 : St (W × List (Event R)))
    (met : Bool) (report : TrustReport)
    (h : Verify.group (recorded v) hostId hwUuid hostData fg s = (Except.ok (met, report), s1)) :
    ∃ events, s1.world.2 = s.world.2 ++ events ∧
      GroupProtocol v hostId hwUuid hostData fg ⟨events, met, report.Results⟩ := by
  simp only [Verify.group] at h
  split at h
  · simp at h
  · next reqs w hreq =>
    obtain ⟨-, hw⟩ := record_eq s.world
      (v.NewFlvGrpHostTrustReqs s.world.1 hostId hwUuid fg hostData
        v.SkipFlavorSignatureVerification)
      (Event.NewFlvGrpHostTrustReqs hostId hwUuid fg hostData
        v.SkipFlavorSignatureVerification) _ _ hreq
    split at h
    · simp at h
    · next cached s2 hc =>
      obtain ⟨flIds, err, rs, hlen, hcached, hs2⟩ :=
        getCachedFlavors_recorded v hostId fg.ID _ _ _ hc
      simp only [St.call] at hs2
      split at h
      · simp at h
      · next cache s3 hv =>
        have key : ∃ (reports : List TrustReport) (removeResult : Option Err),
            reports.length = cached.length ∧ cache = groupCacheOf hostId cached reports ∧
            s3.world.2 = s2.world.2 ++
              (if cached.length > 0 then
                Event.validation hostId hostData v.SkipFlavorSignatureVerification cached reports
                  removeResult
               else []) := by
          by_cases hpos : cached.length > 0
          · simp only [hpos, if_true] at hv
            obtain ⟨reports, removeResult, h1, h2, h3⟩ :=
              validateCachedFlavors_recorded v hostId hostData cached _ _ _ hv
            exact ⟨reports, removeResult, h1, by simp [groupCacheOf, hpos, h2],
              by simp [hpos, h3]⟩
          · simp only [hpos, if_false, Prod.mk.injEq, Except.ok.injEq] at hv
            obtain ⟨rfl, rfl⟩ := hv
            have hnil : cached = [] := by
              cases cached with
              | nil => rfl
              | cons a l => simp at hpos
            exact ⟨[], none, by simp [hnil], by simp [groupCacheOf, hpos], by simp [hpos]⟩
        obtain ⟨reports, removeResult, hr1, hr2, hr3⟩ := key
        subst hcached
        subst hr2
        simp only [recorded_meets, recorded_certs] at h
        cases hm : v.MeetsFlavorGroupReqs reqs (groupCacheOf hostId (succeeded rs) reports)
            v.FlavorVerifier.GetVerifierCerts with
        | false =>
          simp only [hm, Bool.not_false, if_true] at h
          split at h
          · simp at h
          · next created w5 hcr =>
            obtain ⟨-, hw5⟩ := record_eq
              (s3.note (Call.MeetsFlavorGroupReqs fg.ID
                (groupCacheOf hostId (succeeded rs) reports) false)).world
              (v.CreateFlavorGroupReport s3.world.1 hostId reqs hostData
                (groupCacheOf hostId (succeeded rs) reports))
              (Event.CreateFlavorGroupReport hostId reqs hostData
                (groupCacheOf hostId (succeeded rs) reports)) _ _ hcr
            simp only [Prod.mk.injEq, Except.ok.injEq] at h
            obtain ⟨⟨rfl, rfl⟩, rfl⟩ := h
            refine ⟨Event.NewFlvGrpHostTrustReqs hostId hwUuid fg hostData
                v.SkipFlavorSignatureVerification (Except.ok reqs) ::
              Event.RetrieveTrustCacheFlavors hostId fg.ID (flIds, err) ::
              (Event.retrievals flIds rs ++
                (if (succeeded rs).length > 0 then
                  Event.validation hostId hostData v.SkipFlavorSignatureVerification
                    (succeeded rs) reports removeResult
                 else []) ++
                [Event.CreateFlavorGroupReport hostId reqs hostData
                  (groupCacheOf hostId (succeeded rs) reports) (Except.ok created)]),
              ?_, reqs, flIds, err, rs, reports, removeResult, created, hlen, hr1, hm.symm, ?_, ?_⟩
            · simp only [St.call, St.note, hw5, hr3, hs2, hw, List.append_assoc,
                List.singleton_append, List.cons_append, List.nil_append]
            · simp
            · simp
        | true =>
          simp only [hm, Bool.not_true, Bool.false_eq_true, if_false, Prod.mk.injEq,
            Except.ok.injEq] at h
          obtain ⟨⟨rfl, rfl⟩, rfl⟩ := h
          refine ⟨Event.NewFlvGrpHostTrustReqs hostId hwUuid fg hostData
                v.SkipFlavorSignatureVerification (Except.ok reqs) ::
              Event.RetrieveTrustCacheFlavors hostId fg.ID (flIds, err) ::
              (Event.retrievals flIds rs ++
                (if (succeeded rs).length > 0 then
                  Event.validation hostId hostData v.SkipFlavorSignatureVerification
                    (succeeded rs) reports removeResult
                 else [])),
              ?_, reqs, flIds, err, rs, reports, removeResult, TrustReport.zero, hlen, hr1,
              hm.symm, ?_, ?_⟩
          · simp only [St.note, hr3, hs2, hw, List.append_assoc, List.singleton_append,
              List.cons_append, List.nil_append]
          · simp
          · simp

end recordedGroups

section recordedRun

variable {W R C : Type}

/-- The loop over the flavor groups, when it ends without an error: the groups were
handled in order, each as `GroupProtocol` says; `finalReportValid` stays true exactly
when every group was met, and the results of the groups were appended in order. -/
theorem Verify_loop_recorded (v : Verifier W R C) (hostId hwUuid : UUID)
    (hostData : HostManifest) (flvGroups : List FlavorGroup) :
    ∀ (valid : Bool) (fin : TrustReport) (s s1 : St (W × List (Event R))) (valid1 : Bool)
      (fin1 : TrustReport),
      Verify.loop (recorded v) hostId hwUuid hostData flvGroups valid fin s
        = (Except.ok (valid1, fin1), s1) →
      ∃ runs : List (GroupRun R),
        List.Forall₂ (GroupProtocol v hostId hwUuid hostData) flvGroups runs ∧
        s1.world.2 = s.world.2 ++ (runs.map GroupRun.events).flatten ∧
        valid1 = (valid && runs.all (fun g => g.met)) ∧
        fin1 = { fin with Results := fin.Results ++ (runs.map GroupRun.results).flatten } := by
  induction flvGroups with
  | nil =>
    intro valid fin s s1 valid1 fin1 h
    simp only [Verify.loop, Prod.mk.injEq, Except.ok.injEq] at h
    obtain ⟨⟨rfl, rfl⟩, rfl⟩ := h
    exact ⟨[], List.Forall₂.nil, by simp, by simp, by simp⟩
  | cons fg rest ih =>
    intro valid fin s s1 valid1 fin1 h
    simp only [Verify.loop] at h
    split at h
    · simp at h
    · next met rep s2 he =>
      obtain ⟨events, hev, hproto⟩ := Verify_group_recorded v hostId hwUuid hostData fg _ _ _ _ he
      obtain ⟨runs, h1, h2, h3, h4⟩ := ih _ _ _ _ _ _ h
      refine ⟨⟨events, met, rep.Results⟩ :: runs, List.Forall₂.cons hproto h1, ?_, ?_, ?_⟩
      · rw [h2]
        simp only [St.note, hev, List.map_cons, List.flatten_cons, List.append_assoc]
      · rw [h3]
        simp [Bool.and_assoc]
      · rw [h4]
        simp [TrustReport.AddResults]

/-- Lines 47-102 of `Verify`, when they end without an error, follow steps 1 to 4 of spec
4.2: the recorded events are those of `VerifyProtocol`, `finalReportValid` says whether
every group was met, and the final report holds the manifest and the results of the
groups. -/
theorem Verify_collect_recorded (v : Verifier W R C) (hostId : UUID) (hostData : HostManifest)
    (s s1 : St (W × List (Event R))) (valid : Bool) (fin : TrustReport)
    (h : Verify.collect (recorded v) hostId (some hostData) s = (Except.ok (valid, fin), s1)) :
    ∃ (groups : List FlavorGroup) (runs : List (GroupRun R)) (events : List (Event R)),
      VerifyProtocol v hostId hostData groups runs events ∧
      s1.world.2 = s.world.2 ++ events ∧
      valid = runs.all (fun g => g.met) ∧ fin = finalReportOf hostData runs := by
  simp only [Verify.collect] at h
  split at h
  · simp at h
  · next hwUuid hparse =>
    split at h
    · simp at h
    · next hnil =>
      cases hs : v.HostStore.SearchFlavorgroups s.world.1 hostId with
      | mk r1 w1 =>
        obtain ⟨flvGroupIds, err1⟩ := r1
        cases hg : v.FlavorGroupStore.Search w1 flvGroupIds with
        | mk r2 w2 =>
          obtain ⟨groups, err2⟩ := r2
          simp only [recorded_SearchFlavorgroups, recorded_FlavorGroupSearch, record, hs,
            St.call, hg] at h
          cases err2 with
          | some e => simp at h
          | none =>
            simp only at h
            obtain ⟨runs, h1, h2, h3, h4⟩ := Verify_loop_recorded v hostId hwUuid hostData _ _ _
              _ _ _ _ h
            refine ⟨groups, runs, _, ⟨hwUuid, flvGroupIds, err1, hparse, hnil, h1, rfl⟩, ?_, ?_,
              ?_⟩
            · rw [h2]; simp
            · rw [h3]; simp
            · rw [h4]; simp [finalReportOf]

/-- The persistence step (spec 4.2, step 5): when the final report has results and it is
not valid or there is new data, the SAML generator is called once, with the issuer of
the verifier and the final report as it stands, and then `ReportStore.Update` once, with
the record built from the host, the final report with `Trusted` assigned, and the
assertion that the generator returned; the report that `Update` returned is returned.
Otherwise nothing is called and a nil report is returned. -/
theorem Verify_persist_recorded (v : Verifier W R C) (hostId : UUID) (newData valid : Bool)
    (fin : TrustReport) (s : St (W × List (Event R))) :
    (fin.Results ≠ [] ∧ (valid = false ∨ newData = true) →
      ∃ (saml : SamlAssertion) (res : Option HVSReport × Option Err),
        (Verify.persist (recorded v) hostId newData valid fin s).2.world.2 = s.world.2 ++
          [Event.GenerateSamlReport v.SamlIssuer fin saml,
           Event.ReportUpdate
            { ID := uuid.Nil, HostID := hostId,
              TrustReport := { fin with Trusted := fin.IsTrusted },
              CreatedAt := saml.CreatedTime, Expiration := saml.ExpiryTime,
              Saml := saml.Assertion } res] ∧
        (Verify.persist (recorded v) hostId newData valid fin s).1 = (res.1, none)) ∧
    (¬ (fin.Results ≠ [] ∧ (valid = false ∨ newData = true)) →
      Verify.persist (recorded v) hostId newData valid fin s = ((none, none), s)) := by
  have hc : (decide (fin.Results.length > 0) && (!valid || newData)) = true ↔
      (fin.Results ≠ [] ∧ (valid = false ∨ newData = true)) := by
    cases hr : fin.Results <;> cases valid <;> cases newData <;> simp
  simp only [Verify.persist]
  by_cases hcond : (decide (fin.Results.length > 0) && (!valid || newData)) = true
  · have hcond2 := hc.mp hcond
    rw [if_pos hcond]
    refine ⟨fun _ => ?_, fun hn => absurd hcond2 hn⟩
    refine ⟨(v.GenerateSamlReport s.world.1 v.SamlIssuer fin).1, _, ?_, rfl⟩
    simp [storeTrustReport, recorded_GenerateSamlReport, recorded_Update, recorded_issuer,
      record, St.call]
  · have hcond2 := fun h => hcond (hc.mpr h)
    rw [if_neg hcond]
    exact ⟨fun h => absurd h hcond2, fun _ => rfl⟩

end recordedRun

/-! ## No persistence before the persistence step

Lines 47-102 of `Verify` call neither the SAML generator nor `ReportStore.Update`,
however they end. -/

section recordedBlind

variable {W R C : Type}

theorem getCachedFlavors_loop_blind (v : Verifier W R C) (flIds : List UUID) :
    ∀ (result : List SignedFlavor) (s : St (W × List (Event R))),
      (getCachedFlavors.loop (recorded v) flIds result s).2.world.2.filter Event.persists
        = s.world.2.filter Event.persists := by
  induction flIds with
  | nil => intro result s; rfl
  | cons flvId rest ih =>
    intro result s
    simp only [getCachedFlavors.loop]
    split
    · next flv w heq =>
      obtain ⟨-, hw⟩ := record_eq s.world (v.FlavorStore.Retrieve s.world.1 flvId)
        (Event.FlavorRetrieve flvId) _ _ heq
      rw [ih]
      simp [St.call, hw, Event.persists]
    · next e w heq =>
      obtain ⟨-, hw⟩ := record_eq s.world (v.FlavorStore.Retrieve s.world.1 flvId)
        (Event.FlavorRetrieve flvId) _ _ heq
      rw [ih]
      simp [St.call, hw, Event.persists]

theorem getCachedFlavors_blind (v : Verifier W R C) (hostId flavGrpId : UUID)
    (s : St (W × List (Event R))) :
    (getCachedFlavors (recorded v) hostId flavGrpId s).2.world.2.filter Event.persists
      = s.world.2.filter Event.persists := by
  simp only [getCachedFlavors, recorded_RetrieveTrustCacheFlavors, record]
  split <;> simp [getCachedFlavors_loop_blind, St.call, Event.persists]

theorem validateCachedFlavors_loop_blind (v : Verifier W R C) (hostData : HostManifest)
    (cachedFlavors : List SignedFlavor) :
    ∀ (tf : List Flavor) (rs : List RuleResult) (del : List UUID)
      (s : St (W × List (Event R))),
      (validateCachedFlavors.loop (recorded v) hostData cachedFlavors tf rs del s).2.world.2.filter
          Event.persists
        = s.world.2.filter Event.persists := by
  induction cachedFlavors with
  | nil => intro tf rs del s; rfl
  | cons cf rest ih =>
    intro tf rs del s
    simp only [validateCachedFlavors.loop]
    split
    · next e w heq =>
      obtain ⟨-, hw⟩ := record_eq s.world
        (v.FlavorVerifier.Verify s.world.1 hostData cf v.SkipFlavorSignatureVerification)
        (Event.FlavorVerify hostData cf v.SkipFlavorSignatureVerification) _ _ heq
      simp [St.call, hw, Event.persists]
    · next report w heq =>
      obtain ⟨-, hw⟩ := record_eq s.world
        (v.FlavorVerifier.Verify s.world.1 hostData cf v.SkipFlavorSignatureVerification)
        (Event.FlavorVerify hostData cf v.SkipFlavorSignatureVerification) _ _ heq
      split <;> (rw [ih]; simp [St.call, hw, Event.persists])

theorem validateCachedFlavors_blind (v : Verifier W R C) (hostId : UUID)
    (hostData : HostManifest) (cachedFlavors : List SignedFlavor)
    (s : St (W × List (Event R))) :
    (validateCachedFlavors (recorded v) hostId hostData cachedFlavors s).2.world.2.filter
        Event.persists
      = s.world.2.filter Event.persists := by
  have h := validateCachedFlavors_loop_blind v hostData cachedFlavors [] [] [] s
  simp only [validateCachedFlavors]
  split
  · next heq => rw [heq] at h; exact h
  · next heq =>
    rw [heq] at h
    simpa [recorded_RemoveTrustCacheFlavors, record, St.call, Event.persists] using h

theorem Verify_group_blind (v : Verifier W R C) (hostId hwUuid : UUID)
    (hostData : HostManifest) (fg : FlavorGroup) (s : St (W × List (Event R))) :
    (Verify.group (recorded v) hostId hwUuid hostData fg s).2.world.2.filter Event.persists
      = s.world.2.filter Event.persists := by
  simp only [Verify.group]
  split
  · next e w hreq =>
    obtain ⟨-, hw⟩ := record_eq s.world
      (v.NewFlvGrpHostTrustReqs s.world.1 hostId hwUuid fg hostData
        v.SkipFlavorSignatureVerification)
      (Event.NewFlvGrpHostTrustReqs hostId hwUuid fg hostData
        v.SkipFlavorSignatureVerification) _ _ hreq
    simp [St.call, hw, Event.persists]
  · next reqs w hreq =>
    obtain ⟨-, hw⟩ := record_eq s.world
      (v.NewFlvGrpHostTrustReqs s.world.1 hostId hwUuid fg hostData
        v.SkipFlavorSignatureVerification)
      (Event.NewFlvGrpHostTrustReqs hostId hwUuid fg hostData
        v.SkipFlavorSignatureVerification) _ _ hreq
    have h1 := getCachedFlavors_blind v hostId fg.ID
      (s.call (Call.NewFlvGrpHostTrustReqs hostId hwUuid fg.ID) w)
    have h0 : (s.call (Call.NewFlvGrpHostTrustReqs hostId hwUuid fg.ID) w).world.2.filter
        Event.persists = s.world.2.filter Event.persists := by
      simp [St.call, hw, Event.persists]
    rw [h0] at h1
    split
    · next e s2 hc => rw [hc] at h1; exact h1
    · next cached s2 hc =>
      rw [hc] at h1
      have h2 : ((if cached.length > 0 then
            validateCachedFlavors (recorded v) hostId hostData cached s2
          else (Except.ok hostTrustCache.zero, s2)).2.world.2.filter Event.persists)
            = s2.world.2.filter Event.persists := by
        split
        · exact validateCachedFlavors_blind v hostId hostData cached s2
        · rfl
      split
      · next e s3 hv => rw [hv] at h2; exact h2.trans h1
      · next cache s3 hv =>
        rw [hv] at h2
        simp only at h1 h2
        split
        · split
          · next e w5 hcr =>
            obtain ⟨-, hw5⟩ := record_eq (s3.note (Call.MeetsFlavorGroupReqs fg.ID cache
                ((recorded v).MeetsFlavorGroupReqs reqs cache
                  (recorded v).FlavorVerifier.GetVerifierCerts))).world
              (v.CreateFlavorGroupReport s3.world.1 hostId reqs hostData cache)
              (Event.CreateFlavorGroupReport hostId reqs hostData cache) _ _ hcr
            simp [St.call, St.note, hw5, Event.persists, h1, h2]
          · next created w5 hcr =>
            obtain ⟨-, hw5⟩ := record_eq (s3.note (Call.MeetsFlavorGroupReqs fg.ID cache
                ((recorded v).MeetsFlavorGroupReqs reqs cache
                  (recorded v).FlavorVerifier.GetVerifierCerts))).world
              (v.CreateFlavorGroupReport s3.world.1 hostId reqs hostData cache)
              (Event.CreateFlavorGroupReport hostId reqs hostData cache) _ _ hcr
            simp [St.call, St.note, hw5, Event.persists, h1, h2]
        · simp [St.note, h1, h2]

theorem Verify_loop_blind (v : Verifier W R C) (hostId hwUuid : UUID)
    (hostData : HostManifest) (flvGroups : List FlavorGroup) :
    ∀ (valid : Bool) (fin : TrustReport) (s : St (W × List (Event R))),
      (Verify.loop (recorded v) hostId hwUuid hostData flvGroups valid fin s).2.world.2.filter
          Event.persists
        = s.world.2.filter Event.persists := by
  induction flvGroups with
  | nil => intro valid fin s; rfl
  | cons fg rest ih =>
    intro valid fin s
    have hg := Verify_group_blind v hostId hwUuid hostData fg s
    simp only [Verify.loop]
    split
    · next e s1 he => rw [he] at hg; exact hg
    · next met rep s1 he =>
      rw [he] at hg
      rw [ih]
      simpa [St.note] using hg

theorem Verify_collect_blind (v : Verifier W R C) (hostId : UUID)
    (hostData : Option HostManifest) (s : St (W × List (Event R))) :
    (Verify.collect (recorded v) hostId hostData s).2.world.2.filter Event.persists
      = s.world.2.filter Event.persists := by
  simp only [Verify.collect]
  split
  · rfl
  · split
    · rfl
    · split
      · rfl
      · simp only [recorded_SearchFlavorgroups, recorded_FlavorGroupSearch, record, St.call]
        split
        · simp [Event.persists]
        · rw [Verify_loop_blind]
          simp [Event.persists]

end recordedBlind

/-! ## Recording does not change the run

The verifier over recording collaborators returns what the verifier over the plain
collaborators returns, and leaves the same world and the same call log. -/

section recordedErase

variable {W R C : Type}

theorem erase_world (s : St (W × List (Event R))) : s.erase.world = s.world.1 := rfl

theorem erase_call (s : St (W × List (Event R))) (c : Call) (w : W × List (Event R)) :
    (s.call c w).erase = s.erase.call c w.1 := rfl

theorem erase_note (s : St (W × List (Event R))) (c : Call) :
    (s.note c).erase = s.erase.note c := rfl

theorem getCachedFlavors_loop_erase (v : Verifier W R C) (flIds : List UUID) :
    ∀ (result : List SignedFlavor) (s : St (W × List (Event R))),
      Prod.map id St.erase (getCachedFlavors.loop (recorded v) flIds result s)
        = getCachedFlavors.loop v flIds result s.erase := by
  induction flIds with
  | nil => intro result s; rfl
  | cons flvId rest ih =>
    intro result s
    cases hr : v.FlavorStore.Retrieve s.world.1 flvId with
    | mk r w1 =>
      cases r with
      | ok flv =>
        simp only [getCachedFlavors.loop, recorded_Retrieve, record, St.erase, hr]
        exact ih _ _
      | error e =>
        simp only [getCachedFlavors.loop, recorded_Retrieve, record, St.erase, hr]
        exact ih _ _

theorem getCachedFlavors_erase (v : Verifier W R C) (hostId flavGrpId : UUID)
    (s : St (W × List (Event R))) :
    Prod.map id St.erase (getCachedFlavors (recorded v) hostId flavGrpId s)
      = getCachedFlavors v hostId flavGrpId s.erase := by
  cases hr : v.HostStore.RetrieveTrustCacheFlavors s.world.1 hostId flavGrpId with
  | mk res w1 =>
    obtain ⟨flIds, err⟩ := res
    have hl := getCachedFlavors_loop_erase v flIds []
      (s.call (Call.RetrieveTrustCacheFlavors hostId flavGrpId)
        (w1, s.world.2 ++ [Event.RetrieveTrustCacheFlavors hostId flavGrpId (flIds, err)]))
    rw [erase_call] at hl
    simp only [getCachedFlavors, recorded_RetrieveTrustCacheFlavors, record, erase_world, hr]
    split
    · rfl
    · rw [← hl]
      rfl

theorem validateCachedFlavors_loop_erase (v : Verifier W R C) (hostData : HostManifest)
    (cachedFlavors : List SignedFlavor) :
    ∀ (tf : List Flavor) (rs : List RuleResult) (del : List UUID)
      (s : St (W × List (Event R))),
      Prod.map id St.erase
          (validateCachedFlavors.loop (recorded v) hostData cachedFlavors tf rs del s)
        = validateCachedFlavors.loop v hostData cachedFlavors tf rs del s.erase := by
  induction cachedFlavors with
  | nil => intro tf rs del s; rfl
  | cons cf rest ih =>
    intro tf rs del s
    cases hv : v.FlavorVerifier.Verify s.world.1 hostData cf v.SkipFlavorSignatureVerification with
    | mk r w1 =>
      cases r with
      | error e =>
        simp only [validateCachedFlavors.loop, recorded_FlavorVerify, recorded_skip, record,
          St.erase, hv]
        rfl
      | ok report =>
        simp only [validateCachedFlavors.loop, recorded_FlavorVerify, recorded_skip, record,
          St.erase, hv]
        split
        · exact ih _ _ _ _
        · exact ih _ _ _ _

theorem validateCachedFlavors_erase (v : Verifier W R C) (hostId : UUID)
    (hostData : HostManifest) (cachedFlavors : List SignedFlavor)
    (s : St (W × List (Event R))) :
    Prod.map id St.erase (validateCachedFlavors (recorded v) hostId hostData cachedFlavors s)
      = validateCachedFlavors v hostId hostData cachedFlavors s.erase := by
  have hl := validateCachedFlavors_loop_erase v hostData cachedFlavors [] [] [] s
  cases h1 : validateCachedFlavors.loop (recorded v) hostData cachedFlavors [] [] [] s with
  | mk r s1 =>
    rw [h1] at hl
    simp only [validateCachedFlavors, h1, ← hl, Prod.map]
    cases r with
    | error e => rfl
    | ok acc => rfl

theorem Verify_group_erase (v : Verifier W R C) (hostId hwUuid : UUID)
    (hostData : HostManifest) (fg : FlavorGroup) (s : St (W × List (Event R))) :
    Prod.map id St.erase (Verify.group (recorded v) hostId hwUuid hostData fg s)
      = Verify.group v hostId hwUuid hostData fg s.erase := by
  cases hq : v.NewFlvGrpHostTrustReqs s.world.1 hostId hwUuid fg hostData
      v.SkipFlavorSignatureVerification with
  | mk r w1 =>
    cases r with
    | error e =>
      simp only [Verify.group, recorded_NewFlvGrpHostTrustReqs, recorded_skip, record,
        erase_world, hq]
      rfl
    | ok reqs =>
      have hc := getCachedFlavors_erase v hostId fg.ID
        (s.call (Call.NewFlvGrpHostTrustReqs hostId hwUuid fg.ID)
          (w1, s.world.2 ++ [Event.NewFlvGrpHostTrustReqs hostId hwUuid fg hostData
            v.SkipFlavorSignatureVerification (Except.ok reqs)]))
      rw [erase_call] at hc
      simp only [Verify.group, recorded_NewFlvGrpHostTrustReqs, recorded_skip, record,
        erase_world, hq]
      rw [← hc]
      cases h2 : getCachedFlavors (recorded v) hostId fg.ID
          (s.call (Call.NewFlvGrpHostTrustReqs hostId hwUuid fg.ID)
            (w1, s.world.2 ++ [Event.NewFlvGrpHostTrustReqs hostId hwUuid fg hostData
              v.SkipFlavorSignatureVerification (Except.ok reqs)])) with
      | mk r2 s2 =>
        cases r2 with
        | error e => rfl
        | ok cached =>
          simp only [Prod.map, id]
          have hv : Prod.map id St.erase
              (if cached.length > 0 then
                validateCachedFlavors (recorded v) hostId hostData cached s2
               else (Except.ok hostTrustCache.zero, s2))
              = (if cached.length > 0 then
                  validateCachedFlavors v hostId hostData cached s2.erase
                 else (Except.ok hostTrustCache.zero, s2.erase)) := by
            split
            · exact validateCachedFlavors_erase v hostId hostData cached s2
            · rfl
          rw [← hv]
          cases h3 : (if cached.length > 0 then
                validateCachedFlavors (recorded v) hostId hostData cached s2
               else (Except.ok hostTrustCache.zero, s2)) with
          | mk r3 s3 =>
            cases r3 with
            | error e => rfl
            | ok cache =>
              simp only [Prod.map, id, recorded_meets, recorded_certs,
                recorded_CreateFlavorGroupReport, record]
              cases hm : v.MeetsFlavorGroupReqs reqs cache v.FlavorVerifier.GetVerifierCerts with
              | true => rfl
              | false =>
                simp only [Bool.not_false, if_true]
                cases hcr : v.CreateFlavorGroupReport s3.world.1 hostId reqs hostData cache with
                | mk r4 w5 =>
                  have hcr2 : v.CreateFlavorGroupReport
                      (s3.erase.note (Call.MeetsFlavorGroupReqs fg.ID cache false)).world hostId
                      reqs hostData cache = (r4, w5) := hcr
                  have hcr3 : v.CreateFlavorGroupReport
                      (s3.note (Call.MeetsFlavorGroupReqs fg.ID cache false)).world.1 hostId
                      reqs hostData cache = (r4, w5) := hcr
                  simp only [hcr2, hcr3]
                  cases r4 with
                  | error e => rfl
                  | ok created => rfl

theorem Verify_loop_erase (v : Verifier W R C) (hostId hwUuid : UUID)
    (hostData : HostManifest) (flvGroups : List FlavorGroup) :
    ∀ (valid : Bool) (fin : TrustReport) (s : St (W × List (Event R))),
      Prod.map id St.erase (Verify.loop (recorded v) hostId hwUuid hostData flvGroups valid fin s)
        = Verify.loop v hostId hwUuid hostData flvGroups valid fin s.erase := by
  induction flvGroups with
  | nil => intro valid fin s; rfl
  | cons fg rest ih =>
    intro valid fin s
    have hg := Verify_group_erase v hostId hwUuid hostData fg s
    simp only [Verify.loop]
    rw [← hg]
    cases h1 : Verify.group (recorded v) hostId hwUuid hostData fg s with
    | mk r s1 =>
      cases r with
      | error e => rfl
      | ok res => exact ih _ _ _

theorem Verify_collect_erase (v : Verifier W R C) (hostId : UUID)
    (hostData : Option HostManifest) (s : St (W × List (Event R))) :
    Prod.map id St.erase (Verify.collect (recorded v) hostId hostData s)
      = Verify.collect v hostId hostData s.erase := by
  cases hostData with
  | none => rfl
  | some hd =>
    simp only [Verify.collect, recorded_uuidParse]
    cases hp : v.uuidParse hd.HostInfo.HardwareUUID with
    | error e => rfl
    | ok hwUuid =>
      simp only
      split
      · rfl
      · cases hs : v.HostStore.SearchFlavorgroups s.world.1 hostId with
        | mk r1 w1 =>
          obtain ⟨flvGroupIds, err1⟩ := r1
          cases hg : v.FlavorGroupStore.Search w1 flvGroupIds with
          | mk r2 w2 =>
            obtain ⟨groups, err2⟩ := r2
            have hl := Verify_loop_erase v hostId hwUuid hd groups true
              { HostManifest := hd, Trusted := false, Results := [] }
              ((s.call (Call.SearchFlavorgroups hostId)
                (w1, s.world.2 ++ [Event.SearchFlavorgroups hostId (flvGroupIds, err1)])).call
                (Call.FlavorGroupSearch flvGroupIds)
                (w2, s.world.2 ++ [Event.SearchFlavorgroups hostId (flvGroupIds, err1)] ++
                  [Event.FlavorGroupSearch flvGroupIds (groups, err2)]))
            rw [erase_call, erase_call] at hl
            have hg2 : v.FlavorGroupStore.Search
                (s.erase.call (Call.SearchFlavorgroups hostId) w1).world flvGroupIds
                  = ((groups, err2), w2) := hg
            have hg3 : v.FlavorGroupStore.Search
                (s.call (Call.SearchFlavorgroups hostId)
                  (w1, s.world.2 ++ [Event.SearchFlavorgroups hostId (flvGroupIds, err1)])).world.1
                  flvGroupIds = ((groups, err2), w2) := hg
            simp only [recorded_SearchFlavorgroups, recorded_FlavorGroupSearch, record, hs,
              erase_world, hg2, hg3]
            cases err2 with
            | some e => rfl
            | none => exact hl

theorem Verify_persist_erase (v : Verifier W R C) (hostId : UUID) (newData valid : Bool)
    (fin : TrustReport) (s : St (W × List (Event R))) :
    Prod.map id St.erase (Verify.persist (recorded v) hostId newData valid fin s)
      = Verify.persist v hostId newData valid fin s.erase := by
  simp only [Verify.persist]
  split <;> rfl

/-- The verifier over recording collaborators returns the report and the error that the
verifier over the plain collaborators returns, and leaves the same world and the same
call log. -/
theorem Verify_recorded_erase (v : Verifier W R C) (hostId : UUID)
    (hostData : Option HostManifest) (newData : Bool) (s : St (W × List (Event R))) :
    (Verify (recorded v) hostId hostData newData s).1 = (Verify v hostId hostData newData s.erase).1 ∧
      (Verify (recorded v) hostId hostData newData s).2.erase
        = (Verify v hostId hostData newData s.erase).2 := by
  have hc := Verify_collect_erase v hostId hostData s
  simp only [Verify]
  rw [← hc]
  cases h1 : Verify.collect (recorded v) hostId hostData s with
  | mk r s1 =>
    cases r with
    | error e => exact ⟨rfl, rfl⟩
    | ok res =>
      have hp := Verify_persist_erase v hostId newData res.1 res.2 s1
      simp only [Prod.map, id]
      rw [← hp]
      exact ⟨rfl, rfl⟩

end recordedErase

/-! ## A run of `Verify` over recording collaborators -/

section recordedVerify

variable {W R C : Type}

theorem filterMap_of_persists (p : Event R → Option α)
    (hp : ∀ e, Event.persists e = false → p e = none) (es : List (Event R))
    (h : es.filter Event.persists = []) : es.filterMap p = [] := by
  rw [List.filter_eq_nil_iff] at h
  rw [List.filterMap_eq_nil_iff]
  intro e he
  exact hp e (by simpa using h e he)

theorem asUpdate_of_persists (e : Event R) (h : Event.persists e = false) :
    Event.asUpdate e = none := by
  cases e <;> simp_all [Event.persists, Event.asUpdate]

theorem asSaml_of_persists (e : Event R) (h : Event.persists e = false) :
    Event.asSaml e = none := by
  cases e <;> simp_all [Event.persists, Event.asSaml]

/-- A run of `Verify` from an empty record.  Either it returns an error, and then neither
the SAML generator nor `ReportStore.Update` was called; or the manifest is present, the
steps 1 to 4 of spec 4.2 were followed (`VerifyProtocol`), without any call of the SAML
generator or of `ReportStore.Update`, and then step 5: when the final report has results
and some group was not met or there is new data, the SAML generator and then
`ReportStore.Update` were called, once each, with the final report and with the record
built from it, and the report that `Update` returned is returned with a nil error;
otherwise nothing more was called and a nil report is returned with a nil error. -/
theorem Verify_recorded_run (v : Verifier W R C) (hostId : UUID)
    (hostData : Option HostManifest) (newData : Bool) (w : W) :
    ((Verify (recorded v) hostId hostData newData (St.fresh R w)).1.2 ≠ none ∧
      (Verify (recorded v) hostId hostData newData (St.fresh R w)).2.world.2.filter
        Event.persists = []) ∨
    ∃ (hd : HostManifest) (groups : List FlavorGroup) (runs : List (GroupRun R))
      (events : List (Event R)),
      hostData = some hd ∧ VerifyProtocol v hostId hd groups runs events ∧
      events.filter Event.persists = [] ∧
      (((finalReportOf hd runs).Results ≠ [] ∧
          (runs.all (fun g => g.met) = false ∨ newData = true) ∧
          ∃ (saml : SamlAssertion) (res : Option HVSReport × Option Err),
            (Verify (recorded v) hostId hostData newData (St.fresh R w)).2.world.2 = events ++
              [Event.GenerateSamlReport v.SamlIssuer (finalReportOf hd runs) saml,
               Event.ReportUpdate
                { ID := uuid.Nil, HostID := hostId,
                  TrustReport := { finalReportOf hd runs with
                    Trusted := (finalReportOf hd runs).IsTrusted },
                  CreatedAt := saml.CreatedTime, Expiration := saml.ExpiryTime,
                  Saml := saml.Assertion } res] ∧
            (Verify (recorded v) hostId hostData newData (St.fresh R w)).1 = (res.1, none)) ∨
        (¬ ((finalReportOf hd runs).Results ≠ [] ∧
            (runs.all (fun g => g.met) = false ∨ newData = true)) ∧
          (Verify (recorded v) hostId hostData newData (St.fresh R w)).2.world.2 = events ∧
          (Verify (recorded v) hostId hostData newData (St.fresh R w)).1 = (none, none))) := by
  cases hostData with
  | none =>
    left
    simp [Verify, Verify.collect, St.fresh]
  | some hd =>
    have hb := Verify_collect_blind v hostId (some hd) (St.fresh R w)
    cases hc : Verify.collect (recorded v) hostId (some hd) (St.fresh R w) with
    | mk r s1 =>
      rw [hc] at hb
      simp only [St.fresh, List.filter_nil] at hb
      cases r with
      | error e =>
        left
        simp only [Verify, hc]
        exact ⟨by simp, hb⟩
      | ok vf =>
        obtain ⟨valid, fin⟩ := vf
        right
        obtain ⟨groups, runs, events, hproto, hev, hvalid, hfin⟩ :=
          Verify_collect_recorded v hostId hd _ _ _ _ hc
        simp only [St.fresh, List.nil_append] at hev
        have hV : Verify (recorded v) hostId (some hd) newData (St.fresh R w)
            = Verify.persist (recorded v) hostId newData valid fin s1 := by
          simp [Verify, hc]
        obtain ⟨hyes, hno⟩ := Verify_persist_recorded v hostId newData valid fin s1
        refine ⟨hd, groups, runs, events, rfl, hproto, by rw [← hev]; exact hb, ?_⟩
        rw [hV]
        subst hvalid hfin
        by_cases hcond : (finalReportOf hd runs).Results ≠ [] ∧
            (runs.all (fun g => g.met) = false ∨ newData = true)
        · left
          obtain ⟨saml, res, h1, h2⟩ := hyes hcond
          exact ⟨hcond.1, hcond.2, saml, res, by rw [h1, hev], h2⟩
        · right
          have := hno hcond
          exact ⟨hcond, by rw [this, hev], by rw [this]⟩

end recordedVerify

section recordedClaims

variable {W R C : Type}

theorem recordedUpdates_of_blind (es : List (Event R)) (h : es.filter Event.persists = []) :
    recordedUpdates es = [] :=
  filterMap_of_persists Event.asUpdate asUpdate_of_persists es h

theorem recordedSaml_of_blind (es : List (Event R)) (h : es.filter Event.persists = []) :
    recordedSaml es = [] :=
  filterMap_of_persists Event.asSaml asSaml_of_persists es h

theorem all_results_trusted (runs : List (GroupRun R)) :
    ((runs.map GroupRun.results).all fun x => x.all fun r => r.Trusted)
      = runs.all fun g => g.results.all fun r => r.Trusted := by
  induction runs with
  | nil => rfl
  | cons g rest ih => simp only [List.map_cons, List.all_cons, ih]

/-- A record that was handed to `ReportStore.Update` during a run of `Verify`: the
manifest was present, steps 1 to 4 of spec 4.2 were followed, and the run ended with one
call of the SAML generator on the final report and one call of `Update`, with the record
built from the host, the final report with `Trusted` assigned, and the assertion. -/
theorem Verify_recorded_persisted (v : Verifier W R C) (hostId : UUID)
    (hostData : Option HostManifest) (newData : Bool) (w : W) (record : HVSReport)
    (res : Option HVSReport × Option Err)
    (hr : (record, res) ∈
      recordedUpdates (Verify (recorded v) hostId hostData newData (St.fresh R w)).2.world.2) :
    ∃ (hd : HostManifest) (groups : List FlavorGroup) (runs : List (GroupRun R))
      (events : List (Event R)) (saml : SamlAssertion),
      hostData = some hd ∧ VerifyProtocol v hostId hd groups runs events ∧
      events.filter Event.persists = [] ∧
      (Verify (recorded v) hostId hostData newData (St.fresh R w)).2.world.2 = events ++
        [Event.GenerateSamlReport v.SamlIssuer (finalReportOf hd runs) saml,
         Event.ReportUpdate record res] ∧
      record =
        { ID := uuid.Nil, HostID := hostId,
          TrustReport := { finalReportOf hd runs with
            Trusted := (finalReportOf hd runs).IsTrusted },
          CreatedAt := saml.CreatedTime, Expiration := saml.ExpiryTime,
          Saml := saml.Assertion } := by
  rcases Verify_recorded_run v hostId hostData newData w with ⟨-, hblind⟩ |
    ⟨hd, groups, runs, events, hhd, hproto, hblind, hrun⟩
  · rw [recordedUpdates_of_blind _ hblind] at hr
    simp at hr
  · rcases hrun with ⟨-, -, saml, res1, htrace, -⟩ | ⟨-, htrace, -⟩
    · rw [htrace] at hr ⊢
      simp only [recordedUpdates, List.filterMap_append] at hr
      have h0 := recordedUpdates_of_blind _ hblind
      simp only [recordedUpdates] at h0
      simp only [h0, List.nil_append, List.filterMap_cons, Event.asUpdate, List.filterMap_nil,
        List.mem_singleton, Prod.mk.injEq] at hr
      obtain ⟨rfl, rfl⟩ := hr
      exact ⟨hd, groups, runs, events, saml, hhd, hproto, hblind, rfl, rfl⟩
    · rw [htrace, recordedUpdates_of_blind _ hblind] at hr
      simp at hr

/-- C1: for every host id, manifest and `newData` flag for which `Verify` returns no
error (the hardware UUID is valid and no call on the way to the persistence step fails),
the collaborators, when they record their calls, were called as steps 1 to 4 of spec 4.2
say, which gives one run per flavor group of the host, with its verdict
`MeetsFlavorGroupReqs` on the validated trust cache and its results.  If the accumulated
results are non-empty and (some group failed `MeetsFlavorGroupReqs`, or `newData` is
true), `ReportStore.Update` was called exactly once, as the last call, right after the
SAML generator; in every other case nothing more was called, `ReportStore.Update` was
called zero times and `Verify` returns a nil report with a nil error. -/
theorem Verify_update_once_iff (v : Verifier W R C) (hostId : UUID) (hostData : HostManifest)
    (newData : Bool) (w : W)
    (hok : (Verify v hostId (some hostData) newData ⟨w, []⟩).1.2 = none) :
    ∃ (groups : List FlavorGroup) (runs : List (GroupRun R)) (events : List (Event R)),
      VerifyProtocol v hostId hostData groups runs events ∧
      ((runs.map GroupRun.results).flatten ≠ [] ∧
          ((∃ g ∈ runs, g.met = false) ∨ newData = true) →
        (∃ t saml record res,
          (Verify (recorded v) hostId (some hostData) newData (St.fresh R w)).2.world.2
            = events ++ [Event.GenerateSamlReport v.SamlIssuer t saml,
                Event.ReportUpdate record res]) ∧
        (recordedUpdates
          (Verify (recorded v) hostId (some hostData) newData (St.fresh R w)).2.world.2).length
            = 1) ∧
      (¬ ((runs.map GroupRun.results).flatten ≠ [] ∧
          ((∃ g ∈ runs, g.met = false) ∨ newData = true)) →
        (Verify (recorded v) hostId (some hostData) newData (St.fresh R w)).2.world.2 = events ∧
        (recordedUpdates
          (Verify (recorded v) hostId (some hostData) newData (St.fresh R w)).2.world.2).length
            = 0 ∧
        (Verify v hostId (some hostData) newData ⟨w, []⟩).1 = (none, none)) := by
  have he : (Verify (recorded v) hostId (some hostData) newData (St.fresh R w)).1
      = (Verify v hostId (some hostData) newData ⟨w, []⟩).1 :=
    (Verify_recorded_erase v hostId (some hostData) newData (St.fresh R w)).1
  rcases Verify_recorded_run v hostId (some hostData) newData w with ⟨herr, -⟩ |
    ⟨hd, groups, runs, events, hhd, hproto, hblind, hrun⟩
  · rw [he] at herr
    exact absurd hok herr
  · simp only [Option.some.injEq] at hhd
    subst hhd
    have hall : (runs.all (fun g => g.met) = false) ↔ ∃ g ∈ runs, g.met = false := by
      rw [Bool.eq_false_iff, ne_eq, List.all_eq_true]
      simp
    have h0 := recordedUpdates_of_blind _ hblind
    refine ⟨groups, runs, events, hproto, ?_, ?_⟩
    · intro hcond
      rcases hrun with ⟨-, -, saml, res, htrace, -⟩ | ⟨hn, -, -⟩
      · refine ⟨⟨_, saml, _, res, htrace⟩, ?_⟩
        rw [htrace]
        simp only [recordedUpdates] at h0
        simp [recordedUpdates, List.filterMap_append, h0, Event.asUpdate]
      · exact absurd ⟨hcond.1, hcond.2.imp_left hall.mpr⟩ hn
    · intro hcond
      rcases hrun with ⟨h1, h2, -⟩ | ⟨-, htrace, hres⟩
      · exact absurd ⟨h1, h2.imp_left hall.mp⟩ hcond
      · exact ⟨htrace, by rw [htrace, h0]; rfl, by rw [← he]; exact hres⟩

/-- C2: whenever `Verify` persists a report, that is, whenever `ReportStore.Update` was
handed a record, the `Trusted` bit of the trust report in that record is the
conjunction, over the flavor groups of the host, of the group's report being trusted
(every one of its results trusted), where the groups and their reports are those of
steps 1 to 4 of spec 4.2; equivalently it is the conjunction of `Result.Trusted` over all
results of the persisted report, which are the results of the groups, in order. -/
theorem Verify_persisted_trusted (v : Verifier W R C) (hostId : UUID)
    (hostData : Option HostManifest) (newData : Bool) (w : W) (record : HVSReport)
    (res : Option HVSReport × Option Err)
    (hr : (record, res) ∈
      recordedUpdates (Verify (recorded v) hostId hostData newData (St.fresh R w)).2.world.2) :
    ∃ (hd : HostManifest) (groups : List FlavorGroup) (runs : List (GroupRun R))
      (events : List (Event R)) (t : TrustReport) (saml : SamlAssertion),
      hostData = some hd ∧ VerifyProtocol v hostId hd groups runs events ∧
      (Verify (recorded v) hostId hostData newData (St.fresh R w)).2.world.2 = events ++
        [Event.GenerateSamlReport v.SamlIssuer t saml, Event.ReportUpdate record res] ∧
      record.TrustReport.Trusted
        = runs.all (fun g => g.results.all (fun x => x.Trusted)) ∧
      record.TrustReport.Results = (runs.map GroupRun.results).flatten ∧
      record.TrustReport.Trusted = record.TrustReport.Results.all (fun x => x.Trusted) := by
  obtain ⟨hd, groups, runs, events, saml, hhd, hproto, -, htrace, hrec⟩ :=
    Verify_recorded_persisted v hostId hostData newData w record res hr
  refine ⟨hd, groups, runs, events, _, saml, hhd, hproto, htrace, ?_, ?_, ?_⟩
  · rw [hrec]
    simp only [TrustReport.IsTrusted, finalReportOf, List.all_flatten]
    exact all_results_trusted runs
  · rw [hrec]; rfl
  · rw [hrec]; rfl

/-- C13: whenever `Verify` persists a report, the SAML generator was called exactly once
and `ReportStore.Update` exactly once, and the record handed to `ReportStore.Update` has
`HostID` equal to the host id given to `Verify`, `CreatedAt` and `Expiration` equal to the
created and expiry times of the assertion that the SAML generator returned, `Saml` equal
to the text of that assertion, and a trust report that embeds the host manifest given to
`Verify` unchanged. -/
theorem Verify_persisted_record (v : Verifier W R C) (hostId : UUID)
    (hostData : Option HostManifest) (newData : Bool) (w : W) (record : HVSReport)
    (res : Option HVSReport × Option Err)
    (hr : (record, res) ∈
      recordedUpdates (Verify (recorded v) hostId hostData newData (St.fresh R w)).2.world.2) :
    ∃ (t : TrustReport) (saml : SamlAssertion),
      recordedSaml (Verify (recorded v) hostId hostData newData (St.fresh R w)).2.world.2
        = [(t, saml)] ∧
      recordedUpdates (Verify (recorded v) hostId hostData newData (St.fresh R w)).2.world.2
        = [(record, res)] ∧
      record.HostID = hostId ∧ record.CreatedAt = saml.CreatedTime ∧
      record.Expiration = saml.ExpiryTime ∧ record.Saml = saml.Assertion ∧
      some record.TrustReport.HostManifest = hostData := by
  obtain ⟨hd, groups, runs, events, saml, hhd, -, hblind, htrace, hrec⟩ :=
    Verify_recorded_persisted v hostId hostData newData w record res hr
  have h0 := recordedUpdates_of_blind _ hblind
  have h1 := recordedSaml_of_blind _ hblind
  simp only [recordedUpdates, recordedSaml] at h0 h1
  refine ⟨finalReportOf hd runs, saml, ?_, ?_, ?_, ?_, ?_, ?_, ?_⟩
  · rw [htrace]
    simp [recordedSaml, List.filterMap_append, h1, Event.asSaml]
  · rw [htrace]
    simp [recordedUpdates, List.filterMap_append, h0, Event.asUpdate]
  · rw [hrec]
  · rw [hrec]
  · rw [hrec]
  · rw [hrec]
  · rw [hrec, hhd]; rfl

/-- C18, as the code has it: whenever `Verify` persists a report, the SAML generator was
called exactly once, before `ReportStore.Update`, with a trust report that has the host
manifest and the results of the persisted one, so `IsTrusted` agrees on both; but the
`Trusted` field is assigned after the SAML report is generated: it is false in the report
given to the SAML generator and the conjunction of the results in the persisted report.
The two reports are equal exactly when some result is not trusted. -/
theorem Verify_saml_input_vs_persisted (v : Verifier W R C) (hostId : UUID)
    (hostData : Option HostManifest) (newData : Bool) (w : W) (record : HVSReport)
    (res : Option HVSReport × Option Err)
    (hr : (record, res) ∈
      recordedUpdates (Verify (recorded v) hostId hostData newData (St.fresh R w)).2.world.2) :
    ∃ (t : TrustReport) (saml : SamlAssertion) (events : List (Event R)),
      (Verify (recorded v) hostId hostData newData (St.fresh R w)).2.world.2 = events ++
        [Event.GenerateSamlReport v.SamlIssuer t saml, Event.ReportUpdate record res] ∧
      recordedSaml (Verify (recorded v) hostId hostData newData (St.fresh R w)).2.world.2
        = [(t, saml)] ∧
      t.HostManifest = record.TrustReport.HostManifest ∧
      t.Results = record.TrustReport.Results ∧
      t.IsTrusted = record.TrustReport.IsTrusted ∧
      t.Trusted = false ∧ record.TrustReport.Trusted = t.IsTrusted ∧
      (t = record.TrustReport ↔ t.IsTrusted = false) := by
  obtain ⟨hd, groups, runs, events, saml, hhd, -, hblind, htrace, hrec⟩ :=
    Verify_recorded_persisted v hostId hostData newData w record res hr
  have h1 := recordedSaml_of_blind _ hblind
  simp only [recordedSaml] at h1
  refine ⟨finalReportOf hd runs, saml, events, htrace, ?_, ?_, ?_, ?_, rfl, ?_, ?_⟩
  · rw [htrace]
    simp [recordedSaml, List.filterMap_append, h1, Event.asSaml]
  · rw [hrec]
  · rw [hrec]
  · rw [hrec]; rfl
  · rw [hrec]
  · rw [hrec]
    constructor
    · intro h
      have := congrArg TrustReport.Trusted h
      simp only [finalReportOf] at this
      exact this.symm
    · intro h
      show finalReportOf hd runs = { finalReportOf hd runs with
        Trusted := (finalReportOf hd runs).IsTrusted }
      rw [h]
      rfl

end recordedClaims

section recordedResults

variable {W R C : Type}

/-- C12: for every run of `Verify` that reaches the persistence step, the collaborators
were called as steps 1 to 4 of spec 4.2 say, for the flavor groups in the order in which
`FlavorGroupStore.Search` returned them, and the results of the final trust report are the
concatenation, in that order, of one list of results per flavor group: those of the
validated-cache report when `MeetsFlavorGroupReqs` holds of the requirements of the group
and its trust cache, and those of the report that `CreateFlavorGroupReport` returned
otherwise.  Satisfied and unsatisfied groups alike contribute, and a record handed to
`ReportStore.Update` carries these results. -/
theorem Verify_final_results (v : Verifier W R C) (hostId : UUID) (hostData : HostManifest)
    (newData : Bool) (w : W) (valid : Bool) (fin : TrustReport)
    (s1 : St (W × List (Event R)))
    (h : Verify.collect (recorded v) hostId (some hostData) (St.fresh R w)
      = (Except.ok (valid, fin), s1)) :
    ∃ (groups : List FlavorGroup) (runs : List (GroupRun R)),
      VerifyProtocol v hostId hostData groups runs s1.world.2 ∧
      fin.Results = (runs.map GroupRun.results).flatten ∧
      (∀ record res, (record, res) ∈ recordedUpdates
          (Verify (recorded v) hostId (some hostData) newData (St.fresh R w)).2.world.2 →
        record.TrustReport.Results = fin.Results) := by
  obtain ⟨groups, runs, events, hproto, hev, -, hfin⟩ :=
    Verify_collect_recorded v hostId hostData _ _ _ _ h
  simp only [St.fresh, List.nil_append] at hev
  refine ⟨groups, runs, by rw [hev]; exact hproto, by rw [hfin]; rfl, ?_⟩
  intro record res hr
  have hb := Verify_collect_blind v hostId (some hostData) (St.fresh R w)
  rw [h] at hb
  simp only [St.fresh, List.filter_nil] at hb
  have h0 := recordedUpdates_of_blind _ hb
  have hV : Verify (recorded v) hostId (some hostData) newData (St.fresh R w)
      = Verify.persist (recorded v) hostId newData valid fin s1 := by
    simp [Verify, h]
  obtain ⟨hyes, hno⟩ := Verify_persist_recorded v hostId newData valid fin s1
  rw [hV] at hr
  by_cases hcond : fin.Results ≠ [] ∧ (valid = false ∨ newData = true)
  · obtain ⟨saml, res1, htrace, -⟩ := hyes hcond
    rw [htrace] at hr
    simp only [recordedUpdates] at h0
    simp only [recordedUpdates, List.filterMap_append, h0, List.nil_append, List.filterMap_cons,
      Event.asUpdate, List.filterMap_nil, List.mem_singleton, Prod.mk.injEq] at hr
    rw [hr.1]
  · rw [hno hcond, h0] at hr
    simp at hr

/-- C10: cache validation partitions its input.  On a list of cached flavors on which the
flavor verifier never errors, `validateCachedFlavors` returns a trust cache; the flavor
verifier was called once per cached flavor, in input order, with the manifest and the
signature flag of the verifier, and then `HostStore.RemoveTrustCacheFlavors` once, and
nothing else was called; with `reports` the reports that the flavor verifier returned,
`trustedFlavors` are exactly the cached flavors whose report is trusted, in input order;
`trustReport.Results` is the in-order concatenation of exactly those flavors' results; and
the ID list passed to `HostStore.RemoveTrustCacheFlavors`, for the host, is exactly the IDs
of the remaining (untrusted) cached flavors, in input order. -/
theorem validateCachedFlavors_partition (v : Verifier W R C) (hostId : UUID)
    (hostData : HostManifest) (cachedFlavors : List SignedFlavor) (w : W)
    (hnever : ∀ w f, f ∈ cachedFlavors → ∃ report w1,
      v.FlavorVerifier.Verify w hostData f v.SkipFlavorSignatureVerification = (Except.ok report, w1)) :
    ∃ (reports : List TrustReport) (removeResult : Option Err) (htc : hostTrustCache)
      (s1 : St (W × List (Event R))),
      validateCachedFlavors (recorded v) hostId hostData cachedFlavors (St.fresh R w)
        = (Except.ok htc, s1) ∧
      reports.length = cachedFlavors.length ∧
      s1.world.2 =
        Event.verifications hostData v.SkipFlavorSignatureVerification cachedFlavors reports ++
          [Event.RemoveTrustCacheFlavors hostId
            (((cachedFlavors.zip reports).filter (fun x => !x.2.Trusted)).map
              (fun x => x.1.Flavor.Meta.ID)) removeResult] ∧
      htc.hostID = hostId ∧
      htc.trustedFlavors
        = ((cachedFlavors.zip reports).filter (fun x => x.2.Trusted)).map (fun x => x.1.Flavor) ∧
      htc.trustReport.Results
        = (((cachedFlavors.zip reports).filter (fun x => x.2.Trusted)).map
            (fun x => x.2.Results)).flatten := by
  have hnever1 : ∀ (w : W × List (Event R)) f, f ∈ cachedFlavors → ∃ report w1,
      (recorded v).FlavorVerifier.Verify w hostData f
        (recorded v).SkipFlavorSignatureVerification = (Except.ok report, w1) := by
    intro w0 f hf
    obtain ⟨report, w1, hv⟩ := hnever w0.1 f hf
    exact ⟨report, (w1, w0.2 ++ [Event.FlavorVerify hostData f
      v.SkipFlavorSignatureVerification (Except.ok report)]),
      by simp only [recorded_FlavorVerify, recorded_skip, record, hv]⟩
  obtain ⟨vs, s0, hl, -⟩ := validateCachedFlavors_loop_partition (recorded v) hostData
    cachedFlavors hnever1 [] [] [] (St.fresh R w)
  cases hv : validateCachedFlavors (recorded v) hostId hostData cachedFlavors (St.fresh R w) with
  | mk r s1 =>
    cases r with
    | error e => simp [validateCachedFlavors, hl] at hv
    | ok htc =>
      obtain ⟨reports, removeResult, h1, h2, h3⟩ :=
        validateCachedFlavors_recorded v hostId hostData cachedFlavors _ _ _ hv
      refine ⟨reports, removeResult, htc, s1, rfl, h1, ?_, ?_, ?_, ?_⟩
      · rw [h3]
        simp [St.fresh, Event.validation, untrustedIdsOf]
      · rw [h2]; rfl
      · rw [h2]; rfl
      · rw [h2]; rfl

end recordedResults

section recordedWitnesses

/-- Witness for C1: host 5 with both flavors cached and new data.  The requirements were
built for host 5, hardware UUID 1 and group 1, and the report was stored once. -/
theorem Verify_update_once_iff_witness :
    (Verify Example.v1 5 (some Example.hd1) true ⟨Example.w1, []⟩).1.2 = none ∧
      recordedNewReqs (Verify (recorded Example.v1) 5 (some Example.hd1) true
        (St.fresh FlavorGroup Example.w1)).2.world.2 = [(5, 1, { ID := 1, Name := "automatic" })] ∧
      (recordedUpdates (Verify (recorded Example.v1) 5 (some Example.hd1) true
        (St.fresh FlavorGroup Example.w1)).2.world.2).map Prod.fst = [Example.report1] ∧
      ∃ (groups : List FlavorGroup) (runs : List (GroupRun FlavorGroup))
        (events : List (Event FlavorGroup)),
        VerifyProtocol Example.v1 5 Example.hd1 groups runs events ∧
        ((runs.map GroupRun.results).flatten ≠ [] ∧
            ((∃ g ∈ runs, g.met = false) ∨ true = true) →
          (∃ t saml record res,
            (Verify (recorded Example.v1) 5 (some Example.hd1) true
                (St.fresh FlavorGroup Example.w1)).2.world.2
              = events ++ [Event.GenerateSamlReport Example.v1.SamlIssuer t saml,
                  Event.ReportUpdate record res]) ∧
          (recordedUpdates (Verify (recorded Example.v1) 5 (some Example.hd1) true
            (St.fresh FlavorGroup Example.w1)).2.world.2).length = 1) ∧
        (¬ ((runs.map GroupRun.results).flatten ≠ [] ∧
            ((∃ g ∈ runs, g.met = false) ∨ true = true)) →
          (Verify (recorded Example.v1) 5 (some Example.hd1) true
            (St.fresh FlavorGroup Example.w1)).2.world.2 = events ∧
          (recordedUpdates (Verify (recorded Example.v1) 5 (some Example.hd1) true
            (St.fresh FlavorGroup Example.w1)).2.world.2).length = 0 ∧
          (Verify Example.v1 5 (some Example.hd1) true ⟨Example.w1, []⟩).1 = (none, none)) :=
  ⟨by decide, by decide, by decide,
    Verify_update_once_iff Example.v1 5 Example.hd1 true Example.w1 (by decide)⟩

/-- Witness for C2: the record handed to `ReportStore.Update` for host 5 is trusted, as
its one group is. -/
theorem Verify_persisted_trusted_witness :
    (Example.report1, (some Example.report1, none)) ∈
        recordedUpdates (Verify (recorded Example.v1) 5 (some Example.hd1) true
          (St.fresh FlavorGroup Example.w1)).2.world.2 ∧
      Example.report1.TrustReport.Trusted = true ∧
      ∃ (hd : HostManifest) (groups : List FlavorGroup) (runs : List (GroupRun FlavorGroup))
        (events : List (Event FlavorGroup)) (t : TrustReport) (saml : SamlAssertion),
        some Example.hd1 = some hd ∧ VerifyProtocol Example.v1 5 hd groups runs events ∧
        (Verify (recorded Example.v1) 5 (some Example.hd1) true
            (St.fresh FlavorGroup Example.w1)).2.world.2 = events ++
          [Event.GenerateSamlReport Example.v1.SamlIssuer t saml,
            Event.ReportUpdate Example.report1 (some Example.report1, none)] ∧
        Example.report1.TrustReport.Trusted
          = runs.all (fun g => g.results.all (fun x => x.Trusted)) ∧
        Example.report1.TrustReport.Results = (runs.map GroupRun.results).flatten ∧
        Example.report1.TrustReport.Trusted
          = Example.report1.TrustReport.Results.all (fun x => x.Trusted) :=
  ⟨by decide, by decide,
    Verify_persisted_trusted Example.v1 5 (some Example.hd1) true Example.w1 Example.report1
      (some Example.report1, none) (by decide)⟩

/-- Witness for C13: the record handed to `ReportStore.Update` for host 5 carries the
times and the text of the assertion generated at time 1000. -/
theorem Verify_persisted_record_witness :
    (Example.report1, (some Example.report1, none)) ∈
        recordedUpdates (Verify (recorded Example.v1) 5 (some Example.hd1) true
          (St.fresh FlavorGroup Example.w1)).2.world.2 ∧
      (recordedSaml (Verify (recorded Example.v1) 5 (some Example.hd1) true
          (St.fresh FlavorGroup Example.w1)).2.world.2).map Prod.snd
        = [{ Assertion := "saml", CreatedTime := 1000, ExpiryTime := 87400 }] ∧
      ∃ (t : TrustReport) (saml : SamlAssertion),
        recordedSaml (Verify (recorded Example.v1) 5 (some Example.hd1) true
            (St.fresh FlavorGroup Example.w1)).2.world.2 = [(t, saml)] ∧
        recordedUpdates (Verify (recorded Example.v1) 5 (some Example.hd1) true
            (St.fresh FlavorGroup Example.w1)).2.world.2
          = [(Example.report1, (some Example.report1, none))] ∧
        Example.report1.HostID = 5 ∧ Example.report1.CreatedAt = saml.CreatedTime ∧
        Example.report1.Expiration = saml.ExpiryTime ∧
        Example.report1.Saml = saml.Assertion ∧
        some Example.report1.TrustReport.HostManifest = some Example.hd1 :=
  ⟨by decide, by decide,
    Verify_persisted_record Example.v1 5 (some Example.hd1) true Example.w1 Example.report1
      (some Example.report1, none) (by decide)⟩

/-- Witness for C18 as amended: for host 5 the SAML generator was given the report with
`Trusted` false and the record handed to `ReportStore.Update` has `Trusted` true. -/
theorem Verify_saml_input_vs_persisted_witness :
    (Example.report1, (some Example.report1, none)) ∈
        recordedUpdates (Verify (recorded Example.v1) 5 (some Example.hd1) true
          (St.fresh FlavorGroup Example.w1)).2.world.2 ∧
      ∃ (t : TrustReport) (saml : SamlAssertion) (events : List (Event FlavorGroup)),
        (Verify (recorded Example.v1) 5 (some Example.hd1) true
            (St.fresh FlavorGroup Example.w1)).2.world.2 = events ++
          [Event.GenerateSamlReport Example.v1.SamlIssuer t saml,
            Event.ReportUpdate Example.report1 (some Example.report1, none)] ∧
        recordedSaml (Verify (recorded Example.v1) 5 (some Example.hd1) true
            (St.fresh FlavorGroup Example.w1)).2.world.2 = [(t, saml)] ∧
        t.HostManifest = Example.report1.TrustReport.HostManifest ∧
        t.Results = Example.report1.TrustReport.Results ∧
        t.IsTrusted = Example.report1.TrustReport.IsTrusted ∧
        t.Trusted = false ∧ Example.report1.TrustReport.Trusted = t.IsTrusted ∧
        (t = Example.report1.TrustReport ↔ t.IsTrusted = false) :=
  ⟨by decide,
    Verify_saml_input_vs_persisted Example.v1 5 (some Example.hd1) true Example.w1
      Example.report1 (some Example.report1, none) (by decide)⟩

/-- C18 as stated does not hold: for host 5, verified in `w1` against `hd1` with new data,
the one trust report given to the SAML generator has `Trusted` false, the one trust
report handed to `ReportStore.Update` has `Trusted` true, and the two differ. -/
theorem saml_input_differs_from_persisted :
    (recordedSaml (Verify (recorded Example.v1) 5 (some Example.hd1) true
        (St.fresh FlavorGroup Example.w1)).2.world.2).map Prod.fst
      = [{ Example.report1.TrustReport with Trusted := false }] ∧
    (recordedUpdates (Verify (recorded Example.v1) 5 (some Example.hd1) true
        (St.fresh FlavorGroup Example.w1)).2.world.2).map (fun x => x.1.TrustReport)
      = [Example.report1.TrustReport] ∧
    Example.report1.TrustReport.Trusted = true ∧
    Example.report1.TrustReport ≠ { Example.report1.TrustReport with Trusted := false } := by
  decide

/-- Witness for C12: host 5 in two flavor groups; group 1 is satisfied by the cached
flavor 10, group 2 is not satisfied and gets the report of `CreateFlavorGroupReport`, and
the final results hold the results of both, in that order. -/
theorem Verify_final_results_witness :
    (Verify.collect (recorded Example.v4) 5 (some Example.hd1)
        (St.fresh FlavorGroup Example.w1)).1
      = Except.ok (false,
          { HostManifest := Example.hd1, Trusted := false,
            Results := [{ Rule := "bios", FlavorId := 10, Trusted := true },
                        { Rule := "flavor-match", FlavorId := 2, Trusted := false }] }) ∧
    recordedNewReqs (Verify.collect (recorded Example.v4) 5 (some Example.hd1)
        (St.fresh FlavorGroup Example.w1)).2.world.2
      = [(5, 1, { ID := 1, Name := "automatic" }), (5, 1, { ID := 2, Name := "platform" })] ∧
    (recordedCreated (Verify.collect (recorded Example.v4) 5 (some Example.hd1)
        (St.fresh FlavorGroup Example.w1)).2.world.2).map (fun x => (x.1, x.2.2.Results))
      = [(5, [{ Rule := "flavor-match", FlavorId := 2, Trusted := false }])] ∧
    ∃ (groups : List FlavorGroup) (runs : List (GroupRun FlavorGroup)),
      VerifyProtocol Example.v4 5 Example.hd1 groups runs
        (Verify.collect (recorded Example.v4) 5 (some Example.hd1)
          (St.fresh FlavorGroup Example.w1)).2.world.2 ∧
      [{ Rule := "bios", FlavorId := 10, Trusted := true },
        { Rule := "flavor-match", FlavorId := 2, Trusted := false }]
        = (runs.map GroupRun.results).flatten ∧
      (∀ record res, (record, res) ∈ recordedUpdates
          (Verify (recorded Example.v4) 5 (some Example.hd1) true
            (St.fresh FlavorGroup Example.w1)).2.world.2 →
        record.TrustReport.Results
          = [{ Rule := "bios", FlavorId := 10, Trusted := true },
              { Rule := "flavor-match", FlavorId := 2, Trusted := false }]) :=
  ⟨rfl, by decide, by decide,
    Verify_final_results Example.v4 5 Example.hd1 true Example.w1 false _
      (Verify.collect (recorded Example.v4) 5 (some Example.hd1)
        (St.fresh FlavorGroup Example.w1)).2 rfl⟩

/-- Witness for C10: the two cached flavors of host 5, of which the second does not match
the manifest: flavor 10 is kept with its result and the ID 11 is handed to
`RemoveTrustCacheFlavors`. -/
theorem validateCachedFlavors_partition_witness :
    (validateCachedFlavors (recorded Example.v1) 5 Example.hd1 Example.flavors
        (St.fresh FlavorGroup Example.w1)).1
      = Except.ok
          { hostID := 5, trustedFlavors := [(Example.flavor 10 "b1").Flavor],
            trustReport := { TrustReport.zero with
              Results := [{ Rule := "bios", FlavorId := 10, Trusted := true }] } } ∧
    (recordedVerified (validateCachedFlavors (recorded Example.v1) 5 Example.hd1 Example.flavors
        (St.fresh FlavorGroup Example.w1)).2.world.2).map (fun x => (x.2.1, x.2.2.2.Trusted))
      = [(Example.flavor 10 "b1", true), (Example.flavor 11 "b2", false)] ∧
    recordedRemovals (validateCachedFlavors (recorded Example.v1) 5 Example.hd1 Example.flavors
        (St.fresh FlavorGroup Example.w1)).2.world.2 = [(5, [11])] ∧
    ∃ (reports : List TrustReport) (removeResult : Option Err) (htc : hostTrustCache)
      (s1 : St (Example.Mem × List (Event FlavorGroup))),
      validateCachedFlavors (recorded Example.v1) 5 Example.hd1 Example.flavors
          (St.fresh FlavorGroup Example.w1) = (Except.ok htc, s1) ∧
      reports.length = Example.flavors.length ∧
      s1.world.2 =
        Event.verifications Example.hd1 Example.v1.SkipFlavorSignatureVerification
            Example.flavors reports ++
          [Event.RemoveTrustCacheFlavors 5
            (((Example.flavors.zip reports).filter (fun x => !x.2.Trusted)).map
              (fun x => x.1.Flavor.Meta.ID)) removeResult] ∧
      htc.hostID = 5 ∧
      htc.trustedFlavors
        = ((Example.flavors.zip reports).filter (fun x => x.2.Trusted)).map
            (fun x => x.1.Flavor) ∧
      htc.trustReport.Results
        = (((Example.flavors.zip reports).filter (fun x => x.2.Trusted)).map
            (fun x => x.2.Results)).flatten :=
  ⟨rfl, by decide, by decide,
    validateCachedFlavors_partition Example.v1 5 Example.hd1 Example.flavors Example.w1
      (fun w _ _ => ⟨_, w, rfl⟩)⟩

end recordedWitnesses


end HVS
